import Mathlib

/-!
Shallow embedding of LEMON's `Suurballe` class (src/lemon/suurballe.h):
an algorithm finding `k` arc-disjoint paths of minimum total length from a
source node to a target node in a digraph, implemented as a specialized
successive-shortest-path method with node potentials.

Digraphs are finite: nodes are `0 .. numNodes-1`, arcs are indices into an
explicit list of `(source, target, length)` triples; arc iteration order is
the list order (the C++ iteration order is implementation defined).
The binary heap (`lemon/bin_heap.h`, not part of the sources here) is
modelled from the spec's heap contract: tri-state membership, minimum
priority at the top, tie order unconstrained; we take the least node index
among ties.
-/

namespace Suurballe

/-- A digraph: nodes `0 .. numNodes-1`; arc `a` is the `a`-th entry of
`arcs`, a triple (source, target, length). -/
structure Digraph where
  numNodes : Nat
  arcs : List (Nat × Nat × Int)
deriving DecidableEq, Repr

/-- Source node of arc `a` (`_graph.source(e)`). -/
def arcSrc (G : Digraph) (a : Nat) : Nat := (G.arcs.getD a (0, 0, 0)).1

/-- Target node of arc `a` (`_graph.target(e)`). -/
def arcTgt (G : Digraph) (a : Nat) : Nat := (G.arcs.getD a (0, 0, 0)).2.1

/-- Length of arc `a` (`_length[e]`). -/
def arcLen (G : Digraph) (a : Nat) : Int := (G.arcs.getD a (0, 0, 0)).2.2

/-- All arc indices, in iteration order (`ArcIt`). -/
def arcIds (G : Digraph) : List Nat := List.range G.arcs.length

/-- All node indices (`NodeIt`). -/
def nodeIds (G : Digraph) : List Nat := List.range G.numNodes

/-- Well-formedness: arc endpoints are valid node indices. -/
def WF (G : Digraph) : Prop :=
  ∀ p ∈ G.arcs, p.1 < G.numNodes ∧ p.2.1 < G.numNodes

instance (G : Digraph) : Decidable (WF G) := List.decidableBAll _ _

/-- Outgoing arcs of node `u`, in iteration order (`OutArcIt`). -/
def outArcs (G : Digraph) (u : Nat) : List Nat :=
  (arcIds G).filter (fun a => arcSrc G a = u)

/-- Incoming arcs of node `u`, in iteration order (`InArcIt`). -/
def inArcs (G : Digraph) (u : Nat) : List Nat :=
  (arcIds G).filter (fun a => arcTgt G a = u)

/-- Tri-state heap membership of a node (the heap contract's
pre-heap / in-heap (with its current priority) / post-heap states). -/
inductive HState where
  | pre : HState
  | inh : Int → HState
  | post : HState
deriving DecidableEq, Repr

/-- Pointwise update of a map. -/
def upd {α : Type} (f : Nat → α) (k : Nat) (v : α) : Nat → α :=
  fun x => if x = k then v else f x

/-- The in-heap nodes with their priorities, by node index. -/
def heapList (n : Nat) (h : Nat → HState) : List (Nat × Int) :=
  (List.range n).filterMap (fun v =>
    match h v with
    | HState.inh p => some (v, p)
    | _ => none)

/-- The heap's top: an in-heap node of minimum priority (first such node
index among ties), with its priority.  `none` iff the heap is empty. -/
def heapTop (n : Nat) (h : Nat → HState) : Option (Nat × Int) :=
  (heapList n h).argmin Prod.snd

/-- State of one residual Dijkstra search (`ResidualDijkstra`):
heap cross-reference map, distance map `_dist`, predecessor arc map
`_pred` (`none` is `INVALID`), and the processed list `_proc_nodes`. -/
structure DState where
  hmap : Nat → HState
  dist : Nat → Int
  pred : Nat → Option Nat
  proc : List Nat

/-- Relaxation of node `v` through arc `e` with candidate priority `nd`:
the three-way `switch (heap.state(v))` of `ResidualDijkstra::run`. -/
def relax (ds : DState) (e : Nat) (v : Nat) (nd : Int) : DState :=
  match ds.hmap v with
  | HState.pre =>
      { ds with hmap := upd ds.hmap v (HState.inh nd), pred := upd ds.pred v (some e) }
  | HState.inh cur =>
      if nd < cur then
        { ds with hmap := upd ds.hmap v (HState.inh nd), pred := upd ds.pred v (some e) }
      else ds
  | HState.post => ds

/-- Traverse the outgoing arcs of `u`: forward residual arcs (`_flow[e] == 0`),
candidate priority `d + _length[e] - _potential[v]`. -/
def processOut (G : Digraph) (flow : Nat → Int) (pot : Nat → Int)
    (d : Int) (u : Nat) (ds : DState) : DState :=
  (outArcs G u).foldl (fun ds e =>
    if flow e = 0 then relax ds e (arcTgt G e) (d + arcLen G e - pot (arcTgt G e)) else ds) ds

/-- Traverse the incoming arcs of `u`: reverse residual arcs (`_flow[e] == 1`),
candidate priority `d - _length[e] - _potential[v]`. -/
def processIn (G : Digraph) (flow : Nat → Int) (pot : Nat → Int)
    (d : Int) (u : Nat) (ds : DState) : DState :=
  (inArcs G u).foldl (fun ds e =>
    if flow e = 1 then relax ds e (arcSrc G e) (d - arcLen G e - pot (arcSrc G e)) else ds) ds

/-- One iteration of the Dijkstra loop body: pop `u` (priority `p`),
record `_dist[u]`, append `u` to the processed list, then traverse its
outgoing and incoming residual arcs. -/
def dijkStep (G : Digraph) (flow : Nat → Int) (pot : Nat → Int)
    (ds : DState) (u : Nat) (p : Int) : DState :=
  let ds1 : DState :=
    { ds with hmap := upd ds.hmap u HState.post,
              dist := upd ds.dist u p,
              proc := ds.proc ++ [u] }
  processIn G flow pot (p + pot u) u (processOut G flow pot (p + pot u) u ds1)

/-- The `while (!heap.empty() && heap.top() != _t)` loop, with fuel.
Fuel `numNodes + 1` always suffices (each iteration pops one node). -/
def dijkLoop (G : Digraph) (flow : Nat → Int) (pot : Nat → Int) (t : Nat) :
    Nat → DState → DState
  | 0, ds => ds
  | fuel + 1, ds =>
    match heapTop G.numNodes ds.hmap with
    | none => ds
    | some (u, p) =>
      if u = t then ds
      else dijkLoop G flow pot t fuel (dijkStep G flow pot ds u p)

/-- Initial search state: push `s` with priority 0, `_pred[_s] = INVALID`,
clear the processed list; the distance and predecessor maps persist from
the enclosing `Suurballe` object. -/
def dijkInit (s : Nat) (pred0 : Nat → Option Nat) (dist0 : Nat → Int) : DState :=
  { hmap := upd (fun _ => HState.pre) s (HState.inh 0),
    dist := dist0,
    pred := upd pred0 s none,
    proc := [] }

/-- The potential update at the end of a successful search:
`_potential[x] += _dist[x] - t_dist` for every processed node `x`. -/
def applyPotUpdate (dist : Nat → Int) (tdist : Int) (procList : List Nat)
    (pot : Nat → Int) : Nat → Int :=
  procList.foldl (fun pot x => upd pot x (pot x + (dist x - tdist))) pot

/-- Result of `ResidualDijkstra::run`: success flag plus the updated
potential, predecessor and distance maps. -/
structure DijkResult where
  found : Bool
  pot : Nat → Int
  pred : Nat → Option Nat
  dist : Nat → Int

/-- The tail of `ResidualDijkstra::run` after the loop: if the heap
emptied return `false` (leaving the potentials untouched), otherwise
update the potentials of the processed nodes using the top priority
(`t_dist`) and return `true`. -/
def dijkRunPost (G : Digraph) (pot : Nat → Int) (ds : DState) : DijkResult :=
  match heapTop G.numNodes ds.hmap with
  | none => ⟨false, pot, ds.pred, ds.dist⟩
  | some (_, p) => ⟨true, applyPotUpdate ds.dist p ds.proc pot, ds.pred, ds.dist⟩

/-- `ResidualDijkstra::run`: run the Dijkstra loop, then the potential
update / failure report. -/
def dijkRun (G : Digraph) (flow : Nat → Int) (pot : Nat → Int)
    (pred0 : Nat → Option Nat) (dist0 : Nat → Int) (s t : Nat) : DijkResult :=
  dijkRunPost G pot (dijkLoop G flow pot t (G.numNodes + 1) (dijkInit s pred0 dist0))

/-- State of a `Suurballe` object: flow map, potential map, predecessor
map, distance map, source, target, `_path_num` and the found paths. -/
structure SState where
  flow : Nat → Int
  potential : Nat → Int
  pred : Nat → Option Nat
  dist : Nat → Int
  source : Nat
  target : Nat
  pathNum : Int
  paths : List (List Nat)

/-- `Suurballe::init(s)`: record the source and zero the flow and
potential maps. -/
def init (st : SState) (s : Nat) : SState :=
  { st with source := s, flow := fun _ => 0, potential := fun _ => 0 }

/-- The predecessor-chain walk of `findFlow` that flips the flow along the
found path, starting from the target: a forward arc (current node is its
target) is set to 1, a reverse arc is set to 0.  Fuel `numNodes + 1`
suffices for every walk the algorithm performs. -/
def flipWalk (G : Digraph) (pred : Nat → Option Nat) :
    Nat → Nat → (Nat → Int) → (Nat → Int)
  | 0, _, flow => flow
  | fuel + 1, u, flow =>
    match pred u with
    | none => flow
    | some e =>
      if u = arcTgt G e then flipWalk G pred fuel (arcSrc G e) (upd flow e 1)
      else flipWalk G pred fuel (arcTgt G e) (upd flow e 0)

/-- One iteration of the `findFlow` augmentation loop: run the residual
Dijkstra; on success increment `_path_num` and flip the flow along the
predecessor chain; on failure report `none` (the loop breaks). -/
def findFlowStep (G : Digraph) (st : SState) : Option SState :=
  let r := dijkRun G st.flow st.potential st.pred st.dist st.source st.target
  if r.found then
    some { st with
      potential := r.pot, pred := r.pred, dist := r.dist,
      pathNum := st.pathNum + 1,
      flow := flipWalk G r.pred (G.numNodes + 1) st.target st.flow }
  else none

/-- The `while (_path_num < k)` loop of `findFlow`; since `_path_num`
starts at 0 and increases by exactly one per iteration, running the loop
with fuel `k.toNat` is the guard `_path_num < k`. -/
def findFlowLoop (G : Digraph) : Nat → SState → SState
  | 0, st => st
  | fuel + 1, st =>
    match findFlowStep G st with
    | none => st
    | some st' => findFlowLoop G fuel st'

/-- `Suurballe::findFlow(t, k)`. -/
def findFlow (G : Digraph) (st : SState) (t : Nat) (k : Int) : SState :=
  findFlowLoop G k.toNat { st with target := t, pathNum := 0 }

/-- `for ( ; res_flow[e] == 0; ++e) ;` — the first outgoing arc of `u`
carrying residual flow, `none` when no such arc exists (in C++ the scan
would run past the end of the arc list). -/
def firstUnitOut (G : Digraph) (res : Nat → Int) (u : Nat) : Option Nat :=
  (outArcs G u).find? (fun e => decide (res e ≠ 0))

/-- The inner walk of `findPaths`: from the current node, repeatedly take
the first outgoing arc with residual flow, zero it, and advance, until the
target is reached.  Fuel `arcs.length + 1` suffices since every step zeroes
one unit arc. -/
def pathWalk (G : Digraph) (t : Nat) :
    Nat → Nat → (Nat → Int) → List Nat × (Nat → Int)
  | 0, _, res => ([], res)
  | fuel + 1, u, res =>
    if u = t then ([], res)
    else
      match firstUnitOut G res u with
      | none => ([], res)
      | some e =>
        let r := pathWalk G t fuel (arcTgt G e) (upd res e 0)
        (e :: r.1, r.2)

/-- The outer loop of `findPaths`: extract `i` paths in order, threading
the residual copy of the flow. -/
def extractPaths (G : Digraph) (s t : Nat) :
    Nat → (Nat → Int) → List (List Nat) × (Nat → Int)
  | 0, res => ([], res)
  | i + 1, res =>
    let r := pathWalk G t (G.arcs.length + 1) s res
    let rest := extractPaths G s t i r.2
    (r.1 :: rest.1, rest.2)

/-- `Suurballe::findPaths()`: decompose the flow into `_path_num` paths,
working on a local copy `res_flow` of the flow map. -/
def findPaths (G : Digraph) (st : SState) : SState :=
  { st with paths := (extractPaths G st.source st.target st.pathNum.toNat st.flow).1 }

/-- `Suurballe::run(s, t, k)`: `init(s); findFlow(t, k); findPaths();
return _path_num;`. -/
def run (G : Digraph) (st : SState) (s t : Nat) (k : Int) : Int × SState :=
  let st1 := findPaths G (findFlow G (init st s) t k)
  (st1.pathNum, st1)

/-- `Suurballe::totalLength()`: `Σ_a flow(a) * length(a)`. -/
def totalLength (G : Digraph) (st : SState) : Int :=
  ((arcIds G).map (fun e => st.flow e * arcLen G e)).sum

/-- `Suurballe::flow(a)`. -/
def flowQ (st : SState) (a : Nat) : Int := st.flow a

/-- `Suurballe::potential(v)`. -/
def potentialQ (st : SState) (v : Nat) : Int := st.potential v

/-- `Suurballe::pathNum()`. -/
def pathNumQ (st : SState) : Int := st.pathNum

/-- `Suurballe::path(i)` (out-of-range access is undefined in C++; we
default to the empty path). -/
def pathQ (st : SState) (i : Nat) : List Nat := st.paths.getD i []

/-- A fresh `Suurballe` object's state (all maps zero / invalid). -/
def emptyState : SState :=
  { flow := fun _ => 0, potential := fun _ => 0, pred := fun _ => none,
    dist := fun _ => 0, source := 0, target := 0, pathNum := 0, paths := [] }

/-- One step in the residual graph of `flow`: a forward arc with flow 0,
or a reverse arc with flow 1. -/
def resStep (G : Digraph) (flow : Nat → Int) (u v : Nat) : Prop :=
  ∃ e, e < G.arcs.length ∧
    ((flow e = 0 ∧ arcSrc G e = u ∧ arcTgt G e = v) ∨
     (flow e = 1 ∧ arcTgt G e = u ∧ arcSrc G e = v))

/-- Reachability in the residual graph. -/
def ResReachable (G : Digraph) (flow : Nat → Int) : Nat → Nat → Prop :=
  Relation.ReflTransGen (resStep G flow)

/-- Net flow into node `v`: inflow minus outflow. -/
def excess (G : Digraph) (flow : Nat → Int) (v : Nat) : Int :=
  ((inArcs G v).map flow).sum - ((outArcs G v).map flow).sum

/-- Total length of a list of arcs. -/
def lenSum (G : Digraph) (p : List Nat) : Int := (p.map (arcLen G)).sum

/-- Reduced length of an arc with respect to a potential map:
`ℓ(e) + π(src e) − π(tgt e)`. -/
def rlen (G : Digraph) (pot : Nat → Int) (e : Nat) : Int :=
  arcLen G e + pot (arcSrc G e) - pot (arcTgt G e)

/-- Sum of reduced lengths over a list of arcs. -/
def rlenSum (G : Digraph) (pot : Nat → Int) (p : List Nat) : Int :=
  (p.map (rlen G pot)).sum

/-- Total potential drop along a list of arcs:
`Σ (π(tgt e) − π(src e))`. -/
def potDrop (G : Digraph) (pot : Nat → Int) (p : List Nat) : Int :=
  (p.map (fun e => pot (arcTgt G e) - pot (arcSrc G e))).sum

/-- The arcs carrying one unit of flow, in iteration order. -/
def support (G : Digraph) (f : Nat → Int) : List Nat :=
  (arcIds G).filter (fun e => decide (f e = 1))

/-- `p` is an `u → v` path: consecutive arcs are incident, the first
leaves `u`, the last enters `v` (the empty path requires `u = v`).
Arcs must be valid indices. -/
def IsPath (G : Digraph) : Nat → Nat → List Nat → Prop
  | u, v, [] => u = v
  | u, v, e :: p => e < G.arcs.length ∧ arcSrc G e = u ∧ IsPath G (arcTgt G e) v p

instance isPathDec (G : Digraph) : ∀ (u v : Nat) (p : List Nat), Decidable (IsPath G u v p)
  | u, v, [] => inferInstanceAs (Decidable (u = v))
  | u, v, e :: p =>
    have : Decidable (IsPath G (arcTgt G e) v p) := isPathDec G (arcTgt G e) v p
    inferInstanceAs (Decidable (e < G.arcs.length ∧ arcSrc G e = u ∧
      IsPath G (arcTgt G e) v p))

/-- Arc `e` is the residual arc through which node `v` was relaxed, coming
from node `u'`: a forward arc into `v` with flow 0, or a reverse arc
(flow 1) leaving `v`'s predecessor position. -/
def predEdge (G : Digraph) (flow : Nat → Int) (v e u' : Nat) : Prop :=
  (flow e = 0 ∧ arcTgt G e = v ∧ arcSrc G e = u') ∨
  (flow e = 1 ∧ arcSrc G e = v ∧ arcTgt G e = u')

/-- Invariant of the residual Dijkstra loop (for a fixed search: graph,
flow, source `s`): the processed list has no duplicates and is exactly the
post-heap set; every touched node is a valid index; the source keeps
`pred = INVALID`; before the first pop the heap is the initial singleton;
the source is the first processed node; and every touched node other than
the source has a predecessor arc coming from an earlier-processed node. -/
structure DInv (G : Digraph) (flow : Nat → Int) (s : Nat) (ds : DState) : Prop where
  nodup : ds.proc.Nodup
  post_iff : ∀ v, ds.hmap v = HState.post ↔ v ∈ ds.proc
  bound : ∀ v, ds.hmap v ≠ HState.pre → v < G.numNodes
  pred_s : ds.pred s = none
  start : ds.proc = [] → ds.hmap = upd (fun _ => HState.pre) s (HState.inh 0)
  s_mem : ds.proc ≠ [] → s ∈ ds.proc
  tree : ∀ v, v ≠ s → ds.hmap v ≠ HState.pre →
    ∃ e u', ds.pred v = some e ∧ e < G.arcs.length ∧ predEdge G flow v e u' ∧
      u' ∈ ds.proc ∧ (v ∈ ds.proc → ds.proc.indexOf u' < ds.proc.indexOf v)

/-- Conservation invariant of the augmentation loop: the flow is 0/1
valued and the excess of every node is `path_num` at the target, minus
`path_num` at the source, 0 elsewhere. -/
def ConsInv (G : Digraph) (st : SState) : Prop :=
  (∀ e, st.flow e = 0 ∨ st.flow e = 1) ∧
  (∀ x, excess G st.flow x =
    st.pathNum * ((if st.target = x then 1 else 0) - (if st.source = x then 1 else 0)))

/-- The reduced cost of the residual arc induced by arc `e` under
potentials `pot`: the forward reduced length `ℓ(e) + π(src) − π(tgt)` when
`flow e = 0`, the reverse residual length `π(tgt) − π(src) − ℓ(e)` when
the arc carries flow. -/
def rcOf (G : Digraph) (flow pot : Nat → Int) (e : Nat) : Int :=
  if flow e = 0 then arcLen G e + pot (arcSrc G e) - pot (arcTgt G e)
  else pot (arcTgt G e) - pot (arcSrc G e) - arcLen G e

/-- All residual arcs have non-negative reduced cost: the central
invariant of the successive-shortest-path method (claim C2's property). -/
def RCnn (G : Digraph) (flow pot : Nat → Int) : Prop :=
  ∀ e, e < G.arcs.length → 0 ≤ rcOf G flow pot e

/-- All arc lengths are non-negative (the documented precondition of
`Suurballe`). -/
def NonnegLengths (G : Digraph) : Prop := ∀ p ∈ G.arcs, 0 ≤ p.2.2

instance (G : Digraph) : Decidable (NonnegLengths G) := List.decidableBAll _ _

/-- The current tentative label of a node during a search: its heap key
while in the heap, its final distance once processed. -/
def labVal (ds : DState) (v : Nat) : Int :=
  match ds.hmap v with
  | HState.inh q => q
  | _ => ds.dist v

/-- Quantitative invariant of the residual Dijkstra loop (for a fixed
search over `flow` with start potentials `pot` and source `s`):
`k1` — every heap key dominates the distance of every processed node;
`k3` — relaxation closure: the label of each residual successor of a
processed node is at most the node's distance plus the arc's reduced
cost; `k4` — tree equality: every touched node's label equals its
predecessor's distance plus the predecessor arc's reduced cost. -/
structure KInv (G : Digraph) (flow pot : Nat → Int) (s : Nat) (ds : DState) : Prop where
  k1 : ∀ x q, ds.hmap x = HState.inh q → ∀ w ∈ ds.proc, ds.dist w ≤ q
  k3 : ∀ u ∈ ds.proc, ∀ e, e < G.arcs.length →
    (flow e = 0 → arcSrc G e = u →
      labVal ds (arcTgt G e) ≤ ds.dist u + rcOf G flow pot e) ∧
    (flow e = 1 → arcTgt G e = u →
      labVal ds (arcSrc G e) ≤ ds.dist u + rcOf G flow pot e)
  k4 : ∀ v, v ≠ s → ds.hmap v ≠ HState.pre →
    ∃ e u', ds.pred v = some e ∧ e < G.arcs.length ∧ predEdge G flow v e u' ∧
      u' ∈ ds.proc ∧ labVal ds v = ds.dist u' + rcOf G flow pot e

/-- Context carried through the relaxation folds of one pop (of node `u`
with priority `p`, new processed list `P`). -/
structure StepCtx (G : Digraph) (flow pot : Nat → Int) (s : Nat) (p : Int)
    (P : List Nat) (ds : DState) : Prop where
  hk1 : ∀ x q, ds.hmap x = HState.inh q → ∀ w ∈ P, ds.dist w ≤ q
  hP : ∀ w ∈ P, ds.dist w ≤ p
  hpost : ∀ x, ds.hmap x = HState.post ↔ x ∈ P
  hproc : ds.proc = P
  hk4 : ∀ v, v ≠ s → ds.hmap v ≠ HState.pre →
    ∃ e u', ds.pred v = some e ∧ e < G.arcs.length ∧ predEdge G flow v e u' ∧
      u' ∈ P ∧ labVal ds v = ds.dist u' + rcOf G flow pot e
  hs_post : ds.hmap s = HState.post

/-- The reduced-cost facts asserted about a state of the augmentation
loop (claim C2): for every arc `a`, if `f(a) = 0` then
`ℓ(a) + π(src) − π(tgt) ≥ 0`, and if `f(a) = 1` then
`π(tgt) − π(src) ≥ ℓ(a)`. -/
def ReducedCostsOK (G : Digraph) (stj : SState) : Prop :=
  ∀ a, a < G.arcs.length →
    (stj.flow a = 0 →
      0 ≤ arcLen G a + stj.potential (arcSrc G a) - stj.potential (arcTgt G a)) ∧
    (stj.flow a = 1 →
      arcLen G a ≤ stj.potential (arcTgt G a) - stj.potential (arcSrc G a))

/-- The conservation facts asserted about a state reached by the
augmentation loop with source `s` and target `t`: 0/1 flow, inflow equals
outflow away from `s` and `t`, and (when `s ≠ t`) net outflow `path_num`
at `s` and net inflow `path_num` at `t`. -/
def ConservationOK (G : Digraph) (stj : SState) (s t : Nat) : Prop :=
  (∀ a, stj.flow a = 0 ∨ stj.flow a = 1) ∧
  (∀ v, v ≠ s → v ≠ t → excess G stj.flow v = 0) ∧
  (s ≠ t → excess G stj.flow s = -stj.pathNum ∧ excess G stj.flow t = stj.pathNum)

/-- Example: a single node and no arcs. -/
def exOneNode : Digraph := ⟨1, []⟩

/-- Example: two nodes, one arc `0 → 1` of length 5. -/
def exOneArc : Digraph := ⟨2, [(0, 1, 5)]⟩

/-- Number of arcs currently carrying residual flow. -/
def resCount (G : Digraph) (res : Nat → Int) : Nat :=
  ((arcIds G).filter (fun e => decide (res e ≠ 0))).length

/-- The properties of the decomposition produced by `findPaths` that do
hold: every returned path leads from `s` to `t` through arcs of the graph,
no arc is used twice (within a path or across paths), and every used arc
carries flow 1. -/
def PathsOK (G : Digraph) (stP : SState) (s t : Nat) : Prop :=
  (∀ p ∈ stP.paths, IsPath G s t p) ∧
  stP.paths.flatten.Nodup ∧
  (∀ p ∈ stP.paths, ∀ e ∈ p, stP.flow e = 1)

/-- Example: nodes `s=0, a=1, b=2, t=3`; arcs
`0: s→a (0), 1: a→t (5), 2: a→b (0), 3: b→t (0), 4: s→b (5), 5: b→a (0)`.
Running with `k = 2` augments along `s→a→b→t` and then along
`s→b→(b→a)→a→t`, producing a flow of value 2 that saturates all six arcs
and contains the directed cycle `a→b→a` of length 0; `findPaths` then
returns the two paths `[0,1]` and `[4,3]`, stranding arcs 2 and 5. -/
def exStrand : Digraph :=
  ⟨4, [(0, 1, 0), (1, 3, 5), (1, 2, 0), (2, 3, 0), (0, 2, 5), (2, 1, 0)]⟩

/-- The same digraph as `exStrand` with the arcs listed in a different
iteration order: `0: s→a (0), 1: a→b (0), 2: a→t (5), 3: s→b (5),
4: b→a (0), 5: b→t (0)`.  Here `run(0, 3, 2)` returns the path
`[0, 1, 4, 2]`, i.e. `s→a→b→a→t`, which visits node `a = 1` twice and is
therefore not simple. -/
def exNonSimple : Digraph :=
  ⟨4, [(0, 1, 0), (1, 2, 0), (1, 3, 5), (0, 2, 5), (2, 1, 0), (2, 3, 0)]⟩

end Suurballe

namespace Suurballe

/-! ### Basic lemmas about the heap model -/

theorem heapList_mem {n : Nat} {h : Nat → HState} {v : Nat} {q : Int} :
    (v, q) ∈ heapList n h ↔ v < n ∧ h v = HState.inh q := by
  unfold heapList
  rw [List.mem_filterMap]
  constructor
  · rintro ⟨a, ha, hfa⟩
    rw [List.mem_range] at ha
    rcases hha : h a with _ | p | _ <;> rw [hha] at hfa <;> simp at hfa
    rcases hfa with ⟨rfl, rfl⟩
    exact ⟨ha, hha⟩
  · rintro ⟨hv, hhv⟩
    exact ⟨v, List.mem_range.mpr hv, by rw [hhv]⟩

theorem heapTop_mem {n : Nat} {h : Nat → HState} {u : Nat} {p : Int}
    (htop : heapTop n h = some (u, p)) : u < n ∧ h u = HState.inh p := by
  have := List.argmin_mem htop
  exact heapList_mem.mp this

theorem heapTop_le {n : Nat} {h : Nat → HState} {u : Nat} {p : Int}
    (htop : heapTop n h = some (u, p)) :
    ∀ v q, v < n → h v = HState.inh q → p ≤ q := by
  intro v q hv hq
  have hmem : (v, q) ∈ heapList n h := heapList_mem.mpr ⟨hv, hq⟩
  exact List.le_of_mem_argmin hmem htop

theorem heapTop_none {n : Nat} {h : Nat → HState}
    (htop : heapTop n h = none) :
    ∀ v q, v < n → h v ≠ HState.inh q := by
  intro v q hv hq
  have hmem : (v, q) ∈ heapList n h := heapList_mem.mpr ⟨hv, hq⟩
  have : heapList n h = [] := List.argmin_eq_none.mp htop
  rw [this] at hmem
  exact absurd hmem (List.not_mem_nil _)

theorem heapList_eq_nil {n : Nat} {h : Nat → HState}
    (hall : ∀ v, v < n → ∀ q, h v ≠ HState.inh q) : heapList n h = [] := by
  unfold heapList
  rw [List.filterMap_eq_nil_iff]
  intro a ha
  rw [List.mem_range] at ha
  rcases hha : h a with _ | p | _
  · rfl
  · exact absurd hha (hall a ha p)
  · rfl

theorem heapList_singleton {n s : Nat} {p : Int} (hs : s < n) :
    heapList n (upd (fun _ => HState.pre) s (HState.inh p)) = [(s, p)] := by
  induction n with
  | zero => omega
  | succ n ih =>
    unfold heapList
    rw [List.range_succ, List.filterMap_append]
    rcases Nat.lt_or_ge s n with hlt | hge
    · have h1 : heapList n (upd (fun _ => HState.pre) s (HState.inh p)) = [(s, p)] := ih hlt
      unfold heapList at h1
      rw [h1]
      have hns : n ≠ s := by omega
      simp [upd, hns]
    · have hsn : s = n := by omega
      subst hsn
      have h0 : heapList s (upd (fun _ => HState.pre) s (HState.inh p)) = [] := by
        apply heapList_eq_nil
        intro v hv q
        simp [upd, Nat.ne_of_lt hv]
      unfold heapList at h0
      rw [h0]
      simp [upd]

theorem heapTop_singleton {n s : Nat} {p : Int} (hs : s < n) :
    heapTop n (upd (fun _ => HState.pre) s (HState.inh p)) = some (s, p) := by
  unfold heapTop
  rw [heapList_singleton hs]
  rfl

/-! ### Frame lemmas: which fields each operation can change -/

theorem relax_proc (ds : DState) (e v : Nat) (nd : Int) :
    (relax ds e v nd).proc = ds.proc := by
  unfold relax
  rcases ds.hmap v with _ | cur | _
  · rfl
  · by_cases h : nd < cur <;> simp [h]
  · rfl

theorem relax_dist (ds : DState) (e v : Nat) (nd : Int) :
    (relax ds e v nd).dist = ds.dist := by
  unfold relax
  rcases ds.hmap v with _ | cur | _
  · rfl
  · by_cases h : nd < cur <;> simp [h]
  · rfl

theorem processOut_proc (G : Digraph) (flow pot : Nat → Int) (d : Int) (u : Nat)
    (ds : DState) : (processOut G flow pot d u ds).proc = ds.proc := by
  unfold processOut
  generalize outArcs G u = l
  induction l generalizing ds with
  | nil => rfl
  | cons e l ih =>
    rw [List.foldl_cons]
    rw [ih]
    by_cases h : flow e = 0 <;> simp [h, relax_proc]

theorem processIn_proc (G : Digraph) (flow pot : Nat → Int) (d : Int) (u : Nat)
    (ds : DState) : (processIn G flow pot d u ds).proc = ds.proc := by
  unfold processIn
  generalize inArcs G u = l
  induction l generalizing ds with
  | nil => rfl
  | cons e l ih =>
    rw [List.foldl_cons]
    rw [ih]
    by_cases h : flow e = 1 <;> simp [h, relax_proc]

theorem processOut_dist (G : Digraph) (flow pot : Nat → Int) (d : Int) (u : Nat)
    (ds : DState) : (processOut G flow pot d u ds).dist = ds.dist := by
  unfold processOut
  generalize outArcs G u = l
  induction l generalizing ds with
  | nil => rfl
  | cons e l ih =>
    rw [List.foldl_cons]
    rw [ih]
    by_cases h : flow e = 0 <;> simp [h, relax_dist]

theorem processIn_dist (G : Digraph) (flow pot : Nat → Int) (d : Int) (u : Nat)
    (ds : DState) : (processIn G flow pot d u ds).dist = ds.dist := by
  unfold processIn
  generalize inArcs G u = l
  induction l generalizing ds with
  | nil => rfl
  | cons e l ih =>
    rw [List.foldl_cons]
    rw [ih]
    by_cases h : flow e = 1 <;> simp [h, relax_dist]

theorem dijkStep_proc (G : Digraph) (flow pot : Nat → Int) (ds : DState)
    (u : Nat) (p : Int) :
    (dijkStep G flow pot ds u p).proc = ds.proc ++ [u] := by
  unfold dijkStep
  rw [processIn_proc, processOut_proc]

/-- Nodes appended to the processed list during the loop are popped under
the guard `heap.top() != _t`, so the target never enters it. -/
theorem dijkLoop_proc_ne (G : Digraph) (flow pot : Nat → Int) (t : Nat) :
    ∀ (fuel : Nat) (ds : DState), (∀ u ∈ ds.proc, u ≠ t) →
      ∀ u ∈ (dijkLoop G flow pot t fuel ds).proc, u ≠ t := by
  intro fuel
  induction fuel with
  | zero => intro ds h; exact h
  | succ fuel ih =>
    intro ds h
    unfold dijkLoop
    rcases htop : heapTop G.numNodes ds.hmap with _ | ⟨u, p⟩
    · exact h
    · by_cases hu : u = t
      · simp [hu]; exact h
      · simp [hu]
        apply ih
        rw [dijkStep_proc]
        intro x hx
        rcases List.mem_append.mp hx with hx | hx
        · exact h x hx
        · rw [List.mem_singleton.mp hx]; exact hu

theorem applyPotUpdate_cons (dist : Nat → Int) (td : Int) (a : Nat) (l : List Nat)
    (pot : Nat → Int) :
    applyPotUpdate dist td (a :: l) pot =
      applyPotUpdate dist td l (upd pot a (pot a + (dist a - td))) := rfl

theorem applyPotUpdate_notmem (dist : Nat → Int) (td : Int) :
    ∀ (l : List Nat) (pot : Nat → Int) (x : Nat), x ∉ l →
      applyPotUpdate dist td l pot x = pot x := by
  intro l
  induction l with
  | nil => intro pot x _; rfl
  | cons a l ih =>
    intro pot x hx
    rw [applyPotUpdate_cons]
    rw [ih _ x (fun h => hx (List.mem_cons_of_mem a h))]
    have hxa : x ≠ a := fun h => hx (h ▸ List.mem_cons_self a l)
    simp [upd, hxa]

/-- Unfolding of the loop at a successor fuel value. -/
theorem findFlowLoop_succ (G : Digraph) (fuel : Nat) (st : SState) :
    findFlowLoop G (fuel + 1) st =
      match findFlowStep G st with
      | none => st
      | some st' => findFlowLoop G fuel st' := rfl

/-- Unfolding of the Dijkstra loop at a successor fuel value. -/
theorem dijkLoop_succ (G : Digraph) (flow pot : Nat → Int) (t : Nat)
    (fuel : Nat) (ds : DState) :
    dijkLoop G flow pot t (fuel + 1) ds =
      match heapTop G.numNodes ds.hmap with
      | none => ds
      | some (u, p) =>
        if u = t then ds
        else dijkLoop G flow pot t fuel (dijkStep G flow pot ds u p) := rfl

/-- Unfolding of the flip walk at a successor fuel value. -/
theorem flipWalk_succ (G : Digraph) (pred : Nat → Option Nat) (fuel : Nat)
    (u : Nat) (flow : Nat → Int) :
    flipWalk G pred (fuel + 1) u flow =
      match pred u with
      | none => flow
      | some e =>
        if u = arcTgt G e then flipWalk G pred fuel (arcSrc G e) (upd flow e 1)
        else flipWalk G pred fuel (arcTgt G e) (upd flow e 0) := rfl

/-! ### The degenerate search with source = target -/

/-- When the source equals the target, the search stops at once (the top
of the freshly initialized heap is the source) and reports success without
changing anything but `_pred[s]`. -/
theorem dijkRun_self (G : Digraph) (flow pot : Nat → Int)
    (pred0 : Nat → Option Nat) (dist0 : Nat → Int) (s : Nat)
    (hs : s < G.numNodes) :
    dijkRun G flow pot pred0 dist0 s s =
      ⟨true, pot, upd pred0 s none, dist0⟩ := by
  unfold dijkRun
  have hloop : dijkLoop G flow pot s (G.numNodes + 1) (dijkInit s pred0 dist0) =
      dijkInit s pred0 dist0 := by
    rw [dijkLoop_succ]
    have htop : heapTop G.numNodes (dijkInit s pred0 dist0).hmap = some (s, 0) :=
      heapTop_singleton hs
    rw [htop]
    simp
  rw [hloop]
  unfold dijkRunPost
  have htop : heapTop G.numNodes (dijkInit s pred0 dist0).hmap = some (s, 0) :=
    heapTop_singleton hs
  rw [htop]
  rfl

/-- One iteration of the augmentation loop when source = target: the
search succeeds immediately, the flip walk stops at once
(`_pred[s] = INVALID`), and only `_path_num` and `_pred` change. -/
theorem findFlowStep_self (G : Digraph) (st : SState)
    (hst : st.source = st.target) (hs : st.source < G.numNodes) :
    findFlowStep G st =
      some { st with pred := upd st.pred st.source none,
                     pathNum := st.pathNum + 1 } := by
  unfold findFlowStep
  rw [← hst, dijkRun_self G st.flow st.potential st.pred st.dist st.source hs]
  have hflip : flipWalk G (upd st.pred st.source none) (G.numNodes + 1)
      st.source st.flow = st.flow := by
    rw [flipWalk_succ]
    simp [upd]
  simp only [← hst]
  rw [hflip]
  simp

theorem findFlowLoop_self (G : Digraph) :
    ∀ (fuel : Nat) (st : SState), st.source = st.target →
      st.source < G.numNodes →
      (findFlowLoop G fuel st).pathNum = st.pathNum + fuel := by
  intro fuel
  induction fuel with
  | zero => intro st _ _; simp [findFlowLoop]
  | succ fuel ih =>
    intro st hst hs
    rw [findFlowLoop_succ, findFlowStep_self G st hst hs]
    have h2 := ih { st with pred := upd st.pred st.source none,
                            pathNum := st.pathNum + 1 } hst hs
    rw [h2]
    push_cast
    ring

/-- The residual Dijkstra run never changes the potential of the target
node: the target is never processed, and only processed nodes are
updated. -/
theorem dijkRun_pot_target (G : Digraph) (flow pot : Nat → Int)
    (pred0 : Nat → Option Nat) (dist0 : Nat → Int) (s t : Nat) :
    (dijkRun G flow pot pred0 dist0 s t).pot t = pot t := by
  unfold dijkRun dijkRunPost
  rcases htop : heapTop G.numNodes
      (dijkLoop G flow pot t (G.numNodes + 1) (dijkInit s pred0 dist0)).hmap with _ | ⟨u, p⟩
  · rfl
  · have hproc : ∀ u ∈ (dijkLoop G flow pot t (G.numNodes + 1)
        (dijkInit s pred0 dist0)).proc, u ≠ t := by
      apply dijkLoop_proc_ne
      intro u hu
      exact absurd hu (List.not_mem_nil u)
    exact applyPotUpdate_notmem _ _ _ _ _ (fun h => hproc t h rfl)

theorem findFlowStep_pot_target (G : Digraph) (st st' : SState)
    (hstep : findFlowStep G st = some st') :
    st'.potential st.target = st.potential st.target ∧ st'.target = st.target := by
  unfold findFlowStep at hstep
  by_cases hf : (dijkRun G st.flow st.potential st.pred st.dist st.source st.target).found
  · rw [if_pos hf] at hstep
    cases hstep
    exact ⟨dijkRun_pot_target G st.flow st.potential st.pred st.dist st.source st.target, rfl⟩
  · rw [if_neg hf] at hstep
    cases hstep

theorem findFlowLoop_pot_target (G : Digraph) :
    ∀ (fuel : Nat) (st : SState),
      (findFlowLoop G fuel st).potential st.target = st.potential st.target ∧
      (findFlowLoop G fuel st).target = st.target := by
  intro fuel
  induction fuel with
  | zero => intro st; exact ⟨rfl, rfl⟩
  | succ fuel ih =>
    intro st
    rw [findFlowLoop_succ]
    rcases hstep : findFlowStep G st with _ | st'
    · exact ⟨rfl, rfl⟩
    · have h1 := findFlowStep_pot_target G st st' hstep
      have h2 := ih st'
      rw [h1.2] at h2
      exact ⟨h2.1.trans h1.1, h2.2⟩

/-! ### The predecessor-tree invariant of the residual search -/

theorem wf_arc {G : Digraph} (hWF : WF G) {e : Nat} (he : e < G.arcs.length) :
    arcSrc G e < G.numNodes ∧ arcTgt G e < G.numNodes := by
  have hmem : G.arcs.getD e (0, 0, 0) ∈ G.arcs := by
    rw [List.getD_eq_getElem _ _ he]
    exact G.arcs.getElem_mem he
  exact ⟨(hWF _ hmem).1, (hWF _ hmem).2⟩

theorem predEdge_unique {G : Digraph} {flow : Nat → Int} {v1 e u1 v2 u2 : Nat}
    (h1 : predEdge G flow v1 e u1) (h2 : predEdge G flow v2 e u2) :
    v1 = v2 ∧ u1 = u2 := by
  rcases h1 with ⟨hf1, hv1, hu1⟩ | ⟨hf1, hv1, hu1⟩ <;>
    rcases h2 with ⟨hf2, hv2, hu2⟩ | ⟨hf2, hv2, hu2⟩
  · exact ⟨hv1 ▸ hv2, hu1 ▸ hu2⟩
  · rw [hf1] at hf2; exact absurd hf2 (by decide)
  · rw [hf1] at hf2; exact absurd hf2 (by decide)
  · exact ⟨hv1 ▸ hv2, hu1 ▸ hu2⟩

theorem outArcs_mem {G : Digraph} {u e : Nat} :
    e ∈ outArcs G u ↔ e < G.arcs.length ∧ arcSrc G e = u := by
  unfold outArcs arcIds
  rw [List.mem_filter, List.mem_range]
  simp

theorem inArcs_mem {G : Digraph} {u e : Nat} :
    e ∈ inArcs G u ↔ e < G.arcs.length ∧ arcTgt G e = u := by
  unfold inArcs arcIds
  rw [List.mem_filter, List.mem_range]
  simp

theorem relax_hmap_post {ds : DState} {e v : Nat} {c : Int} {w : Nat}
    (hw : ds.hmap w = HState.post) : (relax ds e v c).hmap w = HState.post := by
  unfold relax
  rcases hv : ds.hmap v with _ | cur | _
  · by_cases hwv : w = v
    · rw [hwv] at hw; rw [hw] at hv; cases hv
    · simp [upd, hwv, hw]
  · by_cases hlt : c < cur
    · simp only [hlt, if_pos]
      by_cases hwv : w = v
      · rw [hwv] at hw; rw [hw] at hv; cases hv
      · simp [upd, hwv, hw]
    · simp [hlt, hw]
  · exact hw

/-- The state produced when a relaxation actually updates node `v`
(`v` was pre-heap, or in-heap with a larger key) keeps the invariant,
provided the relaxed node has a residual predecessor arc from a processed
node and the source is already processed. -/
theorem relaxed_DInv {G : Digraph} {flow : Nat → Int} {s : Nat}
    (hWF : WF G) {ds : DState} (inv : DInv G flow s ds)
    {e v u' : Nat} {nd : Int} (he : e < G.arcs.length)
    (hedge : predEdge G flow v e u') (hu : u' ∈ ds.proc)
    (hs_post : ds.hmap s = HState.post)
    (hv_not_post : ds.hmap v ≠ HState.post) :
    DInv G flow s
      { ds with hmap := upd ds.hmap v (HState.inh nd),
                pred := upd ds.pred v (some e) } := by
  have hvproc : v ∉ ds.proc := fun h => hv_not_post ((inv.post_iff v).mpr h)
  have hvs : v ≠ s := fun h => hv_not_post (h ▸ hs_post)
  constructor
  · exact inv.nodup
  · intro w
    by_cases hwv : w = v
    · subst hwv
      simp only [upd, if_pos rfl]
      constructor
      · intro h; cases h
      · intro h; exact absurd h hvproc
    · simp only [upd, if_neg hwv]
      exact inv.post_iff w
  · intro w hw
    by_cases hwv : w = v
    · subst hwv
      rcases hedge with ⟨_, hv, _⟩ | ⟨_, hv, _⟩
      · exact hv ▸ (wf_arc hWF he).2
      · exact hv ▸ (wf_arc hWF he).1
    · simp only [upd, if_neg hwv] at hw
      exact inv.bound w hw
  · show upd ds.pred v (some e) s = none
    simp only [upd, if_neg (Ne.symm hvs)]
    exact inv.pred_s
  · intro h
    exact absurd hu (h ▸ List.not_mem_nil u')
  · exact inv.s_mem
  · intro w hws hwpre
    by_cases hwv : w = v
    · subst hwv
      refine ⟨e, u', ?_, he, hedge, hu, fun hmem => absurd hmem hvproc⟩
      simp [upd]
    · simp only [upd, if_neg hwv] at hwpre
      obtain ⟨e2, u2, hpred2, he2, hedge2, hu2, hrank2⟩ := inv.tree w hws hwpre
      refine ⟨e2, u2, ?_, he2, hedge2, hu2, hrank2⟩
      simp only [upd, if_neg hwv]
      exact hpred2

/-- Relaxation preserves the invariant. -/
theorem relax_DInv {G : Digraph} {flow : Nat → Int} {s : Nat}
    (hWF : WF G) {ds : DState} (inv : DInv G flow s ds)
    {e v u' : Nat} {c : Int} (he : e < G.arcs.length)
    (hedge : predEdge G flow v e u') (hu : u' ∈ ds.proc)
    (hs_post : ds.hmap s = HState.post) :
    DInv G flow s (relax ds e v c) := by
  unfold relax
  rcases hv : ds.hmap v with _ | cur | _
  · exact relaxed_DInv hWF inv he hedge hu hs_post (by rw [hv]; intro h; cases h)
  · by_cases hlt : c < cur
    · simp only [hlt, if_pos]
      exact relaxed_DInv hWF inv he hedge hu hs_post (by rw [hv]; intro h; cases h)
    · simp only [hlt, if_neg, ite_false]
      exact inv
  · exact inv

/-- The fold over the outgoing arcs of a processed node preserves the
invariant, the processed list, and the source being post-heap. -/
theorem relaxFoldOut {G : Digraph} {flow q : Nat → Int} {d : Int} {u s : Nat}
    (hWF : WF G) :
    ∀ (l : List Nat), (∀ e ∈ l, e < G.arcs.length ∧ arcSrc G e = u) →
    ∀ ds : DState, DInv G flow s ds → u ∈ ds.proc → ds.hmap s = HState.post →
    DInv G flow s (l.foldl (fun ds e =>
        if flow e = 0 then relax ds e (arcTgt G e) (d + arcLen G e - q (arcTgt G e))
        else ds) ds) ∧
    (l.foldl (fun ds e =>
        if flow e = 0 then relax ds e (arcTgt G e) (d + arcLen G e - q (arcTgt G e))
        else ds) ds).hmap s = HState.post ∧
    (l.foldl (fun ds e =>
        if flow e = 0 then relax ds e (arcTgt G e) (d + arcLen G e - q (arcTgt G e))
        else ds) ds).proc = ds.proc := by
  intro l
  induction l with
  | nil => intro _ ds inv _ hs; exact ⟨inv, hs, rfl⟩
  | cons e l ih =>
    intro hl ds inv hu hs
    rw [List.foldl_cons]
    have he := (hl e (List.mem_cons_self e l)).1
    have hsrc := (hl e (List.mem_cons_self e l)).2
    have hl' : ∀ e' ∈ l, e' < G.arcs.length ∧ arcSrc G e' = u :=
      fun e' h => hl e' (List.mem_cons_of_mem e h)
    by_cases hf : flow e = 0
    · rw [if_pos hf]
      have hedge : predEdge G flow (arcTgt G e) e u := Or.inl ⟨hf, rfl, hsrc⟩
      have inv' := relax_DInv (c := d + arcLen G e - q (arcTgt G e)) hWF inv he hedge hu hs
      have hs' := relax_hmap_post (v := arcTgt G e)
        (c := d + arcLen G e - q (arcTgt G e)) (e := e) hs
      have hu' : u ∈ (relax ds e (arcTgt G e) (d + arcLen G e - q (arcTgt G e))).proc := by
        rw [relax_proc]; exact hu
      obtain ⟨a, b, c⟩ := ih hl' _ inv' hu' hs'
      exact ⟨a, b, c.trans (relax_proc ds e (arcTgt G e) _)⟩
    · rw [if_neg hf]
      exact ih hl' ds inv hu hs

/-- The fold over the incoming arcs of a processed node preserves the
invariant, the processed list, and the source being post-heap. -/
theorem relaxFoldIn {G : Digraph} {flow q : Nat → Int} {d : Int} {u s : Nat}
    (hWF : WF G) :
    ∀ (l : List Nat), (∀ e ∈ l, e < G.arcs.length ∧ arcTgt G e = u) →
    ∀ ds : DState, DInv G flow s ds → u ∈ ds.proc → ds.hmap s = HState.post →
    DInv G flow s (l.foldl (fun ds e =>
        if flow e = 1 then relax ds e (arcSrc G e) (d - arcLen G e - q (arcSrc G e))
        else ds) ds) ∧
    (l.foldl (fun ds e =>
        if flow e = 1 then relax ds e (arcSrc G e) (d - arcLen G e - q (arcSrc G e))
        else ds) ds).hmap s = HState.post ∧
    (l.foldl (fun ds e =>
        if flow e = 1 then relax ds e (arcSrc G e) (d - arcLen G e - q (arcSrc G e))
        else ds) ds).proc = ds.proc := by
  intro l
  induction l with
  | nil => intro _ ds inv _ hs; exact ⟨inv, hs, rfl⟩
  | cons e l ih =>
    intro hl ds inv hu hs
    rw [List.foldl_cons]
    have he := (hl e (List.mem_cons_self e l)).1
    have htgt := (hl e (List.mem_cons_self e l)).2
    have hl' : ∀ e' ∈ l, e' < G.arcs.length ∧ arcTgt G e' = u :=
      fun e' h => hl e' (List.mem_cons_of_mem e h)
    by_cases hf : flow e = 1
    · rw [if_pos hf]
      have hedge : predEdge G flow (arcSrc G e) e u := Or.inr ⟨hf, rfl, htgt⟩
      have inv' := relax_DInv (c := d - arcLen G e - q (arcSrc G e)) hWF inv he hedge hu hs
      have hs' := relax_hmap_post (v := arcSrc G e)
        (c := d - arcLen G e - q (arcSrc G e)) (e := e) hs
      have hu' : u ∈ (relax ds e (arcSrc G e) (d - arcLen G e - q (arcSrc G e))).proc := by
        rw [relax_proc]; exact hu
      obtain ⟨a, b, c⟩ := ih hl' _ inv' hu' hs'
      exact ⟨a, b, c.trans (relax_proc ds e (arcSrc G e) _)⟩
    · rw [if_neg hf]
      exact ih hl' ds inv hu hs

/-- Popping the heap top and traversing its residual arcs preserves the
invariant; the popped node is appended to the processed list. -/
theorem dijkStep_DInv {G : Digraph} {flow q : Nat → Int} {s : Nat}
    (hWF : WF G) {ds : DState} (inv : DInv G flow s ds)
    {u : Nat} {p : Int} (htop : heapTop G.numNodes ds.hmap = some (u, p)) :
    DInv G flow s (dijkStep G flow q ds u p) ∧
    (dijkStep G flow q ds u p).proc = ds.proc ++ [u] := by
  obtain ⟨hu_lt, hu_inh⟩ := heapTop_mem htop
  have hu_notmem : u ∉ ds.proc := by
    intro h
    have := (inv.post_iff u).mpr h
    rw [hu_inh] at this
    cases this
  set ds1 : DState :=
    { ds with hmap := upd ds.hmap u HState.post,
              dist := upd ds.dist u p,
              proc := ds.proc ++ [u] } with hds1
  have hs_mem1 : s ∈ ds1.proc := by
    show s ∈ ds.proc ++ [u]
    by_cases hproc : ds.proc = []
    · have hinit := inv.start hproc
      have h2 : ds.hmap u = (upd (fun _ => HState.pre) s (HState.inh 0)) u := by rw [hinit]
      rw [hu_inh] at h2
      unfold upd at h2
      by_cases hus : u = s
      · rw [hus]; simp
      · rw [if_neg hus] at h2; cases h2
    · exact List.mem_append_left _ (inv.s_mem hproc)
  have inv1 : DInv G flow s ds1 := by
    constructor
    · show (ds.proc ++ [u]).Nodup
      rw [List.nodup_append]
      exact ⟨inv.nodup, List.nodup_singleton u,
        fun x hx hxu => hu_notmem ((List.mem_singleton.mp hxu) ▸ hx)⟩
    · intro w
      show upd ds.hmap u HState.post w = HState.post ↔ w ∈ ds.proc ++ [u]
      by_cases hwu : w = u
      · subst hwu
        simp [upd]
      · simp only [upd, if_neg hwu, List.mem_append, List.mem_singleton]
        rw [inv.post_iff w]
        constructor
        · exact Or.inl
        · rintro (h | h)
          · exact h
          · exact absurd h hwu
    · intro w hw
      by_cases hwu : w = u
      · exact hwu ▸ hu_lt
      · show w < G.numNodes
        apply inv.bound w
        simpa [upd, hwu] using hw
    · exact inv.pred_s
    · intro h
      exact absurd h (by simp)
    · intro _
      exact hs_mem1
    · intro w hws hwpre
      have hwpre0 : ds.hmap w ≠ HState.pre := by
        by_cases hwu : w = u
        · rw [hwu, hu_inh]; intro h; cases h
        · simpa [upd, hwu] using hwpre
      obtain ⟨e2, u2, hpred2, he2, hedge2, hu2, hrank2⟩ := inv.tree w hws hwpre0
      refine ⟨e2, u2, hpred2, he2, hedge2, List.mem_append_left _ hu2, ?_⟩
      intro hwmem
      show (ds.proc ++ [u]).indexOf u2 < (ds.proc ++ [u]).indexOf w
      rw [List.indexOf_append_of_mem hu2]
      rcases List.mem_append.mp hwmem with hw1 | hw1
      · rw [List.indexOf_append_of_mem hw1]
        exact hrank2 hw1
      · have hwu : w = u := List.mem_singleton.mp hw1
        subst hwu
        rw [List.indexOf_append_of_not_mem hu_notmem]
        have : ds.proc.indexOf u2 < ds.proc.length := List.indexOf_lt_length.mpr hu2
        simp
        omega
  have hu_mem1 : u ∈ ds1.proc := by
    show u ∈ ds.proc ++ [u]; simp
  have hs_post1 : ds1.hmap s = HState.post := (inv1.post_iff s).mpr hs_mem1
  have hout := relaxFoldOut (q := q) (d := p + q u) hWF (outArcs G u)
    (fun e h => ⟨(outArcs_mem.mp h).1, (outArcs_mem.mp h).2⟩) ds1 inv1 hu_mem1 hs_post1
  have hu_mem2 : u ∈ (processOut G flow q (p + q u) u ds1).proc := by
    rw [processOut_proc]; exact hu_mem1
  have hin := relaxFoldIn (q := q) (d := p + q u) hWF (inArcs G u)
    (fun e h => ⟨(inArcs_mem.mp h).1, (inArcs_mem.mp h).2⟩)
    (processOut G flow q (p + q u) u ds1) hout.1 hu_mem2 hout.2.1
  refine ⟨hin.1, ?_⟩
  show (processIn G flow q (p + q u) u (processOut G flow q (p + q u) u ds1)).proc = _
  rw [processIn_proc, processOut_proc]

/-- The initial search state satisfies the invariant. -/
theorem dijkInit_DInv {G : Digraph} {flow : Nat → Int} {s : Nat}
    (hs : s < G.numNodes) (pred0 : Nat → Option Nat) (dist0 : Nat → Int) :
    DInv G flow s (dijkInit s pred0 dist0) := by
  constructor
  · exact List.nodup_nil
  · intro v
    constructor
    · intro h
      simp only [dijkInit, upd] at h
      by_cases hvs : v = s <;> simp [hvs] at h
    · intro h; exact absurd h (List.not_mem_nil v)
  · intro v hv
    simp only [dijkInit, upd] at hv
    by_cases hvs : v = s
    · exact hvs ▸ hs
    · simp [hvs] at hv
  · show upd pred0 s none s = none
    simp [upd]
  · intro _; rfl
  · intro h; exact absurd rfl h
  · intro v hvs hv
    simp only [dijkInit, upd] at hv
    by_cases h2 : v = s
    · exact absurd h2 hvs
    · simp [h2] at hv

/-- The Dijkstra loop preserves the invariant. -/
theorem dijkLoop_DInv {G : Digraph} {flow pot : Nat → Int} {t s : Nat}
    (hWF : WF G) :
    ∀ (fuel : Nat) (ds : DState), DInv G flow s ds →
      DInv G flow s (dijkLoop G flow pot t fuel ds) := by
  intro fuel
  induction fuel with
  | zero => intro ds inv; exact inv
  | succ fuel ih =>
    intro ds inv
    rw [dijkLoop_succ]
    rcases htop : heapTop G.numNodes ds.hmap with _ | ⟨u, p⟩
    · exact inv
    · by_cases hu : u = t
      · simp only [hu, if_pos rfl]; exact inv
      · simp only [if_neg hu]
        exact ih _ (dijkStep_DInv hWF inv htop).1

/-- Under the invariant, the processed list has at most `numNodes`
elements. -/
theorem proc_length_le {G : Digraph} {flow : Nat → Int} {s : Nat}
    {ds : DState} (inv : DInv G flow s ds) :
    ds.proc.length ≤ G.numNodes := by
  have hsub : ds.proc ⊆ List.range G.numNodes := by
    intro x hx
    rw [List.mem_range]
    apply inv.bound x
    rw [(inv.post_iff x).mpr hx]
    intro h; cases h
  have := (List.subperm_of_subset inv.nodup hsub).length_le
  simpa using this

/-- The loop ends in a terminal configuration: empty heap or the target
on top. -/
def TerminalTop (G : Digraph) (t : Nat) (ds : DState) : Prop :=
  heapTop G.numNodes ds.hmap = none ∨ ∃ p, heapTop G.numNodes ds.hmap = some (t, p)

/-- With enough fuel (each iteration pops a fresh node, and at most
`numNodes` nodes can ever be processed) the Dijkstra loop reaches a
terminal configuration. -/
theorem dijkLoop_terminal {G : Digraph} {flow pot : Nat → Int} {t s : Nat}
    (hWF : WF G) :
    ∀ (fuel : Nat) (ds : DState), DInv G flow s ds →
      G.numNodes + 1 ≤ ds.proc.length + fuel →
      TerminalTop G t (dijkLoop G flow pot t fuel ds) := by
  intro fuel
  induction fuel with
  | zero =>
    intro ds inv hfuel
    have := proc_length_le inv
    omega
  | succ fuel ih =>
    intro ds inv hfuel
    rw [dijkLoop_succ]
    rcases htop : heapTop G.numNodes ds.hmap with _ | ⟨u, p⟩
    · exact Or.inl htop
    · by_cases hu : u = t
      · simp only [hu, if_pos rfl]
        exact Or.inr ⟨p, hu ▸ htop⟩
      · simp only [if_neg hu]
        apply ih _ (dijkStep_DInv hWF inv htop).1
        rw [(dijkStep_DInv (q := pot) hWF inv htop).2]
        simp
        omega

/-! ### Excess bookkeeping and the flip walk -/

theorem sum_map_upd (g : Nat → Int) (e : Nat) (c : Int) :
    ∀ l : List Nat, l.Nodup →
      (l.map (upd g e c)).sum = (l.map g).sum + (if e ∈ l then c - g e else 0) := by
  intro l
  induction l with
  | nil => intro _; simp
  | cons a l ih =>
    intro hnd
    rw [List.map_cons, List.map_cons, List.sum_cons, List.sum_cons,
      ih (List.nodup_cons.mp hnd).2]
    by_cases hea : e = a
    · subst hea
      have hnotmem : e ∉ l := (List.nodup_cons.mp hnd).1
      simp [upd, hnotmem]
      ring
    · have h2 : a ≠ e := fun h => hea h.symm
      simp only [upd, if_neg h2, List.mem_cons]
      by_cases hel : e ∈ l
      · simp [hel, hea]
        ring
      · simp [hel, hea]

theorem excess_upd {G : Digraph} (g : Nat → Int) {e : Nat} (c : Int)
    (he : e < G.arcs.length) (x : Nat) :
    excess G (upd g e c) x = excess G g x +
      (c - g e) * ((if arcTgt G e = x then 1 else 0) -
        (if arcSrc G e = x then 1 else 0)) := by
  unfold excess
  have hin : (inArcs G x).Nodup := (List.nodup_range _).filter _
  have hout : (outArcs G x).Nodup := (List.nodup_range _).filter _
  rw [sum_map_upd g e c _ hin, sum_map_upd g e c _ hout]
  by_cases h1 : arcTgt G e = x <;> by_cases h2 : arcSrc G e = x <;>
    simp [inArcs_mem, outArcs_mem, he, h1, h2] <;> ring

theorem flipWalk_none {G : Digraph} {pred : Nat → Option Nat} {fuel : Nat}
    {u : Nat} (flow : Nat → Int) (h : pred u = none) :
    flipWalk G pred (fuel + 1) u flow = flow := by
  rw [flipWalk_succ, h]

theorem flipWalk_cons {G : Digraph} {pred : Nat → Option Nat} {fuel : Nat}
    {u : Nat} (flow : Nat → Int) {e : Nat} (h : pred u = some e) :
    flipWalk G pred (fuel + 1) u flow =
      if u = arcTgt G e then flipWalk G pred fuel (arcSrc G e) (upd flow e 1)
      else flipWalk G pred fuel (arcTgt G e) (upd flow e 0) := by
  rw [flipWalk_succ, h]

/-- The main property of the predecessor-chain flip walk: starting from a
node `v` of the search tree with a flow `g` that still agrees with the
search-time flow on all predecessor arcs at or below `v`'s level, the walk
terminates (at the source), moves one unit of excess from `s` to `v`, and
only writes the values 0 and 1. -/
theorem flipWalk_spec (G : Digraph) (flow : Nat → Int) (pred : Nat → Option Nat)
    (proc : List Nat) (s t : Nat)
    (ht : t ∉ proc) (hps : pred s = none)
    (htree : ∀ v, (v ∈ proc ∨ v = t) → v ≠ s →
      ∃ e u', pred v = some e ∧ e < G.arcs.length ∧ predEdge G flow v e u' ∧
        u' ∈ proc ∧ proc.indexOf u' < proc.indexOf v) :
    ∀ (fuel : Nat) (v : Nat) (g : Nat → Int), (v ∈ proc ∨ v = t) →
      proc.indexOf v < fuel →
      (∀ w e2, (w ∈ proc ∨ w = t) → proc.indexOf w ≤ proc.indexOf v →
        pred w = some e2 → g e2 = flow e2) →
      (∀ x, excess G (flipWalk G pred fuel v g) x =
        excess G g x + (if v = x then 1 else 0) - (if s = x then 1 else 0)) ∧
      (∀ e2, flipWalk G pred fuel v g e2 = g e2 ∨
        flipWalk G pred fuel v g e2 = 1 ∨ flipWalk G pred fuel v g e2 = 0) := by
  intro fuel
  induction fuel with
  | zero => intro v g _ hidx _; omega
  | succ fuel ih =>
    intro v g hv hidx hagree
    by_cases hvs : v = s
    · subst hvs
      rw [flipWalk_none g hps]
      constructor
      · intro x
        by_cases hx : v = x <;> simp [hx]
      · intro e2; exact Or.inl rfl
    · obtain ⟨e, u', hpred, he, hedge, hu'mem, hrank⟩ := htree v hv hvs
      have hge : g e = flow e := hagree v e hv (Nat.le_refl _) hpred
      have hidx' : proc.indexOf u' < fuel := by omega
      have hagree' : ∀ w e2, (w ∈ proc ∨ w = t) →
          proc.indexOf w ≤ proc.indexOf u' → pred w = some e2 →
          ∀ c : Int, upd g e c e2 = flow e2 := by
        intro w e2 hw hwid hpw c
        have hne : e2 ≠ e := by
          intro heq
          subst heq
          by_cases hws : w = s
          · rw [hws, hps] at hpw; cases hpw
          · obtain ⟨e3, u3, hp3, _, hedge3, _, _⟩ := htree w hw hws
            rw [hpw] at hp3
            have he3 : e3 = e2 := (Option.some.inj hp3).symm
            subst he3
            have huniq := predEdge_unique hedge3 hedge
            have hwv : w = v := huniq.1
            subst hwv
            omega
        rw [show upd g e c e2 = g e2 by simp [upd, hne]]
        exact hagree w e2 hw (by omega) hpw
      rw [flipWalk_cons g hpred]
      rcases hedge with ⟨hf0, hvt, hsrc⟩ | ⟨hf1, hvsrc, htgt⟩
      · rw [if_pos hvt.symm, hsrc]
        obtain ⟨hexc, hval⟩ := ih u' (upd g e 1) (Or.inl hu'mem) hidx'
          (fun w e2 hw hwid hpw => hagree' w e2 hw hwid hpw 1)
        constructor
        · intro x
          rw [hexc x, excess_upd g 1 he x, hge, hf0, hvt, hsrc]
          ring
        · intro e2
          rcases hval e2 with h | h | h
          · by_cases h2 : e2 = e
            · subst h2
              rw [h]
              right; left
              simp [upd]
            · rw [h]
              left
              simp [upd, h2]
          · right; left; exact h
          · right; right; exact h
      · have hne_uv : u' ≠ v := by
          rcases hv with hvmem | hvt2
          · intro h; subst h; omega
          · intro h; rw [h, hvt2] at hu'mem; exact ht hu'mem
        rw [if_neg (by rw [htgt]; exact fun h => hne_uv h.symm), htgt]
        obtain ⟨hexc, hval⟩ := ih u' (upd g e 0) (Or.inl hu'mem) hidx'
          (fun w e2 hw hwid hpw => hagree' w e2 hw hwid hpw 0)
        constructor
        · intro x
          rw [hexc x, excess_upd g 0 he x, hge, hf1, hvsrc, htgt]
          ring
        · intro e2
          rcases hval e2 with h | h | h
          · by_cases h2 : e2 = e
            · subst h2
              rw [h]
              right; right
              simp [upd]
            · rw [h]
              left
              simp [upd, h2]
          · right; left; exact h
          · right; right; exact h

/-! ### Dissecting one augmentation iteration -/

theorem dijkRun_pred_eq (G : Digraph) (flow pot : Nat → Int)
    (pred0 : Nat → Option Nat) (dist0 : Nat → Int) (s t : Nat) :
    (dijkRun G flow pot pred0 dist0 s t).pred =
      (dijkLoop G flow pot t (G.numNodes + 1) (dijkInit s pred0 dist0)).pred := by
  unfold dijkRun dijkRunPost
  rcases heapTop G.numNodes
      (dijkLoop G flow pot t (G.numNodes + 1) (dijkInit s pred0 dist0)).hmap with _ | ⟨u, p⟩
  · rfl
  · rfl

/-- If the run reports success, the loop ended with the target on top of
the heap. -/
theorem dijkRun_found_top {G : Digraph} {flow pot : Nat → Int}
    {pred0 : Nat → Option Nat} {dist0 : Nat → Int} {s t : Nat}
    (hWF : WF G) (hs : s < G.numNodes)
    (hfound : (dijkRun G flow pot pred0 dist0 s t).found = true) :
    ∃ p, heapTop G.numNodes
      (dijkLoop G flow pot t (G.numNodes + 1) (dijkInit s pred0 dist0)).hmap =
        some (t, p) := by
  have hterm : TerminalTop G t
      (dijkLoop G flow pot t (G.numNodes + 1) (dijkInit s pred0 dist0)) := by
    apply dijkLoop_terminal hWF _ _ (dijkInit_DInv hs pred0 dist0)
    simp [dijkInit]
  rcases hterm with hnone | ⟨p', hp'⟩
  · unfold dijkRun dijkRunPost at hfound
    rw [hnone] at hfound
    cases hfound
  · exact ⟨p', hp'⟩

/-- The target node is never on the processed list of the search. -/
theorem dijkLoop_target_notmem (G : Digraph) (flow pot : Nat → Int) (t : Nat)
    (pred0 : Nat → Option Nat) (dist0 : Nat → Int) (s : Nat) :
    t ∉ (dijkLoop G flow pot t (G.numNodes + 1) (dijkInit s pred0 dist0)).proc := by
  intro hmem
  have := dijkLoop_proc_ne G flow pot t (G.numNodes + 1) (dijkInit s pred0 dist0)
    (fun u hu => absurd hu (List.not_mem_nil u)) t hmem
  exact this rfl

/-- One successful iteration of the augmentation loop: `path_num` goes up
by one, one unit of excess moves from the source to the target, flow
values stay in the old range plus `{0, 1}`, and the bookkeeping fields are
unchanged. -/
theorem findFlowStep_spec {G : Digraph} {st st' : SState}
    (hWF : WF G) (hs : st.source < G.numNodes)
    (hstep : findFlowStep G st = some st') :
    (∀ x, excess G st'.flow x = excess G st.flow x +
      (if st.target = x then 1 else 0) - (if st.source = x then 1 else 0)) ∧
    (∀ e, st'.flow e = st.flow e ∨ st'.flow e = 1 ∨ st'.flow e = 0) ∧
    st'.pathNum = st.pathNum + 1 ∧ st'.source = st.source ∧
    st'.target = st.target ∧ st'.paths = st.paths := by
  unfold findFlowStep at hstep
  by_cases hf : (dijkRun G st.flow st.potential st.pred st.dist st.source st.target).found
  case neg => rw [if_neg hf] at hstep; cases hstep
  rw [if_pos hf] at hstep
  obtain ⟨p, htop⟩ := dijkRun_found_top hWF hs hf
  set dsf := dijkLoop G st.flow st.potential st.target (G.numNodes + 1)
    (dijkInit st.source st.pred st.dist) with hdsf
  have inv : DInv G st.flow st.source dsf :=
    dijkLoop_DInv hWF _ _ (dijkInit_DInv hs st.pred st.dist)
  have htnot : st.target ∉ dsf.proc :=
    dijkLoop_target_notmem G st.flow st.potential st.target st.pred st.dist st.source
  have htree : ∀ v, (v ∈ dsf.proc ∨ v = st.target) → v ≠ st.source →
      ∃ e u', dsf.pred v = some e ∧ e < G.arcs.length ∧
        predEdge G st.flow v e u' ∧ u' ∈ dsf.proc ∧
        dsf.proc.indexOf u' < dsf.proc.indexOf v := by
    intro v hv hvs
    have hvpre : dsf.hmap v ≠ HState.pre := by
      rcases hv with hvmem | hvt
      · rw [(inv.post_iff v).mpr hvmem]; intro h; cases h
      · subst hvt
        rw [(heapTop_mem htop).2]; intro h; cases h
    obtain ⟨e, u', hpred, he, hedge, humem, hrank⟩ := inv.tree v hvs hvpre
    refine ⟨e, u', hpred, he, hedge, humem, ?_⟩
    rcases hv with hvmem | hvt
    · exact hrank hvmem
    · subst hvt
      rw [List.indexOf_eq_length.mpr htnot]
      exact List.indexOf_lt_length.mpr humem
  have hwalk := flipWalk_spec G st.flow dsf.pred dsf.proc st.source st.target
    htnot inv.pred_s htree (G.numNodes + 1) st.target st.flow (Or.inr rfl)
    (by
      rw [List.indexOf_eq_length.mpr htnot]
      have := proc_length_le inv
      omega)
    (fun _ _ _ _ _ => rfl)
  have hpredeq : (dijkRun G st.flow st.potential st.pred st.dist
      st.source st.target).pred = dsf.pred :=
    dijkRun_pred_eq G st.flow st.potential st.pred st.dist st.source st.target
  cases hstep
  refine ⟨?_, ?_, rfl, rfl, rfl, rfl⟩
  · intro x
    show excess G (flipWalk G _ (G.numNodes + 1) st.target st.flow) x = _
    rw [hpredeq]
    exact hwalk.1 x
  · intro e
    show flipWalk G _ (G.numNodes + 1) st.target st.flow e = _ ∨ _ ∨ _
    rw [hpredeq]
    exact hwalk.2 e

/-- The conservation invariant is preserved by the augmentation loop. -/
theorem findFlowLoop_ConsInv {G : Digraph} (hWF : WF G) :
    ∀ (j : Nat) (st : SState), st.source < G.numNodes → ConsInv G st →
      ConsInv G (findFlowLoop G j st) ∧
      (findFlowLoop G j st).source = st.source ∧
      (findFlowLoop G j st).target = st.target := by
  intro j
  induction j with
  | zero => intro st _ hC; exact ⟨hC, rfl, rfl⟩
  | succ j ih =>
    intro st hs hC
    rw [findFlowLoop_succ]
    rcases hstep : findFlowStep G st with _ | st'
    · exact ⟨hC, rfl, rfl⟩
    · obtain ⟨hexc, hval, hpn, hsrc, htgt, _⟩ := findFlowStep_spec hWF hs hstep
      have hC' : ConsInv G st' := by
        constructor
        · intro e
          rcases hval e with h | h | h
          · rw [h]; exact hC.1 e
          · exact Or.inr h
          · exact Or.inl h
        · intro x
          rw [hexc x, hC.2 x, hpn, hsrc, htgt]
          ring
      have hs' : st'.source < G.numNodes := by rw [hsrc]; exact hs
      obtain ⟨a, b, c⟩ := ih st' hs' hC'
      exact ⟨a, b.trans hsrc, c.trans htgt⟩

/-- The state entering the augmentation loop satisfies the conservation
invariant (zero flow, zero excess, `path_num = 0`). -/
theorem ConsInv_start (G : Digraph) (st : SState) (s t : Nat) :
    ConsInv G { init st s with target := t, pathNum := 0 } := by
  constructor
  · intro e; exact Or.inl rfl
  · intro x
    show excess G (fun _ => 0) x = 0 * _
    unfold excess
    simp

/-! ### The greedy path decomposition -/

theorem filter_upd_zero {res : Nat → Int} {e : Nat} :
    ∀ l : List Nat, l.Nodup → e ∈ l → res e ≠ 0 →
      (l.filter (fun a => decide (res a ≠ 0))).length =
        (l.filter (fun a => decide (upd res e 0 a ≠ 0))).length + 1 := by
  intro l
  induction l with
  | nil => intro _ h; exact absurd h (List.not_mem_nil e)
  | cons a l ih =>
    intro hnd hmem hres
    by_cases hae : a = e
    · subst hae
      have hnotmem : a ∉ l := (List.nodup_cons.mp hnd).1
      have hfeq : l.filter (fun x => decide (upd res a 0 x ≠ 0)) =
          l.filter (fun x => decide (res x ≠ 0)) := by
        apply List.filter_congr
        intro x hx
        have hxa : x ≠ a := fun h => hnotmem (h ▸ hx)
        simp [upd, hxa]
      rw [List.filter_cons, List.filter_cons]
      have h1 : (decide (res a ≠ 0)) = true := by simp [hres]
      have h2 : (decide (upd res a 0 a ≠ 0)) = false := by simp [upd]
      rw [h1, h2]
      simp only [List.length_cons, if_true, Bool.false_eq_true, if_false]
      have h3 := congrArg List.length hfeq
      omega
    · have hmem' : e ∈ l := by
        rcases List.mem_cons.mp hmem with h | h
        · exact absurd h.symm hae
        · exact h
      rw [List.filter_cons, List.filter_cons]
      have heq : (decide (upd res e 0 a ≠ 0)) = (decide (res a ≠ 0)) := by
        simp [upd, hae]
      rw [heq]
      by_cases hra : decide (res a ≠ 0) = true
      · rw [if_pos hra, if_pos hra]
        simp only [List.length_cons]
        have h3 := ih (List.nodup_cons.mp hnd).2 hmem' hres
        omega
      · rw [if_neg hra, if_neg hra]
        exact ih (List.nodup_cons.mp hnd).2 hmem' hres

theorem resCount_upd_zero {G : Digraph} {res : Nat → Int} {e : Nat}
    (he : e < G.arcs.length) (hres : res e ≠ 0) :
    resCount G res = resCount G (upd res e 0) + 1 := by
  unfold resCount
  exact filter_upd_zero (arcIds G) (List.nodup_range _)
    (List.mem_range.mpr he) hres

theorem resCount_le (G : Digraph) (res : Nat → Int) :
    resCount G res ≤ G.arcs.length := by
  unfold resCount
  calc ((arcIds G).filter _).length ≤ (arcIds G).length := List.length_filter_le _ _
  _ = G.arcs.length := List.length_range _

/-- A node with strictly negative excess has an outgoing arc carrying
flow. -/
theorem exists_unit_out {G : Digraph} {res : Nat → Int} {u : Nat}
    (h01 : ∀ e, res e = 0 ∨ res e = 1)
    (hexc : excess G res u ≤ -1) :
    ∃ e ∈ outArcs G u, res e ≠ 0 := by
  by_contra hnone
  push_neg at hnone
  have hout : ((outArcs G u).map res).sum = 0 := by
    apply List.sum_eq_zero
    intro x hx
    rw [List.mem_map] at hx
    obtain ⟨e, he, rfl⟩ := hx
    exact hnone e he
  have hin : 0 ≤ ((inArcs G u).map res).sum := by
    apply List.sum_nonneg
    intro x hx
    rw [List.mem_map] at hx
    obtain ⟨e, _, rfl⟩ := hx
    rcases h01 e with h | h <;> rw [h] <;> decide
  unfold excess at hexc
  omega

theorem firstUnitOut_spec {G : Digraph} {res : Nat → Int} {u e : Nat}
    (h : firstUnitOut G res u = some e) :
    e < G.arcs.length ∧ arcSrc G e = u ∧ res e ≠ 0 := by
  have hmem := List.mem_of_find?_eq_some h
  have hp := List.find?_some h
  rw [outArcs_mem] at hmem
  refine ⟨hmem.1, hmem.2, ?_⟩
  simpa using hp

theorem firstUnitOut_some {G : Digraph} {res : Nat → Int} {u : Nat}
    (h : ∃ e ∈ outArcs G u, res e ≠ 0) :
    ∃ e, firstUnitOut G res u = some e := by
  have : (firstUnitOut G res u).isSome = true := by
    unfold firstUnitOut
    rw [List.find?_isSome]
    obtain ⟨e, hmem, hres⟩ := h
    exact ⟨e, hmem, by simpa using hres⟩
  exact Option.isSome_iff_exists.mp this

theorem pathWalk_at_target (G : Digraph) (t : Nat) (fuel : Nat) (res : Nat → Int) :
    pathWalk G t (fuel + 1) t res = ([], res) := by
  rw [show pathWalk G t (fuel + 1) t res = if t = t then ([], res) else _ from rfl]
  simp

theorem pathWalk_step {G : Digraph} {t u : Nat} {fuel : Nat} {res : Nat → Int}
    {e : Nat} (hut : u ≠ t) (hfind : firstUnitOut G res u = some e) :
    pathWalk G t (fuel + 1) u res =
      ((e :: (pathWalk G t fuel (arcTgt G e) (upd res e 0)).1),
        (pathWalk G t fuel (arcTgt G e) (upd res e 0)).2) := by
  show (if u = t then ([], res) else _) = _
  rw [if_neg hut, hfind]

/-- Correctness of one greedy walk of `findPaths`: starting at a node of
strictly negative excess, the walk reaches the target, uses pairwise
distinct unit arcs which it zeroes, and moves one unit of excess from the
target back to the start. -/
theorem pathWalk_spec (G : Digraph) (t : Nat) :
    ∀ (fuel : Nat) (u : Nat) (res : Nat → Int),
      (∀ e, res e = 0 ∨ res e = 1) →
      (u ≠ t → excess G res u ≤ -1) →
      (∀ v, v ≠ u → v ≠ t → excess G res v ≤ 0) →
      resCount G res < fuel →
      IsPath G u t (pathWalk G t fuel u res).1 ∧
      (∀ e ∈ (pathWalk G t fuel u res).1, res e = 1 ∧ (pathWalk G t fuel u res).2 e = 0) ∧
      (∀ e, (pathWalk G t fuel u res).2 e = res e ∨ (pathWalk G t fuel u res).2 e = 0) ∧
      (∀ v, excess G (pathWalk G t fuel u res).2 v =
        excess G res v + (if u = v then 1 else 0) - (if t = v then 1 else 0)) ∧
      (pathWalk G t fuel u res).1.Nodup ∧
      resCount G (pathWalk G t fuel u res).2 ≤ resCount G res := by
  intro fuel
  induction fuel with
  | zero => intro u res _ _ _ hcount; omega
  | succ fuel ih =>
    intro u res h01 hexcu hexcv hcount
    by_cases hut : u = t
    · subst hut
      rw [pathWalk_at_target]
      refine ⟨rfl, ?_, ?_, ?_, List.nodup_nil, Nat.le_refl _⟩
      · intro e he; exact absurd he (List.not_mem_nil e)
      · intro e; exact Or.inl rfl
      · intro v; by_cases hv : u = v <;> simp [hv]
    · obtain ⟨e, hfind⟩ := firstUnitOut_some (exists_unit_out h01 (hexcu hut))
      obtain ⟨he, hsrc, hres⟩ := firstUnitOut_spec hfind
      have hres1 : res e = 1 := by
        rcases h01 e with h | h
        · exact absurd h hres
        · exact h
      rw [pathWalk_step hut hfind]
      have h01' : ∀ e2, upd res e 0 e2 = 0 ∨ upd res e 0 e2 = 1 := by
        intro e2
        by_cases h2 : e2 = e
        · subst h2; left; simp [upd]
        · rw [show upd res e 0 e2 = res e2 by simp [upd, h2]]
          exact h01 e2
      have hexc_upd : ∀ v, excess G (upd res e 0) v =
          excess G res v + (if u = v then 1 else 0) -
            (if arcTgt G e = v then 1 else 0) := by
        intro v
        rw [excess_upd res 0 he v, hres1, hsrc]
        ring
      have hexcu' : arcTgt G e ≠ t → excess G (upd res e 0) (arcTgt G e) ≤ -1 := by
        intro htgt
        rw [hexc_upd]
        by_cases hvu : u = arcTgt G e
        · rw [if_pos hvu, if_pos rfl]
          have := hexcu hut
          rw [← hvu]
          omega
        · rw [if_neg hvu, if_pos rfl]
          have := hexcv (arcTgt G e) (fun h => hvu h.symm) htgt
          omega
      have hexcv' : ∀ v, v ≠ arcTgt G e → v ≠ t → excess G (upd res e 0) v ≤ 0 := by
        intro v hv1 hv2
        rw [hexc_upd]
        rw [if_neg (show ¬(arcTgt G e = v) from fun h => hv1 h.symm)]
        by_cases hvu : u = v
        · rw [if_pos hvu]
          have := hexcu hut
          rw [hvu] at this
          omega
        · rw [if_neg hvu]
          have := hexcv v (fun h => hvu h.symm) hv2
          omega
      have hcount' : resCount G (upd res e 0) < fuel := by
        have := resCount_upd_zero he hres
        omega
      obtain ⟨hw_path, hw_used, hw_frame, hw_exc, hw_nd, hw_count⟩ :=
        ih (arcTgt G e) (upd res e 0) h01' hexcu' hexcv' hcount'
      refine ⟨⟨he, hsrc, hw_path⟩, ?_, ?_, ?_, ?_, ?_⟩
      · intro e2 he2
        rcases List.mem_cons.mp he2 with h2 | h2
        · subst h2
          refine ⟨hres1, ?_⟩
          rcases hw_frame e2 with h | h
          · rw [h]; simp [upd]
          · exact h
        · obtain ⟨hres2, hzero2⟩ := hw_used e2 h2
          have hne : e2 ≠ e := by
            intro hh
            subst hh
            rw [show upd res e2 0 e2 = 0 by simp [upd]] at hres2
            cases hres2
          rw [show upd res e 0 e2 = res e2 by simp [upd, hne]] at hres2
          exact ⟨hres2, hzero2⟩
      · intro e2
        rcases hw_frame e2 with h | h
        · by_cases h2 : e2 = e
          · subst h2
            rw [h]
            right
            simp [upd]
          · rw [h]
            left
            simp [upd, h2]
        · exact Or.inr h
      · intro v
        rw [hw_exc v, hexc_upd v]
        ring
      · rw [List.nodup_cons]
        refine ⟨?_, hw_nd⟩
        intro hmem
        have := (hw_used e hmem).1
        rw [show upd res e 0 e = 0 by simp [upd]] at this
        cases this
      · show resCount G (pathWalk G t fuel (arcTgt G e) (upd res e 0)).2 ≤ resCount G res
        have := resCount_upd_zero he hres
        omega

theorem extractPaths_succ (G : Digraph) (s t : Nat) (i : Nat) (res : Nat → Int) :
    extractPaths G s t (i + 1) res =
      ((pathWalk G t (G.arcs.length + 1) s res).1 ::
        (extractPaths G s t i (pathWalk G t (G.arcs.length + 1) s res).2).1,
       (extractPaths G s t i (pathWalk G t (G.arcs.length + 1) s res).2).2) := rfl

/-- Correctness of the outer loop of `findPaths` (case `s ≠ t`): if the
residual flow is a 0/1 flow with excess `i` at `t` and `-i` at `s`, then
`i` pairwise arc-disjoint `s → t` paths on unit arcs are extracted. -/
theorem extractPaths_spec (G : Digraph) (s t : Nat) (hst : s ≠ t) :
    ∀ (i : Nat) (res : Nat → Int),
      (∀ e, res e = 0 ∨ res e = 1) →
      (∀ v, excess G res v =
        (i : Int) * ((if t = v then 1 else 0) - (if s = v then 1 else 0))) →
      (∀ p ∈ (extractPaths G s t i res).1, IsPath G s t p) ∧
      (extractPaths G s t i res).1.flatten.Nodup ∧
      (∀ p ∈ (extractPaths G s t i res).1, ∀ e ∈ p, res e = 1) := by
  intro i
  induction i with
  | zero =>
    intro res _ _
    refine ⟨?_, List.nodup_nil, ?_⟩
    · intro p hp; exact absurd hp (List.not_mem_nil p)
    · intro p hp; exact absurd hp (List.not_mem_nil p)
  | succ i ih =>
    intro res h01 hexc
    have hexcs : excess G res s ≤ -1 := by
      have := hexc s
      rw [if_neg (fun h => hst h.symm), if_pos rfl] at this
      rw [this]
      push_cast
      omega
    have hexcv : ∀ v, v ≠ s → v ≠ t → excess G res v ≤ 0 := by
      intro v hv1 hv2
      have := hexc v
      rw [if_neg (fun h => hv2 h.symm), if_neg (fun h => hv1 h.symm)] at this
      rw [this]
      ring_nf
      exact Int.le_refl 0
    have hcount : resCount G res < G.arcs.length + 1 :=
      Nat.lt_succ_of_le (resCount_le G res)
    obtain ⟨hw_path, hw_used, hw_frame, hw_exc, hw_nd, _⟩ :=
      pathWalk_spec G t (G.arcs.length + 1) s res h01 (fun _ => hexcs) hexcv hcount
    set res1 := (pathWalk G t (G.arcs.length + 1) s res).2 with hres1
    have h01' : ∀ e, res1 e = 0 ∨ res1 e = 1 := by
      intro e
      rcases hw_frame e with h | h
      · rw [h]; exact h01 e
      · exact Or.inl h
    have hexc' : ∀ v, excess G res1 v =
        (i : Int) * ((if t = v then 1 else 0) - (if s = v then 1 else 0)) := by
      intro v
      rw [hw_exc v, hexc v]
      push_cast
      ring
    obtain ⟨hr_path, hr_nd, hr_used⟩ := ih res1 h01' hexc'
    rw [extractPaths_succ]
    refine ⟨?_, ?_, ?_⟩
    · intro p hp
      rcases List.mem_cons.mp hp with h | h
      · subst h; exact hw_path
      · exact hr_path p h
    · rw [List.flatten_cons, List.nodup_append]
      refine ⟨hw_nd, hr_nd, ?_⟩
      intro e he1 he2
      rw [List.mem_flatten] at he2
      obtain ⟨p, hp, hep⟩ := he2
      have h1 : res1 e = 1 := hr_used p hp e hep
      have h0 : res1 e = 0 := (hw_used e he1).2
      rw [h0] at h1
      cases h1
    · intro p hp e hep
      rcases List.mem_cons.mp hp with h | h
      · subst h; exact (hw_used e hep).1
      · have h1 : res1 e = 1 := hr_used p h e hep
        rcases hw_frame e with hf | hf
        · rw [← hf]; exact h1
        · rw [hf] at h1; cases h1

/-- When source equals target every extracted path is empty. -/
theorem extractPaths_self (G : Digraph) (t : Nat) :
    ∀ (i : Nat) (res : Nat → Int),
      (∀ p ∈ (extractPaths G t t i res).1, p = ([] : List Nat)) := by
  intro i
  induction i with
  | zero => intro res p hp; exact absurd hp (List.not_mem_nil p)
  | succ i ih =>
    intro res p hp
    rw [extractPaths_succ, pathWalk_at_target] at hp
    rcases List.mem_cons.mp hp with h | h
    · exact h
    · exact ih res p h

/-- Field bookkeeping of one augmentation iteration. -/
theorem findFlowStep_fields {G : Digraph} {st st' : SState}
    (hstep : findFlowStep G st = some st') :
    st'.source = st.source ∧ st'.target = st.target ∧
    st'.pathNum = st.pathNum + 1 ∧ st'.paths = st.paths := by
  unfold findFlowStep at hstep
  by_cases hf : (dijkRun G st.flow st.potential st.pred st.dist st.source st.target).found
  · rw [if_pos hf] at hstep
    cases hstep
    exact ⟨rfl, rfl, rfl, rfl⟩
  · rw [if_neg hf] at hstep
    cases hstep

/-- Field bookkeeping of the augmentation loop. -/
theorem findFlowLoop_fields (G : Digraph) :
    ∀ (j : Nat) (st : SState),
      (findFlowLoop G j st).source = st.source ∧
      (findFlowLoop G j st).target = st.target ∧
      st.pathNum ≤ (findFlowLoop G j st).pathNum ∧
      (findFlowLoop G j st).paths = st.paths := by
  intro j
  induction j with
  | zero => intro st; exact ⟨rfl, rfl, Int.le_refl _, rfl⟩
  | succ j ih =>
    intro st
    rw [findFlowLoop_succ]
    rcases hstep : findFlowStep G st with _ | st'
    · exact ⟨rfl, rfl, Int.le_refl _, rfl⟩
    · obtain ⟨h1, h2, h3, h4⟩ := findFlowStep_fields hstep
      obtain ⟨i1, i2, i3, i4⟩ := ih st'
      refine ⟨i1.trans h1, i2.trans h2, ?_, i4.trans h4⟩
      show st.pathNum ≤ (findFlowLoop G j st').pathNum
      rw [h3] at i3
      omega

/-! ### Reachability: soundness and completeness of the search -/

theorem relax_target_not_pre (ds : DState) (e v : Nat) (nd : Int) :
    (relax ds e v nd).hmap v ≠ HState.pre := by
  unfold relax
  rcases hv : ds.hmap v with _ | cur | _
  · simp [upd]
  · by_cases hlt : nd < cur
    · simp [hlt, upd]
    · simp [hlt, hv]
  · simp [hv]

theorem relax_not_pre_mono {ds : DState} {w : Nat}
    (hw : ds.hmap w ≠ HState.pre) (e v : Nat) (nd : Int) :
    (relax ds e v nd).hmap w ≠ HState.pre := by
  unfold relax
  rcases hv : ds.hmap v with _ | cur | _
  · by_cases hwv : w = v
    · subst hwv; simp [upd]
    · simpa [upd, hwv] using hw
  · by_cases hlt : nd < cur
    · simp only [hlt, if_pos]
      by_cases hwv : w = v
      · subst hwv; simp [upd]
      · simpa [upd, hwv] using hw
    · simpa [hlt] using hw
  · exact hw

theorem foldOut_not_pre_mono {G : Digraph} {flow pot : Nat → Int} {d : Int}
    {u : Nat} :
    ∀ (l : List Nat) (ds : DState) (w : Nat), ds.hmap w ≠ HState.pre →
      ((l.foldl (fun ds e =>
        if flow e = 0 then relax ds e (arcTgt G e) (d + arcLen G e - pot (arcTgt G e))
        else ds) ds).hmap w ≠ HState.pre) := by
  intro l
  induction l with
  | nil => intro ds w hw; exact hw
  | cons a l ih =>
    intro ds w hw
    rw [List.foldl_cons]
    apply ih
    by_cases hf : flow a = 0
    · rw [if_pos hf]; exact relax_not_pre_mono hw _ _ _
    · rw [if_neg hf]; exact hw

theorem foldIn_not_pre_mono {G : Digraph} {flow pot : Nat → Int} {d : Int}
    {u : Nat} :
    ∀ (l : List Nat) (ds : DState) (w : Nat), ds.hmap w ≠ HState.pre →
      ((l.foldl (fun ds e =>
        if flow e = 1 then relax ds e (arcSrc G e) (d - arcLen G e - pot (arcSrc G e))
        else ds) ds).hmap w ≠ HState.pre) := by
  intro l
  induction l with
  | nil => intro ds w hw; exact hw
  | cons a l ih =>
    intro ds w hw
    rw [List.foldl_cons]
    apply ih
    by_cases hf : flow a = 1
    · rw [if_pos hf]; exact relax_not_pre_mono hw _ _ _
    · rw [if_neg hf]; exact hw

theorem foldOut_covers {G : Digraph} {flow pot : Nat → Int} {d : Int} {u : Nat} :
    ∀ (l : List Nat) (ds : DState) (e : Nat), e ∈ l → flow e = 0 →
      ((l.foldl (fun ds e =>
        if flow e = 0 then relax ds e (arcTgt G e) (d + arcLen G e - pot (arcTgt G e))
        else ds) ds).hmap (arcTgt G e) ≠ HState.pre) := by
  intro l
  induction l with
  | nil => intro ds e hmem; exact absurd hmem (List.not_mem_nil e)
  | cons a l ih =>
    intro ds e hmem hf
    rw [List.foldl_cons]
    rcases List.mem_cons.mp hmem with h | h
    · subst h
      apply foldOut_not_pre_mono (u := u)
      rw [if_pos hf]
      exact relax_target_not_pre _ _ _ _
    · exact ih _ e h hf

theorem foldIn_covers {G : Digraph} {flow pot : Nat → Int} {d : Int} {u : Nat} :
    ∀ (l : List Nat) (ds : DState) (e : Nat), e ∈ l → flow e = 1 →
      ((l.foldl (fun ds e =>
        if flow e = 1 then relax ds e (arcSrc G e) (d - arcLen G e - pot (arcSrc G e))
        else ds) ds).hmap (arcSrc G e) ≠ HState.pre) := by
  intro l
  induction l with
  | nil => intro ds e hmem; exact absurd hmem (List.not_mem_nil e)
  | cons a l ih =>
    intro ds e hmem hf
    rw [List.foldl_cons]
    rcases List.mem_cons.mp hmem with h | h
    · subst h
      apply foldIn_not_pre_mono (u := u)
      rw [if_pos hf]
      exact relax_target_not_pre _ _ _ _
    · exact ih _ e h hf

/-- Closedness invariant: every residual arc out of a processed node leads
to a node that has been touched (pushed at some point). -/
def CInv (G : Digraph) (flow : Nat → Int) (ds : DState) : Prop :=
  ∀ u ∈ ds.proc, ∀ v, resStep G flow u v → ds.hmap v ≠ HState.pre

theorem dijkStep_CInv {G : Digraph} {flow pot : Nat → Int} {ds : DState}
    (hC : CInv G flow ds) (u : Nat) (p : Int) :
    CInv G flow (dijkStep G flow pot ds u p) := by
  intro w hw v hstep
  rw [dijkStep_proc] at hw
  show (processIn G flow pot (p + pot u) u
    (processOut G flow pot (p + pot u) u _)).hmap v ≠ HState.pre
  rcases List.mem_append.mp hw with hw1 | hw1
  · -- an old processed node: its successors were already non-pre
    apply foldIn_not_pre_mono (u := u)
    apply foldOut_not_pre_mono (u := u)
    have := hC w hw1 v hstep
    by_cases hvu : v = u
    · subst hvu; simp [upd]
    · simpa [upd, hvu] using this
  · -- the freshly popped node: its residual arcs are relaxed now
    have hwu : w = u := List.mem_singleton.mp hw1
    subst hwu
    obtain ⟨e, he, hcase⟩ := hstep
    rcases hcase with ⟨hf, hsrc, htgt⟩ | ⟨hf, htgt, hsrc⟩
    · -- forward arc: covered by the outgoing traversal
      apply foldIn_not_pre_mono (u := w)
      rw [← htgt]
      apply foldOut_covers (u := w) _ _ e _ hf
      rw [outArcs_mem]
      exact ⟨he, hsrc⟩
    · -- reverse arc: covered by the incoming traversal
      rw [← hsrc]
      apply foldIn_covers (u := w) _ _ e _ hf
      rw [inArcs_mem]
      exact ⟨he, htgt⟩

theorem dijkLoop_CInv {G : Digraph} {flow pot : Nat → Int} {t : Nat} :
    ∀ (fuel : Nat) (ds : DState), CInv G flow ds →
      CInv G flow (dijkLoop G flow pot t fuel ds) := by
  intro fuel
  induction fuel with
  | zero => intro ds h; exact h
  | succ fuel ih =>
    intro ds h
    rw [dijkLoop_succ]
    rcases heapTop G.numNodes ds.hmap with _ | ⟨u, p⟩
    · exact h
    · by_cases hu : u = t
      · simp only [hu, if_pos rfl]; exact h
      · simp only [if_neg hu]
        exact ih _ (dijkStep_CInv h u p)

/-- Reachability invariant: every touched node is residual-reachable from
the source. -/
def RInv (G : Digraph) (flow : Nat → Int) (s : Nat) (hm : Nat → HState) : Prop :=
  ∀ v, hm v ≠ HState.pre → ResReachable G flow s v

theorem relax_hmap_other {ds : DState} {v w : Nat} (hwv : w ≠ v) (e : Nat)
    (nd : Int) : (relax ds e v nd).hmap w = ds.hmap w := by
  unfold relax
  rcases ds.hmap v with _ | cur | _
  · simp [upd, hwv]
  · by_cases hlt : nd < cur
    · simp [hlt, upd, hwv]
    · simp [hlt]
  · rfl

theorem relax_RInv {G : Digraph} {flow : Nat → Int} {s : Nat} {ds : DState}
    (hR : RInv G flow s ds.hmap) {v : Nat} (hreach : ResReachable G flow s v)
    (e : Nat) (nd : Int) :
    RInv G flow s (relax ds e v nd).hmap := by
  intro w hw
  by_cases hwv : w = v
  · subst hwv; exact hreach
  · apply hR
    rw [relax_hmap_other hwv] at hw
    exact hw

theorem foldOut_RInv {G : Digraph} {flow pot : Nat → Int} {d : Int}
    {s u : Nat} (hreach : ResReachable G flow s u) :
    ∀ (l : List Nat), (∀ e ∈ l, e < G.arcs.length ∧ arcSrc G e = u) →
      ∀ ds : DState, RInv G flow s ds.hmap →
      RInv G flow s ((l.foldl (fun ds e =>
        if flow e = 0 then relax ds e (arcTgt G e) (d + arcLen G e - pot (arcTgt G e))
        else ds) ds).hmap) := by
  intro l
  induction l with
  | nil => intro _ ds h; exact h
  | cons a l ih =>
    intro hl ds h
    rw [List.foldl_cons]
    apply ih (fun e he => hl e (List.mem_cons_of_mem a he))
    by_cases hf : flow a = 0
    · rw [if_pos hf]
      apply relax_RInv h
      apply Relation.ReflTransGen.tail hreach
      exact ⟨a, (hl a (List.mem_cons_self a l)).1,
        Or.inl ⟨hf, (hl a (List.mem_cons_self a l)).2, rfl⟩⟩
    · rw [if_neg hf]; exact h

theorem foldIn_RInv {G : Digraph} {flow pot : Nat → Int} {d : Int}
    {s u : Nat} (hreach : ResReachable G flow s u) :
    ∀ (l : List Nat), (∀ e ∈ l, e < G.arcs.length ∧ arcTgt G e = u) →
      ∀ ds : DState, RInv G flow s ds.hmap →
      RInv G flow s ((l.foldl (fun ds e =>
        if flow e = 1 then relax ds e (arcSrc G e) (d - arcLen G e - pot (arcSrc G e))
        else ds) ds).hmap) := by
  intro l
  induction l with
  | nil => intro _ ds h; exact h
  | cons a l ih =>
    intro hl ds h
    rw [List.foldl_cons]
    apply ih (fun e he => hl e (List.mem_cons_of_mem a he))
    by_cases hf : flow a = 1
    · rw [if_pos hf]
      apply relax_RInv h
      apply Relation.ReflTransGen.tail hreach
      exact ⟨a, (hl a (List.mem_cons_self a l)).1,
        Or.inr ⟨hf, (hl a (List.mem_cons_self a l)).2, rfl⟩⟩
    · rw [if_neg hf]; exact h

theorem dijkStep_RInv {G : Digraph} {flow pot : Nat → Int} {s : Nat}
    {ds : DState} (hR : RInv G flow s ds.hmap) {u : Nat} {p : Int}
    (hu : ds.hmap u = HState.inh p) :
    RInv G flow s (dijkStep G flow pot ds u p).hmap := by
  have hreach : ResReachable G flow s u := hR u (by rw [hu]; intro h; cases h)
  show RInv G flow s (processIn G flow pot (p + pot u) u
    (processOut G flow pot (p + pot u) u _)).hmap
  apply foldIn_RInv hreach (inArcs G u)
    (fun e he => ⟨(inArcs_mem.mp he).1, (inArcs_mem.mp he).2⟩)
  apply foldOut_RInv hreach (outArcs G u)
    (fun e he => ⟨(outArcs_mem.mp he).1, (outArcs_mem.mp he).2⟩)
  intro w hw
  by_cases hwu : w = u
  · subst hwu; exact hreach
  · apply hR
    simpa [upd, hwu] using hw

theorem dijkLoop_RInv {G : Digraph} {flow pot : Nat → Int} {t s : Nat} :
    ∀ (fuel : Nat) (ds : DState), RInv G flow s ds.hmap →
      RInv G flow s (dijkLoop G flow pot t fuel ds).hmap := by
  intro fuel
  induction fuel with
  | zero => intro ds h; exact h
  | succ fuel ih =>
    intro ds h
    rw [dijkLoop_succ]
    rcases htop : heapTop G.numNodes ds.hmap with _ | ⟨u, p⟩
    · exact h
    · by_cases hu : u = t
      · simp only [hu, if_pos rfl]; exact h
      · simp only [if_neg hu]
        exact ih _ (dijkStep_RInv h (heapTop_mem htop).2)

theorem dijkInit_RInv {G : Digraph} {flow : Nat → Int} {s : Nat}
    (pred0 : Nat → Option Nat) (dist0 : Nat → Int) :
    RInv G flow s (dijkInit s pred0 dist0).hmap := by
  intro v hv
  by_cases hvs : v = s
  · subst hvs; exact Relation.ReflTransGen.refl
  · exfalso
    apply hv
    show (dijkInit s pred0 dist0).hmap v = HState.pre
    simp [dijkInit, upd, hvs]

/-! ### The key/label invariants of the search -/

theorem labVal_inh {ds : DState} {v : Nat} {q : Int}
    (h : ds.hmap v = HState.inh q) : labVal ds v = q := by
  unfold labVal
  rw [h]

theorem labVal_post {ds : DState} {v : Nat}
    (h : ds.hmap v = HState.post) : labVal ds v = ds.dist v := by
  unfold labVal
  rw [h]

theorem labVal_congr {ds ds' : DState} {x : Nat} (h1 : ds'.hmap x = ds.hmap x)
    (h2 : ds'.dist x = ds.dist x) : labVal ds' x = labVal ds x := by
  unfold labVal
  rw [h1, h2]

theorem relax_eq_pre {ds : DState} {v : Nat} (e : Nat) (nd : Int)
    (h : ds.hmap v = HState.pre) :
    relax ds e v nd =
      { ds with hmap := upd ds.hmap v (HState.inh nd),
                pred := upd ds.pred v (some e) } := by
  unfold relax
  rw [h]

theorem relax_eq_dec {ds : DState} {v : Nat} {cur : Int} (e : Nat) {nd : Int}
    (h : ds.hmap v = HState.inh cur) (hlt : nd < cur) :
    relax ds e v nd =
      { ds with hmap := upd ds.hmap v (HState.inh nd),
                pred := upd ds.pred v (some e) } := by
  unfold relax
  rw [h]
  simp [hlt]

theorem relax_eq_keep {ds : DState} {v : Nat} {cur : Int} (e : Nat) {nd : Int}
    (h : ds.hmap v = HState.inh cur) (hlt : ¬nd < cur) :
    relax ds e v nd = ds := by
  unfold relax
  rw [h]
  simp [hlt]

theorem relax_eq_post {ds : DState} {v : Nat} (e : Nat) (nd : Int)
    (h : ds.hmap v = HState.post) : relax ds e v nd = ds := by
  unfold relax
  rw [h]

theorem relax_labVal_mono {ds : DState} {x : Nat} (hx : ds.hmap x ≠ HState.pre)
    (e v : Nat) (nd : Int) : labVal (relax ds e v nd) x ≤ labVal ds x := by
  by_cases hxv : x = v
  · subst hxv
    rcases hv : ds.hmap x with _ | cur | _
    · exact absurd hv hx
    · by_cases hlt : nd < cur
      · rw [relax_eq_dec e hv hlt, labVal_inh hv]
        rw [labVal_inh (show (upd ds.hmap x (HState.inh nd)) x = HState.inh nd
          by simp [upd])]
        omega
      · rw [relax_eq_keep e hv hlt]
    · rw [relax_eq_post e nd hv]
  · have h1 : (relax ds e v nd).hmap x = ds.hmap x := relax_hmap_other hxv e nd
    have h2 : (relax ds e v nd).dist x = ds.dist x := by rw [relax_dist]
    rw [labVal_congr h1 h2]

/-- One relaxation in the context of a pop: the fold context is preserved,
distances do not move, and the relaxed node's label is bounded by the
candidate priority. -/
theorem relaxK {G : Digraph} {flow pot : Nat → Int} {s : Nat} {p : Int}
    {P : List Nat} {ds : DState}
    (ctx : StepCtx G flow pot s p P ds)
    {e v u : Nat} {nd : Int}
    (he : e < G.arcs.length) (hedge : predEdge G flow v e u)
    (hu : u ∈ P) (hdu : ds.dist u = p) (hnd : nd = p + rcOf G flow pot e)
    (hrc : 0 ≤ rcOf G flow pot e) :
    StepCtx G flow pot s p P (relax ds e v nd) ∧
    (relax ds e v nd).dist = ds.dist ∧
    labVal (relax ds e v nd) v ≤ nd := by
  have hmain : ds.hmap v ≠ HState.post →
      StepCtx G flow pot s p P
        { ds with hmap := upd ds.hmap v (HState.inh nd),
                  pred := upd ds.pred v (some e) } := by
    intro hv_not_post
    have hvP : v ∉ P := fun h => hv_not_post ((ctx.hpost v).mpr h)
    have hvs : v ≠ s := fun h => hv_not_post (h ▸ ctx.hs_post)
    constructor
    · intro x q hx w hw
      dsimp only at hx ⊢
      by_cases hxv : x = v
      · subst hxv
        rw [show upd ds.hmap x (HState.inh nd) x = HState.inh nd
          by simp [upd]] at hx
        cases hx
        rw [hnd]
        have := ctx.hP w hw
        omega
      · rw [show upd ds.hmap v (HState.inh nd) x = ds.hmap x
          by simp [upd, hxv]] at hx
        exact ctx.hk1 x q hx w hw
    · intro w hw
      dsimp only
      exact ctx.hP w hw
    · intro x
      dsimp only
      by_cases hxv : x = v
      · subst hxv
        rw [show upd ds.hmap x (HState.inh nd) x = HState.inh nd by simp [upd]]
        constructor
        · intro hx; cases hx
        · intro hx; exact absurd hx hvP
      · rw [show upd ds.hmap v (HState.inh nd) x = ds.hmap x by simp [upd, hxv]]
        exact ctx.hpost x
    · exact ctx.hproc
    · intro w hws hwpre
      dsimp only at hwpre
      by_cases hwv : w = v
      · subst hwv
        refine ⟨e, u, by dsimp only; simp [upd], he, hedge, hu, ?_⟩
        have hl : labVal
            { ds with hmap := upd ds.hmap w (HState.inh nd),
                      pred := upd ds.pred w (some e) } w = nd :=
          labVal_inh (by dsimp only; simp [upd])
        rw [hl]
        dsimp only
        rw [hnd, hdu]
      · rw [show upd ds.hmap v (HState.inh nd) w = ds.hmap w
          by simp [upd, hwv]] at hwpre
        obtain ⟨e2, u2, hp2, he2, hedge2, hu2, heq2⟩ := ctx.hk4 w hws hwpre
        refine ⟨e2, u2, ?_, he2, hedge2, hu2, ?_⟩
        · dsimp only
          rw [show upd ds.pred v (some e) w = ds.pred w by simp [upd, hwv]]
          exact hp2
        · have hl : labVal
              { ds with hmap := upd ds.hmap v (HState.inh nd),
                        pred := upd ds.pred v (some e) } w = labVal ds w :=
            labVal_congr (by dsimp only; simp [upd, hwv]) rfl
          rw [hl]
          dsimp only
          exact heq2
    · dsimp only
      rw [show upd ds.hmap v (HState.inh nd) s = ds.hmap s
        by simp [upd, Ne.symm hvs]]
      exact ctx.hs_post
  rcases hv : ds.hmap v with _ | cur | _
  · rw [relax_eq_pre e nd hv]
    refine ⟨hmain (by rw [hv]; intro h; cases h), rfl, ?_⟩
    exact le_of_eq (labVal_inh (by dsimp only; simp [upd]))
  · by_cases hlt : nd < cur
    · rw [relax_eq_dec e hv hlt]
      refine ⟨hmain (by rw [hv]; intro h; cases h), rfl, ?_⟩
      exact le_of_eq (labVal_inh (by dsimp only; simp [upd]))
    · rw [relax_eq_keep e hv hlt]
      refine ⟨ctx, rfl, ?_⟩
      rw [labVal_inh hv]
      omega
  · rw [relax_eq_post e nd hv]
    refine ⟨ctx, rfl, ?_⟩
    rw [labVal_post hv]
    have hvP : v ∈ P := (ctx.hpost v).mp hv
    have := ctx.hP v hvP
    rw [hnd]
    omega

/-- The outgoing-arc fold preserves the pop context; afterwards every
relaxed target's label is bounded by the popped distance plus the reduced
cost, and no label has increased. -/
theorem foldOutK {G : Digraph} {flow pot : Nat → Int} {s u : Nat} {p : Int}
    {P : List Nat} (hRC : RCnn G flow pot) (hu : u ∈ P) :
    ∀ l : List Nat, (∀ e ∈ l, e < G.arcs.length ∧ arcSrc G e = u) →
    ∀ ds : DState, StepCtx G flow pot s p P ds → ds.dist u = p →
    StepCtx G flow pot s p P (l.foldl (fun ds e =>
        if flow e = 0 then relax ds e (arcTgt G e)
          (p + pot u + arcLen G e - pot (arcTgt G e)) else ds) ds) ∧
    (l.foldl (fun ds e =>
        if flow e = 0 then relax ds e (arcTgt G e)
          (p + pot u + arcLen G e - pot (arcTgt G e)) else ds) ds).dist = ds.dist ∧
    (∀ e ∈ l, flow e = 0 → labVal (l.foldl (fun ds e =>
        if flow e = 0 then relax ds e (arcTgt G e)
          (p + pot u + arcLen G e - pot (arcTgt G e)) else ds) ds)
        (arcTgt G e) ≤ p + rcOf G flow pot e) ∧
    (∀ x, ds.hmap x ≠ HState.pre → labVal (l.foldl (fun ds e =>
        if flow e = 0 then relax ds e (arcTgt G e)
          (p + pot u + arcLen G e - pot (arcTgt G e)) else ds) ds) x ≤ labVal ds x) := by
  intro l
  induction l with
  | nil =>
    intro _ ds ctx _
    refine ⟨ctx, rfl, ?_, ?_⟩
    · intro e he; exact absurd he (List.not_mem_nil e)
    · intro x _; exact Int.le_refl _
  | cons a l ih =>
    intro hl ds ctx hdu
    have ha := hl a (List.mem_cons_self a l)
    have hl' : ∀ e ∈ l, e < G.arcs.length ∧ arcSrc G e = u :=
      fun e he => hl e (List.mem_cons_of_mem a he)
    rw [List.foldl_cons]
    by_cases hf : flow a = 0
    · rw [if_pos hf]
      have hrca : rcOf G flow pot a = arcLen G a + pot (arcSrc G a) - pot (arcTgt G a) := by
        unfold rcOf; rw [if_pos hf]
      have hnd : p + pot u + arcLen G a - pot (arcTgt G a) = p + rcOf G flow pot a := by
        rw [hrca, ha.2]; ring
      have hedge : predEdge G flow (arcTgt G a) a u := Or.inl ⟨hf, rfl, ha.2⟩
      obtain ⟨ctx1, hdist1, hlab1⟩ :=
        relaxK ctx ha.1 hedge hu hdu hnd (hRC a ha.1)
      have hdu1 : (relax ds a (arcTgt G a)
          (p + pot u + arcLen G a - pot (arcTgt G a))).dist u = p := by
        rw [hdist1]; exact hdu
      obtain ⟨ctx2, hdist2, hcov2, hmono2⟩ := ih hl' _ ctx1 hdu1
      refine ⟨ctx2, hdist2.trans hdist1, ?_, ?_⟩
      · intro e he hfe
        rcases List.mem_cons.mp he with h | h
        · subst h
          have hnpre : (relax ds e (arcTgt G e)
              (p + pot u + arcLen G e - pot (arcTgt G e))).hmap (arcTgt G e) ≠
              HState.pre := relax_target_not_pre _ _ _ _
          calc labVal _ (arcTgt G e) ≤ labVal (relax ds e (arcTgt G e)
                (p + pot u + arcLen G e - pot (arcTgt G e))) (arcTgt G e) :=
              hmono2 _ hnpre
          _ ≤ p + pot u + arcLen G e - pot (arcTgt G e) := hlab1
          _ = p + rcOf G flow pot e := hnd
        · exact hcov2 e h hfe
      · intro x hx
        have hx1 : (relax ds a (arcTgt G a)
            (p + pot u + arcLen G a - pot (arcTgt G a))).hmap x ≠ HState.pre :=
          relax_not_pre_mono hx _ _ _
        exact (hmono2 x hx1).trans (relax_labVal_mono hx _ _ _)
    · rw [if_neg hf]
      obtain ⟨ctx2, hdist2, hcov2, hmono2⟩ := ih hl' ds ctx hdu
      refine ⟨ctx2, hdist2, ?_, hmono2⟩
      intro e he hfe
      rcases List.mem_cons.mp he with h | h
      · subst h; exact absurd hfe hf
      · exact hcov2 e h hfe

/-- The incoming-arc fold preserves the pop context; afterwards every
relaxed source's label is bounded by the popped distance plus the reduced
cost, and no label has increased. -/
theorem foldInK {G : Digraph} {flow pot : Nat → Int} {s u : Nat} {p : Int}
    {P : List Nat} (hRC : RCnn G flow pot) (hu : u ∈ P) :
    ∀ l : List Nat, (∀ e ∈ l, e < G.arcs.length ∧ arcTgt G e = u) →
    ∀ ds : DState, StepCtx G flow pot s p P ds → ds.dist u = p →
    StepCtx G flow pot s p P (l.foldl (fun ds e =>
        if flow e = 1 then relax ds e (arcSrc G e)
          (p + pot u - arcLen G e - pot (arcSrc G e)) else ds) ds) ∧
    (l.foldl (fun ds e =>
        if flow e = 1 then relax ds e (arcSrc G e)
          (p + pot u - arcLen G e - pot (arcSrc G e)) else ds) ds).dist = ds.dist ∧
    (∀ e ∈ l, flow e = 1 → labVal (l.foldl (fun ds e =>
        if flow e = 1 then relax ds e (arcSrc G e)
          (p + pot u - arcLen G e - pot (arcSrc G e)) else ds) ds)
        (arcSrc G e) ≤ p + rcOf G flow pot e) ∧
    (∀ x, ds.hmap x ≠ HState.pre → labVal (l.foldl (fun ds e =>
        if flow e = 1 then relax ds e (arcSrc G e)
          (p + pot u - arcLen G e - pot (arcSrc G e)) else ds) ds) x ≤ labVal ds x) := by
  intro l
  induction l with
  | nil =>
    intro _ ds ctx _
    refine ⟨ctx, rfl, ?_, ?_⟩
    · intro e he; exact absurd he (List.not_mem_nil e)
    · intro x _; exact Int.le_refl _
  | cons a l ih =>
    intro hl ds ctx hdu
    have ha := hl a (List.mem_cons_self a l)
    have hl' : ∀ e ∈ l, e < G.arcs.length ∧ arcTgt G e = u :=
      fun e he => hl e (List.mem_cons_of_mem a he)
    rw [List.foldl_cons]
    by_cases hf : flow a = 1
    · rw [if_pos hf]
      have hfa : ¬(flow a = 0) := by rw [hf]; decide
      have hrca : rcOf G flow pot a =
          pot (arcTgt G a) - pot (arcSrc G a) - arcLen G a := by
        unfold rcOf; rw [if_neg hfa]
      have hnd : p + pot u - arcLen G a - pot (arcSrc G a) = p + rcOf G flow pot a := by
        rw [hrca, ha.2]; ring
      have hedge : predEdge G flow (arcSrc G a) a u := Or.inr ⟨hf, rfl, ha.2⟩
      obtain ⟨ctx1, hdist1, hlab1⟩ :=
        relaxK ctx ha.1 hedge hu hdu hnd (hRC a ha.1)
      have hdu1 : (relax ds a (arcSrc G a)
          (p + pot u - arcLen G a - pot (arcSrc G a))).dist u = p := by
        rw [hdist1]; exact hdu
      obtain ⟨ctx2, hdist2, hcov2, hmono2⟩ := ih hl' _ ctx1 hdu1
      refine ⟨ctx2, hdist2.trans hdist1, ?_, ?_⟩
      · intro e he hfe
        rcases List.mem_cons.mp he with h | h
        · subst h
          have hnpre : (relax ds e (arcSrc G e)
              (p + pot u - arcLen G e - pot (arcSrc G e))).hmap (arcSrc G e) ≠
              HState.pre := relax_target_not_pre _ _ _ _
          calc labVal _ (arcSrc G e) ≤ labVal (relax ds e (arcSrc G e)
                (p + pot u - arcLen G e - pot (arcSrc G e))) (arcSrc G e) :=
              hmono2 _ hnpre
          _ ≤ p + pot u - arcLen G e - pot (arcSrc G e) := hlab1
          _ = p + rcOf G flow pot e := hnd
        · exact hcov2 e h hfe
      · intro x hx
        have hx1 : (relax ds a (arcSrc G a)
            (p + pot u - arcLen G a - pot (arcSrc G a))).hmap x ≠ HState.pre :=
          relax_not_pre_mono hx _ _ _
        exact (hmono2 x hx1).trans (relax_labVal_mono hx _ _ _)
    · rw [if_neg hf]
      obtain ⟨ctx2, hdist2, hcov2, hmono2⟩ := ih hl' ds ctx hdu
      refine ⟨ctx2, hdist2, ?_, hmono2⟩
      intro e he hfe
      rcases List.mem_cons.mp he with h | h
      · subst h; exact absurd hfe hf
      · exact hcov2 e h hfe

/-- Popping the heap top preserves the quantitative invariant. -/
theorem dijkStep_KInv {G : Digraph} {flow pot : Nat → Int} {s : Nat}
    (hRC : RCnn G flow pot) {ds : DState} (inv : DInv G flow s ds)
    (hC : CInv G flow ds) (kinv : KInv G flow pot s ds)
    {u : Nat} {p : Int} (htop : heapTop G.numNodes ds.hmap = some (u, p)) :
    KInv G flow pot s (dijkStep G flow pot ds u p) := by
  obtain ⟨hu_lt, hu_inh⟩ := heapTop_mem htop
  have hu_notmem : u ∉ ds.proc := by
    intro h
    have := (inv.post_iff u).mpr h
    rw [hu_inh] at this
    cases this
  set P := ds.proc ++ [u] with hPdef
  set ds1 : DState :=
    { ds with hmap := upd ds.hmap u HState.post,
              dist := upd ds.dist u p,
              proc := ds.proc ++ [u] } with hds1
  have huP : u ∈ P := by rw [hPdef]; simp
  have hdistw : ∀ w ∈ ds.proc, ds1.dist w = ds.dist w := by
    intro w hw
    have hwu : w ≠ u := fun h => hu_notmem (h ▸ hw)
    show upd ds.dist u p w = ds.dist w
    simp [upd, hwu]
  have hdu1 : ds1.dist u = p := by
    show upd ds.dist u p u = p
    simp [upd]
  have hlab1 : ∀ x, labVal ds1 x = labVal ds x := by
    intro x
    by_cases hxu : x = u
    · subst hxu
      rw [labVal_inh hu_inh]
      rw [labVal_post (show ds1.hmap x = HState.post by
        show upd ds.hmap x HState.post x = _; simp [upd])]
      exact hdu1
    · exact labVal_congr (by show upd ds.hmap u HState.post x = _; simp [upd, hxu])
        (by show upd ds.dist u p x = _; simp [upd, hxu])
  have h1pre : ∀ x, ds.hmap x ≠ HState.pre → ds1.hmap x ≠ HState.pre := by
    intro x hx
    by_cases hxu : x = u
    · subst hxu
      show upd ds.hmap x HState.post x ≠ _
      simp [upd]
    · show upd ds.hmap u HState.post x ≠ _
      simpa [upd, hxu] using hx
  have hsP : s ∈ P := by
    rw [hPdef]
    by_cases hproc : ds.proc = []
    · have hinit := inv.start hproc
      have h2 : ds.hmap u = (upd (fun _ => HState.pre) s (HState.inh 0)) u := by
        rw [hinit]
      rw [hu_inh] at h2
      unfold upd at h2
      by_cases hus : u = s
      · rw [hus]; simp
      · rw [if_neg hus] at h2; cases h2
    · exact List.mem_append_left _ (inv.s_mem hproc)
  have ctx1 : StepCtx G flow pot s p P ds1 := by
    constructor
    · intro x q hx w hw
      have hxu : x ≠ u := by
        intro h
        subst h
        rw [show ds1.hmap x = HState.post from by
          show upd ds.hmap x HState.post x = _; simp [upd]] at hx
        cases hx
      rw [show ds1.hmap x = ds.hmap x from by
        show upd ds.hmap u HState.post x = _; simp [upd, hxu]] at hx
      rcases List.mem_append.mp hw with hw1 | hw1
      · rw [hdistw w hw1]
        exact kinv.k1 x q hx w hw1
      · rw [List.mem_singleton.mp hw1, hdu1]
        exact heapTop_le htop x q (inv.bound x (by rw [hx]; intro h; cases h)) hx
    · intro w hw
      rcases List.mem_append.mp hw with hw1 | hw1
      · rw [hdistw w hw1]
        exact kinv.k1 u p hu_inh w hw1
      · rw [List.mem_singleton.mp hw1, hdu1]
    · intro x
      by_cases hxu : x = u
      · subst hxu
        rw [show ds1.hmap x = HState.post from by
          show upd ds.hmap x HState.post x = _; simp [upd]]
        simp [hPdef]
      · rw [show ds1.hmap x = ds.hmap x from by
          show upd ds.hmap u HState.post x = _; simp [upd, hxu]]
        rw [hPdef]
        rw [inv.post_iff x]
        constructor
        · intro h; exact List.mem_append_left _ h
        · intro h
          rcases List.mem_append.mp h with h1 | h1
          · exact h1
          · exact absurd (List.mem_singleton.mp h1) hxu
    · rfl
    · intro v hvs hvpre
      have hvpre0 : ds.hmap v ≠ HState.pre := by
        by_cases hvu : v = u
        · rw [hvu, hu_inh]; intro h; cases h
        · intro h
          apply hvpre
          show upd ds.hmap u HState.post v = _
          simpa [upd, hvu] using h
      obtain ⟨e2, u2, hp2, he2, hedge2, hu2, heq2⟩ := kinv.k4 v hvs hvpre0
      refine ⟨e2, u2, hp2, he2, hedge2, List.mem_append_left _ hu2, ?_⟩
      rw [hlab1 v, hdistw u2 hu2]
      exact heq2
    · exact ((by
        intro x
        by_cases hxu : x = u
        · subst hxu
          rw [show ds1.hmap x = HState.post from by
            show upd ds.hmap x HState.post x = _; simp [upd]]
          simp [hPdef]
        · rw [show ds1.hmap x = ds.hmap x from by
            show upd ds.hmap u HState.post x = _; simp [upd, hxu]]
          rw [hPdef, inv.post_iff x]
          constructor
          · intro h; exact List.mem_append_left _ h
          · intro h
            rcases List.mem_append.mp h with h1 | h1
            · exact h1
            · exact absurd (List.mem_singleton.mp h1) hxu) :
          ∀ x, ds1.hmap x = HState.post ↔ x ∈ P) s |>.mpr hsP
  obtain ⟨ctx2, hdist2, hcov2, hmono2⟩ := foldOutK hRC huP (outArcs G u)
    (fun e he => outArcs_mem.mp he) ds1 ctx1 hdu1
  have hdu2 : ((outArcs G u).foldl (fun ds e =>
      if flow e = 0 then relax ds e (arcTgt G e)
        (p + pot u + arcLen G e - pot (arcTgt G e)) else ds) ds1).dist u = p := by
    rw [hdist2]
    exact hdu1
  obtain ⟨ctx3, hdist3, hcov3, hmono3⟩ := foldInK hRC huP (inArcs G u)
    (fun e he => inArcs_mem.mp he) _ ctx2 hdu2
  have hstep_eq : dijkStep G flow pot ds u p =
      (inArcs G u).foldl (fun ds e =>
        if flow e = 1 then relax ds e (arcSrc G e)
          (p + pot u - arcLen G e - pot (arcSrc G e)) else ds)
      ((outArcs G u).foldl (fun ds e =>
        if flow e = 0 then relax ds e (arcTgt G e)
          (p + pot u + arcLen G e - pot (arcTgt G e)) else ds) ds1) := rfl
  rw [hstep_eq]
  set ds2 := (outArcs G u).foldl (fun ds e =>
      if flow e = 0 then relax ds e (arcTgt G e)
        (p + pot u + arcLen G e - pot (arcTgt G e)) else ds) ds1 with hds2
  set ds3 := (inArcs G u).foldl (fun ds e =>
      if flow e = 1 then relax ds e (arcSrc G e)
        (p + pot u - arcLen G e - pot (arcSrc G e)) else ds) ds2 with hds3
  have h2pre : ∀ x, ds1.hmap x ≠ HState.pre → ds2.hmap x ≠ HState.pre := by
    intro x hx
    rw [hds2]
    exact foldOut_not_pre_mono (u := u) _ _ _ hx
  have h3pre : ∀ x, ds2.hmap x ≠ HState.pre → ds3.hmap x ≠ HState.pre := by
    intro x hx
    rw [hds3]
    exact foldIn_not_pre_mono (u := u) _ _ _ hx
  have hdist3u : ds3.dist u = p := by
    rw [hds3] at *
    rw [hdist3]
    exact hdu2
  have hdistw3 : ∀ w ∈ ds.proc, ds3.dist w = ds.dist w := by
    intro w hw
    rw [hds3, hdist3, hds2, hdist2]
    exact hdistw w hw
  constructor
  · intro x q hx w hw
    rw [ctx3.hproc] at hw
    exact ctx3.hk1 x q hx w hw
  · intro u0 hu0 e he
    rw [ctx3.hproc, hPdef] at hu0
    rcases List.mem_append.mp hu0 with hu0 | hu0
    · -- an old processed node: transport its closure bound
      obtain ⟨hb0, hb1⟩ := kinv.k3 u0 hu0 e he
      constructor
      · intro hf hsrc
        have hstep0 : resStep G flow u0 (arcTgt G e) := ⟨e, he, Or.inl ⟨hf, hsrc, rfl⟩⟩
        have hnpre : ds.hmap (arcTgt G e) ≠ HState.pre := hC u0 hu0 _ hstep0
        calc labVal ds3 (arcTgt G e) ≤ labVal ds2 (arcTgt G e) :=
            hmono3 _ (h2pre _ (h1pre _ hnpre))
        _ ≤ labVal ds1 (arcTgt G e) := hmono2 _ (h1pre _ hnpre)
        _ = labVal ds (arcTgt G e) := hlab1 _
        _ ≤ ds.dist u0 + rcOf G flow pot e := hb0 hf hsrc
        _ = ds3.dist u0 + rcOf G flow pot e := by rw [hdistw3 u0 hu0]
      · intro hf htgt
        have hstep0 : resStep G flow u0 (arcSrc G e) := ⟨e, he, Or.inr ⟨hf, htgt, rfl⟩⟩
        have hnpre : ds.hmap (arcSrc G e) ≠ HState.pre := hC u0 hu0 _ hstep0
        calc labVal ds3 (arcSrc G e) ≤ labVal ds2 (arcSrc G e) :=
            hmono3 _ (h2pre _ (h1pre _ hnpre))
        _ ≤ labVal ds1 (arcSrc G e) := hmono2 _ (h1pre _ hnpre)
        _ = labVal ds (arcSrc G e) := hlab1 _
        _ ≤ ds.dist u0 + rcOf G flow pot e := hb1 hf htgt
        _ = ds3.dist u0 + rcOf G flow pot e := by rw [hdistw3 u0 hu0]
    · -- the freshly popped node: use the covering bounds of the folds
      have hu0u : u0 = u := List.mem_singleton.mp hu0
      subst hu0u
      constructor
      · intro hf hsrc
        have hemem : e ∈ outArcs G u0 := outArcs_mem.mpr ⟨he, hsrc⟩
        have hnpre2 : ds2.hmap (arcTgt G e) ≠ HState.pre := by
          rw [hds2]
          exact foldOut_covers (u := u0) _ _ e hemem hf
        calc labVal ds3 (arcTgt G e) ≤ labVal ds2 (arcTgt G e) := hmono3 _ hnpre2
        _ ≤ p + rcOf G flow pot e := hcov2 e hemem hf
        _ = ds3.dist u0 + rcOf G flow pot e := by rw [hdist3u]
      · intro hf htgt
        have hemem : e ∈ inArcs G u0 := inArcs_mem.mpr ⟨he, htgt⟩
        calc labVal ds3 (arcSrc G e) ≤ p + rcOf G flow pot e := hcov3 e hemem hf
        _ = ds3.dist u0 + rcOf G flow pot e := by rw [hdist3u]
  · intro v hvs hvpre
    obtain ⟨e2, u2, hp2, he2, hedge2, hu2, heq2⟩ := ctx3.hk4 v hvs hvpre
    refine ⟨e2, u2, hp2, he2, hedge2, ?_, heq2⟩
    rw [ctx3.hproc]
    exact hu2

/-- The quantitative invariant holds when the search starts. -/
theorem dijkInit_KInv {G : Digraph} {flow pot : Nat → Int} {s : Nat}
    (pred0 : Nat → Option Nat) (dist0 : Nat → Int) :
    KInv G flow pot s (dijkInit s pred0 dist0) := by
  constructor
  · intro x q _ w hw
    exact absurd hw (List.not_mem_nil w)
  · intro u hu
    exact absurd hu (List.not_mem_nil u)
  · intro v hvs hv
    exfalso
    apply hv
    show (dijkInit s pred0 dist0).hmap v = HState.pre
    simp [dijkInit, upd, hvs]

/-- All four invariants are preserved by the whole Dijkstra loop. -/
theorem dijkLoop_AllInv {G : Digraph} {flow pot : Nat → Int} {t s : Nat}
    (hWF : WF G) (hRC : RCnn G flow pot) :
    ∀ (fuel : Nat) (ds : DState), DInv G flow s ds → CInv G flow ds →
      KInv G flow pot s ds →
      DInv G flow s (dijkLoop G flow pot t fuel ds) ∧
      CInv G flow (dijkLoop G flow pot t fuel ds) ∧
      KInv G flow pot s (dijkLoop G flow pot t fuel ds) := by
  intro fuel
  induction fuel with
  | zero => intro ds h1 h2 h3; exact ⟨h1, h2, h3⟩
  | succ fuel ih =>
    intro ds h1 h2 h3
    rw [dijkLoop_succ]
    rcases htop : heapTop G.numNodes ds.hmap with _ | ⟨u, p⟩
    · exact ⟨h1, h2, h3⟩
    · by_cases hu : u = t
      · simp only [hu, if_pos rfl]; exact ⟨h1, h2, h3⟩
      · simp only [if_neg hu]
        exact ih _ (dijkStep_DInv hWF h1 htop).1 (dijkStep_CInv h2 u p)
          (dijkStep_KInv hRC h1 h2 h3 htop)

/-- Which arcs the flip walk changes: every changed arc is the
predecessor arc of some tree node, flipped according to its direction. -/
theorem flipWalk_flips (G : Digraph) (flow : Nat → Int) (pred : Nat → Option Nat)
    (proc : List Nat) (s t : Nat)
    (ht : t ∉ proc) (hps : pred s = none)
    (htree : ∀ v, (v ∈ proc ∨ v = t) → v ≠ s →
      ∃ e u', pred v = some e ∧ e < G.arcs.length ∧ predEdge G flow v e u' ∧
        u' ∈ proc ∧ proc.indexOf u' < proc.indexOf v) :
    ∀ (fuel : Nat) (v : Nat) (g : Nat → Int), (v ∈ proc ∨ v = t) →
      proc.indexOf v < fuel →
      ∀ e2, flipWalk G pred fuel v g e2 = g e2 ∨
        ∃ w, (w ∈ proc ∨ w = t) ∧ pred w = some e2 ∧
          ((flow e2 = 0 ∧ flipWalk G pred fuel v g e2 = 1) ∨
           (flow e2 = 1 ∧ flipWalk G pred fuel v g e2 = 0)) := by
  intro fuel
  induction fuel with
  | zero => intro v g _ hidx; omega
  | succ fuel ih =>
    intro v g hv hidx e2
    by_cases hvs : v = s
    · subst hvs
      rw [flipWalk_none g hps]
      exact Or.inl rfl
    · obtain ⟨e, u', hpred, he, hedge, hu'mem, hrank⟩ := htree v hv hvs
      have hidx' : proc.indexOf u' < fuel := by omega
      rw [flipWalk_cons g hpred]
      rcases hedge with ⟨hf0, hvt, hsrc⟩ | ⟨hf1, hvsrc, htgt⟩
      · rw [if_pos hvt.symm, hsrc]
        rcases ih u' (upd g e 1) (Or.inl hu'mem) hidx' e2 with h | ⟨w, hw, hpw, hcase⟩
        · by_cases h2 : e2 = e
          · subst h2
            right
            refine ⟨v, hv, hpred, Or.inl ⟨hf0, ?_⟩⟩
            rw [h]
            simp [upd]
          · left
            rw [h]
            simp [upd, h2]
        · exact Or.inr ⟨w, hw, hpw, hcase⟩
      · have hne_uv : u' ≠ v := by
          rcases hv with hvmem | hvt2
          · intro h; subst h; omega
          · intro h; rw [h, hvt2] at hu'mem; exact ht hu'mem
        rw [if_neg (by rw [htgt]; exact fun h => hne_uv h.symm), htgt]
        rcases ih u' (upd g e 0) (Or.inl hu'mem) hidx' e2 with h | ⟨w, hw, hpw, hcase⟩
        · by_cases h2 : e2 = e
          · subst h2
            right
            refine ⟨v, hv, hpred, Or.inr ⟨hf1, ?_⟩⟩
            rw [h]
            simp [upd]
          · left
            rw [h]
            simp [upd, h2]
        · exact Or.inr ⟨w, hw, hpw, hcase⟩

theorem applyPotUpdate_mem (dist : Nat → Int) (td : Int) :
    ∀ (l : List Nat), l.Nodup → ∀ (pot : Nat → Int) (x : Nat), x ∈ l →
      applyPotUpdate dist td l pot x = pot x + (dist x - td) := by
  intro l
  induction l with
  | nil => intro _ pot x hx; exact absurd hx (List.not_mem_nil x)
  | cons a l ih =>
    intro hnd pot x hx
    rw [applyPotUpdate_cons]
    rcases List.mem_cons.mp hx with h | h
    · subst h
      have hnot : x ∉ l := (List.nodup_cons.mp hnd).1
      rw [applyPotUpdate_notmem dist td l _ x hnot]
      simp [upd]
    · rw [ih (List.nodup_cons.mp hnd).2 _ x h]
      have hxa : x ≠ a := by
        intro hh
        subst hh
        exact absurd h (List.nodup_cons.mp hnd).1
      simp [upd, hxa]

theorem dijkRunPost_some {G : Digraph} {pot : Nat → Int} {ds : DState}
    {u : Nat} {p : Int} (h : heapTop G.numNodes ds.hmap = some (u, p)) :
    dijkRunPost G pot ds =
      ⟨true, applyPotUpdate ds.dist p ds.proc pot, ds.pred, ds.dist⟩ := by
  unfold dijkRunPost
  rw [h]

/-- The search tree facts needed by the walks, packaged from the
structural invariant. -/
theorem tree_of_DInv {G : Digraph} {flow : Nat → Int} {s : Nat} {ds : DState}
    (inv : DInv G flow s ds) {t : Nat} (htnot : t ∉ ds.proc)
    (hq : ds.hmap t ≠ HState.pre) :
    ∀ v, (v ∈ ds.proc ∨ v = t) → v ≠ s →
      ∃ e u', ds.pred v = some e ∧ e < G.arcs.length ∧ predEdge G flow v e u' ∧
        u' ∈ ds.proc ∧ ds.proc.indexOf u' < ds.proc.indexOf v := by
  intro v hv hvs
  have hvpre : ds.hmap v ≠ HState.pre := by
    rcases hv with hvmem | hvt
    · rw [(inv.post_iff v).mpr hvmem]; intro h; cases h
    · subst hvt; exact hq
  obtain ⟨e, u', hpred, he, hedge, humem, hrank⟩ := inv.tree v hvs hvpre
  refine ⟨e, u', hpred, he, hedge, humem, ?_⟩
  rcases hv with hvmem | hvt
  · exact hrank hvmem
  · subst hvt
    rw [List.indexOf_eq_length.mpr htnot]
    exact List.indexOf_lt_length.mpr humem

theorem rcOf_zero {G : Digraph} {flow pot : Nat → Int} {e : Nat}
    (h : flow e = 0) :
    rcOf G flow pot e = arcLen G e + pot (arcSrc G e) - pot (arcTgt G e) := by
  unfold rcOf
  rw [if_pos h]

theorem rcOf_one {G : Digraph} {flow pot : Nat → Int} {e : Nat}
    (h : flow e = 1) :
    rcOf G flow pot e = pot (arcTgt G e) - pot (arcSrc G e) - arcLen G e := by
  unfold rcOf
  rw [if_neg (by rw [h]; decide)]

/-- One successful augmentation keeps all residual reduced costs
non-negative and never increases any potential. -/
theorem findFlowStep_RCK {G : Digraph} (hWF : WF G) {st st' : SState}
    (hs : st.source < G.numNodes)
    (h01 : ∀ e, st.flow e = 0 ∨ st.flow e = 1)
    (hRC : RCnn G st.flow st.potential)
    (hstep : findFlowStep G st = some st') :
    RCnn G st'.flow st'.potential ∧ (∀ v, st'.potential v ≤ st.potential v) := by
  unfold findFlowStep at hstep
  by_cases hf : (dijkRun G st.flow st.potential st.pred st.dist st.source st.target).found
  case neg => rw [if_neg hf] at hstep; cases hstep
  rw [if_pos hf] at hstep
  obtain ⟨tdist, htop⟩ := dijkRun_found_top hWF hs hf
  set dsf := dijkLoop G st.flow st.potential st.target (G.numNodes + 1)
    (dijkInit st.source st.pred st.dist) with hdsf
  obtain ⟨inv, hC, kinv⟩ := dijkLoop_AllInv hWF hRC (G.numNodes + 1) _
    (dijkInit_DInv hs st.pred st.dist)
    (fun u hu => absurd hu (List.not_mem_nil u))
    (dijkInit_KInv st.pred st.dist)
  rw [← hdsf] at inv hC kinv
  have htnot : st.target ∉ dsf.proc :=
    dijkLoop_target_notmem G st.flow st.potential st.target st.pred st.dist st.source
  have htinh : dsf.hmap st.target = HState.inh tdist := (heapTop_mem htop).2
  have hrun : dijkRun G st.flow st.potential st.pred st.dist st.source st.target =
      ⟨true, applyPotUpdate dsf.dist tdist dsf.proc st.potential,
        dsf.pred, dsf.dist⟩ := by
    unfold dijkRun
    exact dijkRunPost_some htop
  have hst' : st' = { st with
      potential := (dijkRun G st.flow st.potential st.pred st.dist
        st.source st.target).pot,
      pred := (dijkRun G st.flow st.potential st.pred st.dist
        st.source st.target).pred,
      dist := (dijkRun G st.flow st.potential st.pred st.dist
        st.source st.target).dist,
      pathNum := st.pathNum + 1,
      flow := flipWalk G (dijkRun G st.flow st.potential st.pred st.dist
        st.source st.target).pred (G.numNodes + 1) st.target st.flow } :=
    (Option.some.inj hstep).symm
  have hflow' : st'.flow =
      flipWalk G dsf.pred (G.numNodes + 1) st.target st.flow := by
    rw [hst']
    dsimp only
    rw [hrun]
  have hpot' : st'.potential =
      applyPotUpdate dsf.dist tdist dsf.proc st.potential := by
    rw [hst']
    dsimp only
    rw [hrun]
  have hpi : ∀ x, st'.potential x = st.potential x +
      ((if x ∈ dsf.proc then dsf.dist x else tdist) - tdist) := by
    intro x
    rw [hpot']
    by_cases hx : x ∈ dsf.proc
    · rw [if_pos hx]
      exact applyPotUpdate_mem dsf.dist tdist dsf.proc inv.nodup _ x hx
    · rw [if_neg hx, applyPotUpdate_notmem dsf.dist tdist dsf.proc _ x hx]
      ring
  have hk1top : ∀ w ∈ dsf.proc, dsf.dist w ≤ tdist :=
    kinv.k1 st.target tdist htinh
  have hdhat_le : ∀ x, (if x ∈ dsf.proc then dsf.dist x else tdist) ≤ tdist := by
    intro x
    by_cases hx : x ∈ dsf.proc
    · rw [if_pos hx]; exact hk1top x hx
    · rw [if_neg hx]
  have hdec : ∀ v, st'.potential v ≤ st.potential v := by
    intro v
    rw [hpi v]
    have := hdhat_le v
    omega
  refine ⟨?_, hdec⟩
  have htree := tree_of_DInv inv htnot (by rw [htinh]; intro h; cases h)
  have hidxt : dsf.proc.indexOf st.target < G.numNodes + 1 := by
    rw [List.indexOf_eq_length.mpr htnot]
    have hplen := proc_length_le inv
    omega
  -- the label of each touched node, as used in the bounds below
  have hlab_mem : ∀ w ∈ dsf.proc, labVal dsf w = dsf.dist w := by
    intro w hw
    exact labVal_post ((inv.post_iff w).mpr hw)
  intro e he
  rcases flipWalk_flips G st.flow dsf.pred dsf.proc st.source st.target
      htnot inv.pred_s htree (G.numNodes + 1) st.target st.flow
      (Or.inr rfl) hidxt e with hkeep | ⟨w, hw, hpw, hcase⟩
  · -- arc untouched by the augmentation
    have hrc_eq : rcOf G st'.flow st'.potential e =
        rcOf G st.flow st'.potential e := by
      unfold rcOf
      rw [hflow', hkeep]
    rw [hrc_eq]
    rcases h01 e with hf0 | hf1
    · -- forward residual arc src → tgt
      rw [rcOf_zero hf0, hpi, hpi]
      have hbase := hRC e he
      rw [rcOf_zero hf0] at hbase
      by_cases hsrcm : arcSrc G e ∈ dsf.proc
      · have hnpre : dsf.hmap (arcTgt G e) ≠ HState.pre :=
          hC _ hsrcm _ ⟨e, he, Or.inl ⟨hf0, rfl, rfl⟩⟩
        have hk3 := (kinv.k3 _ hsrcm e he).1 hf0 rfl
        rw [rcOf_zero hf0] at hk3
        rw [if_pos hsrcm]
        by_cases htgtm : arcTgt G e ∈ dsf.proc
        · rw [if_pos htgtm]
          rw [hlab_mem _ htgtm] at hk3
          omega
        · rw [if_neg htgtm]
          rcases hm : dsf.hmap (arcTgt G e) with _ | q | _
          · exact absurd hm hnpre
          · have h1 : tdist ≤ q :=
              heapTop_le htop _ q (inv.bound _ (by rw [hm]; intro h; cases h)) hm
            have h2 : labVal dsf (arcTgt G e) = q := labVal_inh hm
            rw [h2] at hk3
            omega
          · exact absurd ((inv.post_iff _).mp hm) htgtm
      · rw [if_neg hsrcm]
        by_cases htgtm : arcTgt G e ∈ dsf.proc
        · rw [if_pos htgtm]
          have := hk1top _ htgtm
          omega
        · rw [if_neg htgtm]
          omega
    · -- reverse residual arc tgt → src
      rw [rcOf_one hf1, hpi, hpi]
      have hbase := hRC e he
      rw [rcOf_one hf1] at hbase
      by_cases htgtm : arcTgt G e ∈ dsf.proc
      · have hnpre : dsf.hmap (arcSrc G e) ≠ HState.pre :=
          hC _ htgtm _ ⟨e, he, Or.inr ⟨hf1, rfl, rfl⟩⟩
        have hk3 := (kinv.k3 _ htgtm e he).2 hf1 rfl
        rw [rcOf_one hf1] at hk3
        rw [if_pos htgtm]
        by_cases hsrcm : arcSrc G e ∈ dsf.proc
        · rw [if_pos hsrcm]
          rw [hlab_mem _ hsrcm] at hk3
          omega
        · rw [if_neg hsrcm]
          rcases hm : dsf.hmap (arcSrc G e) with _ | q | _
          · exact absurd hm hnpre
          · have h1 : tdist ≤ q :=
              heapTop_le htop _ q (inv.bound _ (by rw [hm]; intro h; cases h)) hm
            have h2 : labVal dsf (arcSrc G e) = q := labVal_inh hm
            rw [h2] at hk3
            omega
          · exact absurd ((inv.post_iff _).mp hm) hsrcm
      · rw [if_neg htgtm]
        by_cases hsrcm : arcSrc G e ∈ dsf.proc
        · rw [if_pos hsrcm]
          have := hk1top _ hsrcm
          omega
        · rw [if_neg hsrcm]
          omega
  · -- arc flipped along the augmenting path: zero reduced cost
    have hws : w ≠ st.source := by
      intro h
      rw [h, inv.pred_s] at hpw
      cases hpw
    have hwpre : dsf.hmap w ≠ HState.pre := by
      rcases hw with hwm | hwt
      · rw [(inv.post_iff w).mpr hwm]; intro h; cases h
      · rw [hwt, htinh]; intro h; cases h
    obtain ⟨e3, u3, hp3, he3, hedge3, hu3, heq3⟩ := kinv.k4 w hws hwpre
    rw [hpw] at hp3
    have he3e : e3 = e := (Option.some.inj hp3).symm
    subst he3e
    have hdhat_w : (if w ∈ dsf.proc then dsf.dist w else tdist) =
        dsf.dist u3 + rcOf G st.flow st.potential e3 := by
      rcases hw with hwm | hwt
      · rw [if_pos hwm, ← hlab_mem _ hwm]
        exact heq3
      · subst hwt
        rw [if_neg htnot, ← labVal_inh htinh]
        exact heq3
    have hdhat_u3 : (if u3 ∈ dsf.proc then dsf.dist u3 else tdist) =
        dsf.dist u3 := if_pos hu3
    rcases hcase with ⟨hf0, hval1⟩ | ⟨hf1, hval0⟩
    · rcases hedge3 with ⟨_, htgtw, hsrcu⟩ | ⟨hc, _, _⟩
      · have hne : ¬(flipWalk G dsf.pred (G.numNodes + 1) st.target st.flow e3 = 0) := by
          rw [hval1]; decide
        rw [hflow']
        unfold rcOf
        rw [if_neg hne]
        rw [hpi, hpi, htgtw, hsrcu]
        rw [rcOf_zero hf0, hsrcu, htgtw] at hdhat_w
        omega
      · rw [hf0] at hc; exact absurd hc (by decide)
    · rcases hedge3 with ⟨hc, _, _⟩ | ⟨_, hsrcw, htgtu⟩
      · rw [hf1] at hc; exact absurd hc (by decide)
      · rw [hflow']
        unfold rcOf
        rw [if_pos hval0]
        rw [hpi, hpi, hsrcw, htgtu]
        rw [rcOf_one hf1, hsrcw, htgtu] at hdhat_w
        omega

/-- The reduced-cost invariant, 0/1 flow values and source field are
preserved by the augmentation loop, and the potentials never increase. -/
theorem findFlowLoop_RCK {G : Digraph} (hWF : WF G) :
    ∀ (j : Nat) (st : SState), st.source < G.numNodes →
      (∀ e, st.flow e = 0 ∨ st.flow e = 1) →
      RCnn G st.flow st.potential →
      ((findFlowLoop G j st).source = st.source ∧
       (∀ e, (findFlowLoop G j st).flow e = 0 ∨ (findFlowLoop G j st).flow e = 1) ∧
       RCnn G (findFlowLoop G j st).flow (findFlowLoop G j st).potential) ∧
      (∀ v, (findFlowLoop G j st).potential v ≤ st.potential v) := by
  intro j
  induction j with
  | zero =>
    intro st _ h01 hRC
    exact ⟨⟨rfl, h01, hRC⟩, fun v => Int.le_refl _⟩
  | succ j ih =>
    intro st hs h01 hRC
    rw [findFlowLoop_succ]
    rcases hstep : findFlowStep G st with _ | st'
    · exact ⟨⟨rfl, h01, hRC⟩, fun v => Int.le_refl _⟩
    · obtain ⟨hRC', hdec⟩ := findFlowStep_RCK hWF hs h01 hRC hstep
      obtain ⟨_, hval, _, hsrc, _, _⟩ := findFlowStep_spec hWF hs hstep
      have h01' : ∀ e, st'.flow e = 0 ∨ st'.flow e = 1 := by
        intro e
        rcases hval e with h | h | h
        · rw [h]; exact h01 e
        · exact Or.inr h
        · exact Or.inl h
      have hs' : st'.source < G.numNodes := by rw [hsrc]; exact hs
      obtain ⟨⟨ha, hb, hc⟩, hd⟩ := ih st' hs' h01' hRC'
      exact ⟨⟨ha.trans hsrc, hb, hc⟩, fun v => (hd v).trans (hdec v)⟩

/-- Once the loop breaks it stays broken. -/
theorem findFlowLoop_stuck {G : Digraph} {st : SState}
    (h : findFlowStep G st = none) :
    ∀ b, findFlowLoop G b st = st := by
  intro b
  cases b with
  | zero => rfl
  | succ b => rw [findFlowLoop_succ, h]

/-- Splitting the augmentation loop. -/
theorem findFlowLoop_add (G : Digraph) :
    ∀ (a b : Nat) (st : SState),
      findFlowLoop G (a + b) st = findFlowLoop G b (findFlowLoop G a st) := by
  intro a
  induction a with
  | zero => intro b st; rw [Nat.zero_add]; rfl
  | succ a ih =>
    intro b st
    rw [show a + 1 + b = (a + b) + 1 by omega]
    rw [findFlowLoop_succ, findFlowLoop_succ]
    rcases hstep : findFlowStep G st with _ | st1
    · rw [findFlowLoop_stuck hstep b]
    · exact ih b st1

/-- Non-negative lengths give non-negative `arcLen` on valid arcs. -/
theorem arcLen_nonneg {G : Digraph} (hlen : NonnegLengths G) {e : Nat}
    (he : e < G.arcs.length) : 0 ≤ arcLen G e := by
  have hmem : G.arcs.getD e (0, 0, 0) ∈ G.arcs := by
    rw [List.getD_eq_getElem _ _ he]
    exact G.arcs.getElem_mem he
  exact hlen _ hmem

/-- The state entering the loop satisfies the reduced-cost invariant:
zero flow, zero potentials, non-negative lengths. -/
theorem RCnn_start (G : Digraph) (st : SState) (s : Nat)
    (hlen : NonnegLengths G) :
    RCnn G (init st s).flow (init st s).potential := by
  intro e he
  show 0 ≤ rcOf G (fun _ => 0) (fun _ => 0) e
  rw [@rcOf_zero G (fun _ => 0) (fun _ => 0) e rfl]
  have := arcLen_nonneg hlen he
  omega

/-! ### List-summation toolkit for the optimality proof -/

theorem sum_map_add {α : Type} (f g : α → Int) :
    ∀ l : List α, (l.map (fun x => f x + g x)).sum = (l.map f).sum + (l.map g).sum := by
  intro l
  induction l with
  | nil => rfl
  | cons a l ih =>
    simp only [List.map_cons, List.sum_cons, ih]
    ring

theorem sum_map_sub {α : Type} (f g : α → Int) :
    ∀ l : List α, (l.map (fun x => f x - g x)).sum = (l.map f).sum - (l.map g).sum := by
  intro l
  induction l with
  | nil => rfl
  | cons a l ih =>
    simp only [List.map_cons, List.sum_cons, ih]
    ring

theorem sum_map_const_mul {α : Type} (c : Int) (g : α → Int) :
    ∀ l : List α, (l.map (fun x => c * g x)).sum = c * (l.map g).sum := by
  intro l
  induction l with
  | nil => simp
  | cons a l ih =>
    simp only [List.map_cons, List.sum_cons, ih]
    ring

theorem sum_map_const {α : Type} (c : Int) :
    ∀ l : List α, (l.map (fun _ => c)).sum = l.length * c := by
  intro l
  induction l with
  | nil => simp
  | cons a l ih =>
    simp only [List.map_cons, List.sum_cons, List.length_cons, ih]
    push_cast
    ring

theorem sum_map_nonneg {α : Type} {l : List α} {g : α → Int}
    (h : ∀ x ∈ l, 0 ≤ g x) : 0 ≤ (l.map g).sum := by
  induction l with
  | nil => simp
  | cons a l ih =>
    simp only [List.map_cons, List.sum_cons]
    have h1 := h a (List.mem_cons_self a l)
    have h2 := ih (fun x hx => h x (List.mem_cons_of_mem a hx))
    omega

theorem sum_map_nonpos {α : Type} {l : List α} {g : α → Int}
    (h : ∀ x ∈ l, g x ≤ 0) : (l.map g).sum ≤ 0 := by
  induction l with
  | nil => simp
  | cons a l ih =>
    simp only [List.map_cons, List.sum_cons]
    have h1 := h a (List.mem_cons_self a l)
    have h2 := ih (fun x hx => h x (List.mem_cons_of_mem a hx))
    omega

theorem sum_map_le {α : Type} {l : List α} {g h : α → Int}
    (hle : ∀ x ∈ l, g x ≤ h x) : (l.map g).sum ≤ (l.map h).sum := by
  induction l with
  | nil => simp
  | cons a l ih =>
    simp only [List.map_cons, List.sum_cons]
    have h1 := hle a (List.mem_cons_self a l)
    have h2 := ih (fun x hx => hle x (List.mem_cons_of_mem a hx))
    omega

theorem sum_map_congr {α : Type} {g h : α → Int} :
    ∀ {l : List α}, (∀ x ∈ l, g x = h x) → (l.map g).sum = (l.map h).sum := by
  intro l
  induction l with
  | nil => intro _; rfl
  | cons a l ih =>
    intro he
    simp only [List.map_cons, List.sum_cons]
    rw [he a (List.mem_cons_self a l), ih (fun x hx => he x (List.mem_cons_of_mem a hx))]

theorem sum_map_ite_filter {α : Type} (p : α → Prop) [DecidablePred p] (g : α → Int) :
    ∀ l : List α, ((l.filter (fun x => decide (p x))).map g).sum =
      (l.map (fun x => if p x then g x else 0)).sum := by
  intro l
  induction l with
  | nil => rfl
  | cons a l ih =>
    by_cases h : p a
    · rw [List.filter_cons_of_pos (by simpa using h)]
      simp only [List.map_cons, List.sum_cons, if_pos h, ih]
    · rw [List.filter_cons_of_neg (by simpa using h)]
      simp only [List.map_cons, List.sum_cons, if_neg h, ih]
      omega

theorem sum_map_delta (c : Nat → Int) (x : Nat) :
    ∀ l : List Nat, l.Nodup → x ∈ l →
      (l.map (fun v => if x = v then c v else 0)).sum = c x := by
  intro l
  induction l with
  | nil => intro _ h; exact absurd h (List.not_mem_nil x)
  | cons a l ih =>
    intro hnd hmem
    rw [List.map_cons, List.sum_cons]
    by_cases hax : x = a
    · subst hax
      rw [if_pos rfl]
      have hx : x ∉ l := (List.nodup_cons.mp hnd).1
      have hz : (l.map (fun v => if x = v then c v else 0)).sum = 0 := by
        apply List.sum_eq_zero
        intro y hy
        obtain ⟨v, hv, rfl⟩ := List.mem_map.mp hy
        have hxv : ¬ x = v := fun h => hx (by rw [h]; exact hv)
        rw [if_neg hxv]
      rw [hz]
      ring
    · rw [if_neg hax]
      have hmem' : x ∈ l := by
        rcases List.mem_cons.mp hmem with h | h
        · exact absurd h hax
        · exact h
      rw [ih (List.nodup_cons.mp hnd).2 hmem']
      ring

theorem sum_map_comm (F : Nat → Nat → Int) :
    ∀ l1 l2 : List Nat,
      (l1.map (fun v => (l2.map (fun e => F v e)).sum)).sum =
      (l2.map (fun e => (l1.map (fun v => F v e)).sum)).sum := by
  intro l1
  induction l1 with
  | nil => intro l2; simp
  | cons a l1 ih =>
    intro l2
    simp only [List.map_cons, List.sum_cons]
    rw [ih l2]
    exact (sum_map_add (fun e => F a e)
      (fun e => (l1.map (fun v => F v e)).sum) l2).symm

theorem sum_map_flatten {α : Type} (g : α → Int) :
    ∀ P : List (List α), (P.flatten.map g).sum = (P.map (fun p => (p.map g).sum)).sum := by
  intro P
  induction P with
  | nil => rfl
  | cons p P ih =>
    simp only [List.flatten_cons, List.map_append, List.sum_append, List.map_cons,
      List.sum_cons, ih]

theorem perm_of_nodup_mem_iff {l1 l2 : List Nat} (h1 : l1.Nodup) (h2 : l2.Nodup)
    (h : ∀ x, x ∈ l1 ↔ x ∈ l2) : l1.Perm l2 :=
  (List.subperm_of_subset h1 (fun x hx => (h x).mp hx)).antisymm
    (List.subperm_of_subset h2 (fun x hx => (h x).mpr hx))

/-! ### Paths, support and reduced lengths -/

theorem isPath_mem_valid {G : Digraph} :
    ∀ {p : List Nat} {u v : Nat}, IsPath G u v p → ∀ e ∈ p, e < G.arcs.length := by
  intro p
  induction p with
  | nil => intro u v _ e he; exact absurd he (List.not_mem_nil e)
  | cons a p ih =>
    intro u v h e he
    obtain ⟨ha, _, hrest⟩ := h
    rcases List.mem_cons.mp he with h | h
    · rw [h]; exact ha
    · exact ih hrest e h

theorem potDrop_isPath {G : Digraph} (pot : Nat → Int) :
    ∀ {p : List Nat} {u v : Nat}, IsPath G u v p →
      potDrop G pot p = pot v - pot u := by
  intro p
  induction p with
  | nil =>
    intro u v h
    rw [h]
    simp [potDrop]
  | cons e p ih =>
    intro u v h
    obtain ⟨_, hsrc, hrest⟩ := h
    have h2 := ih hrest
    simp only [potDrop, List.map_cons, List.sum_cons] at h2 ⊢
    rw [h2, hsrc]
    ring

theorem lenSum_split (G : Digraph) (pot : Nat → Int) (p : List Nat) :
    lenSum G p = rlenSum G pot p + potDrop G pot p := by
  unfold lenSum rlenSum potDrop
  rw [← sum_map_add]
  have hfe : (fun e => rlen G pot e + (pot (arcTgt G e) - pot (arcSrc G e))) =
      fun e => arcLen G e := by
    funext e
    unfold rlen
    ring
  rw [hfe]

theorem support_nodup (G : Digraph) (f : Nat → Int) : (support G f).Nodup := by
  unfold support arcIds
  exact (List.nodup_range _).filter _

theorem mem_support {G : Digraph} {f : Nat → Int} {e : Nat} :
    e ∈ support G f ↔ e < G.arcs.length ∧ f e = 1 := by
  unfold support arcIds
  rw [List.mem_filter, List.mem_range]
  simp

theorem rlen_nonneg {G : Digraph} {f pot : Nat → Int} (hRC : RCnn G f pot)
    {e : Nat} (he : e < G.arcs.length) (hf : f e = 0) : 0 ≤ rlen G pot e := by
  have h := hRC e he
  rw [rcOf_zero hf] at h
  unfold rlen
  omega

theorem rlen_nonpos {G : Digraph} {f pot : Nat → Int} (hRC : RCnn G f pot)
    {e : Nat} (he : e < G.arcs.length) (hf : f e = 1) : rlen G pot e ≤ 0 := by
  have h := hRC e he
  rw [rcOf_one hf] at h
  unfold rlen
  omega

theorem flow_cost_eq_lenSum_support {G : Digraph} {f : Nat → Int}
    (h01 : ∀ e, f e = 0 ∨ f e = 1) :
    ((arcIds G).map (fun e => f e * arcLen G e)).sum = lenSum G (support G f) := by
  unfold lenSum support
  rw [sum_map_ite_filter (fun e => f e = 1) (arcLen G) (arcIds G)]
  have hfe : (fun e => f e * arcLen G e) =
      fun e => if f e = 1 then arcLen G e else 0 := by
    funext e
    rcases h01 e with h | h <;> rw [h] <;> simp
  rw [hfe]

/-- Double counting the quantity `pot v · (flow into v − flow out of v)`
over nodes and arcs: for a flow whose excess is `pn` at `t`, `−pn` at `s`
and `0` elsewhere, the total potential drop over the support arcs is
`pn · (pot t − pot s)`. -/
theorem potDrop_support {G : Digraph} (hWF : WF G) {f pot : Nat → Int}
    {s t : Nat} {pn : Int} (hs : s < G.numNodes) (ht : t < G.numNodes)
    (h01 : ∀ e, f e = 0 ∨ f e = 1)
    (hexc : ∀ v, excess G f v =
      pn * ((if t = v then 1 else 0) - (if s = v then 1 else 0))) :
    potDrop G pot (support G f) = pn * (pot t - pot s) := by
  have hndN : (nodeIds G).Nodup := by unfold nodeIds; exact List.nodup_range _
  have htN : t ∈ nodeIds G := by unfold nodeIds; exact List.mem_range.mpr ht
  have hsN : s ∈ nodeIds G := by unfold nodeIds; exact List.mem_range.mpr hs
  have hLfun : ∀ v, ((arcIds G).map (fun e =>
      pot v * ((if arcTgt G e = v then f e else 0) -
        (if arcSrc G e = v then f e else 0)))).sum =
      pot v * (pn * ((if t = v then (1 : Int) else 0) -
        (if s = v then 1 else 0))) := by
    intro v
    rw [sum_map_const_mul (pot v)
      (fun e => (if arcTgt G e = v then f e else 0) -
        (if arcSrc G e = v then f e else 0)) (arcIds G)]
    rw [sum_map_sub (fun e => if arcTgt G e = v then f e else 0)
      (fun e => if arcSrc G e = v then f e else 0) (arcIds G)]
    rw [← sum_map_ite_filter (fun e => arcTgt G e = v) f (arcIds G)]
    rw [← sum_map_ite_filter (fun e => arcSrc G e = v) f (arcIds G)]
    have hx := hexc v
    unfold excess inArcs outArcs at hx
    rw [hx]
  have hL : ((nodeIds G).map (fun v => ((arcIds G).map (fun e =>
      pot v * ((if arcTgt G e = v then f e else 0) -
        (if arcSrc G e = v then f e else 0)))).sum)).sum =
      pn * (pot t - pot s) := by
    rw [@sum_map_congr Nat _ _ (nodeIds G) (fun v _ => hLfun v)]
    have hfe : ∀ v, pot v * (pn * ((if t = v then (1 : Int) else 0) -
        (if s = v then 1 else 0))) =
        (if t = v then pn * pot v else 0) - (if s = v then pn * pot v else 0) := by
      intro v
      by_cases h1 : t = v <;> by_cases h2 : s = v <;> simp [h1, h2] <;> ring
    rw [@sum_map_congr Nat _ _ (nodeIds G) (fun v _ => hfe v)]
    rw [sum_map_sub (fun v => if t = v then pn * pot v else 0)
      (fun v => if s = v then pn * pot v else 0) (nodeIds G)]
    rw [sum_map_delta (fun v => pn * pot v) t (nodeIds G) hndN htN]
    rw [sum_map_delta (fun v => pn * pot v) s (nodeIds G) hndN hsN]
    ring
  have hRfun : ∀ e ∈ arcIds G, ((nodeIds G).map (fun v =>
      pot v * ((if arcTgt G e = v then f e else 0) -
        (if arcSrc G e = v then f e else 0)))).sum =
      f e * (pot (arcTgt G e) - pot (arcSrc G e)) := by
    intro e he
    have hev : e < G.arcs.length := by unfold arcIds at he; exact List.mem_range.mp he
    obtain ⟨hsv, htv⟩ := wf_arc hWF hev
    have hfe : ∀ v, pot v * ((if arcTgt G e = v then f e else 0) -
        (if arcSrc G e = v then f e else 0)) =
        (if arcTgt G e = v then pot v * f e else 0) -
        (if arcSrc G e = v then pot v * f e else 0) := by
      intro v
      by_cases h1 : arcTgt G e = v <;> by_cases h2 : arcSrc G e = v <;>
        simp [h1, h2] <;> ring
    rw [@sum_map_congr Nat _ _ (nodeIds G) (fun v _ => hfe v)]
    rw [sum_map_sub (fun v => if arcTgt G e = v then pot v * f e else 0)
      (fun v => if arcSrc G e = v then pot v * f e else 0) (nodeIds G)]
    rw [sum_map_delta (fun v => pot v * f e) (arcTgt G e) (nodeIds G) hndN
      (by unfold nodeIds; exact List.mem_range.mpr htv)]
    rw [sum_map_delta (fun v => pot v * f e) (arcSrc G e) (nodeIds G) hndN
      (by unfold nodeIds; exact List.mem_range.mpr hsv)]
    ring
  have hR : ((arcIds G).map (fun e => ((nodeIds G).map (fun v =>
      pot v * ((if arcTgt G e = v then f e else 0) -
        (if arcSrc G e = v then f e else 0)))).sum)).sum =
      potDrop G pot (support G f) := by
    rw [@sum_map_congr Nat _ _ (arcIds G) hRfun]
    have hfe2 : ∀ e, f e * (pot (arcTgt G e) - pot (arcSrc G e)) =
        if f e = 1 then pot (arcTgt G e) - pot (arcSrc G e) else 0 := by
      intro e
      rcases h01 e with h | h <;> rw [h] <;> simp
    rw [@sum_map_congr Nat _ _ (arcIds G) (fun e _ => hfe2 e)]
    rw [← sum_map_ite_filter (fun e => f e = 1)
      (fun e => pot (arcTgt G e) - pot (arcSrc G e)) (arcIds G)]
    rfl
  have key := sum_map_comm (fun v e =>
    pot v * ((if arcTgt G e = v then f e else 0) -
      (if arcSrc G e = v then f e else 0))) (nodeIds G) (arcIds G)
  rw [hL, hR] at key
  exact key.symm

theorem extractPaths_length (G : Digraph) (s t : Nat) :
    ∀ (i : Nat) (res : Nat → Int), (extractPaths G s t i res).1.length = i := by
  intro i
  induction i with
  | zero => intro res; rfl
  | succ i ih =>
    intro res
    show ((pathWalk G t (G.arcs.length + 1) s res).1 ::
      (extractPaths G s t i (pathWalk G t (G.arcs.length + 1) s res).2).1).length = i + 1
    rw [List.length_cons, ih]

/-- Splitting a map-sum along a Boolean partition of the list. -/
theorem sum_partition (p : Nat → Bool) (g : Nat → Int) (l : List Nat) :
    (l.map g).sum = ((l.filter p).map g).sum +
      ((l.filter (fun x => !p x)).map g).sum := by
  have hp := List.filter_append_perm p l
  have hsum := (hp.map g).sum_eq
  rw [List.map_append, List.sum_append] at hsum
  omega

/-- Splitting a map-sum over a duplicate-free list into a duplicate-free
sublist and the rest. -/
theorem sum_split_subset {l m : List Nat} (g : Nat → Int)
    (hl : l.Nodup) (hm : m.Nodup) (hsub : ∀ x ∈ m, x ∈ l) :
    (l.map g).sum = (m.map g).sum +
      ((l.filter (fun x => !decide (x ∈ m))).map g).sum := by
  have hsum := sum_partition (fun x => decide (x ∈ m)) g l
  have hperm1 : (l.filter (fun x => decide (x ∈ m))).Perm m := by
    apply perm_of_nodup_mem_iff (hl.filter _) hm
    intro x
    rw [List.mem_filter]
    constructor
    · intro h
      simpa using h.2
    · intro h
      exact ⟨hsub x h, by simpa using h⟩
  rw [(hperm1.map g).sum_eq] at hsum
  exact hsum

/-- The total length of a list of `s → t` paths equals the sum of their
reduced lengths plus `|Q| · (π(t) − π(s))`. -/
theorem pathlist_cost {G : Digraph} (pot : Nat → Int) {s t : Nat}
    {Q : List (List Nat)} (hQ : ∀ q ∈ Q, IsPath G s t q) :
    (Q.map (lenSum G)).sum =
      rlenSum G pot Q.flatten + Q.length * (pot t - pot s) := by
  have h1 : ∀ q ∈ Q, lenSum G q = rlenSum G pot q + (pot t - pot s) := by
    intro q hq
    rw [lenSum_split G pot q, potDrop_isPath pot (hQ q hq)]
  rw [sum_map_congr h1]
  rw [sum_map_add (rlenSum G pot) (fun _ => pot t - pot s) Q]
  rw [sum_map_const (pot t - pot s) Q]
  unfold rlenSum
  rw [sum_map_flatten (rlen G pot) Q]

/-- Weak duality: the cost of a `0/1` flow with excess `pn` at `t`, `−pn`
at `s`, supported by reduced-cost-optimal potentials, is a lower bound on
the total length of every family of `pn` arc-disjoint `s → t` paths. -/
theorem support_cost_le {G : Digraph} (hWF : WF G)
    {f pot : Nat → Int} {s t : Nat} {pn : Int} {Q : List (List Nat)}
    (hs : s < G.numNodes) (ht : t < G.numNodes)
    (h01 : ∀ e, f e = 0 ∨ f e = 1) (hRC : RCnn G f pot)
    (hexc : ∀ v, excess G f v =
      pn * ((if t = v then 1 else 0) - (if s = v then 1 else 0)))
    (hQ : ∀ q ∈ Q, IsPath G s t q) (hQnd : Q.flatten.Nodup)
    (hQlen : (Q.length : Int) = pn) :
    ((arcIds G).map (fun e => f e * arcLen G e)).sum ≤ (Q.map (lenSum G)).sum := by
  have hSnd := support_nodup G f
  have hdropS := @potDrop_support G hWF f pot s t pn hs ht h01 hexc
  rw [flow_cost_eq_lenSum_support h01]
  rw [lenSum_split G pot (support G f), hdropS]
  rw [pathlist_cost pot hQ, hQlen]
  have hQvalid : ∀ e ∈ Q.flatten, e < G.arcs.length := by
    intro e he
    obtain ⟨q, hq, heq⟩ := List.mem_flatten.mp he
    exact isPath_mem_valid (hQ q hq) e heq
  have hpartQ := sum_partition (fun e => decide (e ∈ support G f))
    (rlen G pot) Q.flatten
  have hpartS := sum_partition (fun e => decide (e ∈ Q.flatten))
    (rlen G pot) (support G f)
  have hperm : ((support G f).filter (fun e => decide (e ∈ Q.flatten))).Perm
      (Q.flatten.filter (fun e => decide (e ∈ support G f))) := by
    apply perm_of_nodup_mem_iff (hSnd.filter _) (hQnd.filter _)
    intro x
    rw [List.mem_filter, List.mem_filter]
    constructor
    · rintro ⟨h1, h2⟩
      exact ⟨by simpa using h2, by simpa using h1⟩
    · rintro ⟨h1, h2⟩
      exact ⟨by simpa using h2, by simpa using h1⟩
  have hpermsum := (hperm.map (rlen G pot)).sum_eq
  have hSneg : (((support G f).filter
      (fun e => !decide (e ∈ Q.flatten))).map (rlen G pot)).sum ≤ 0 := by
    apply sum_map_nonpos
    intro e he
    obtain ⟨heS, _⟩ := List.mem_filter.mp he
    obtain ⟨hev, hef⟩ := mem_support.mp heS
    exact rlen_nonpos hRC hev hef
  have hQpos : 0 ≤ ((Q.flatten.filter
      (fun e => !decide (e ∈ support G f))).map (rlen G pot)).sum := by
    apply sum_map_nonneg
    intro e he
    obtain ⟨heQ, hcond⟩ := List.mem_filter.mp he
    have hval := hQvalid e heQ
    have hnotS : ¬ e ∈ support G f := by simpa using hcond
    have hf0 : f e = 0 := by
      rcases h01 e with h | h
      · exact h
      · exact absurd (mem_support.mpr ⟨hval, h⟩) hnotS
    exact rlen_nonneg hRC hval hf0
  unfold rlenSum
  linarith [hpartQ, hpartS, hpermsum, hSneg, hQpos]

/-- The flow cost equals the total length of any family of `pn`
arc-disjoint `s → t` paths that use only support arcs: the stranded part
of the support consists of zero-length residual cycles. -/
theorem support_cost_eq {G : Digraph} (hWF : WF G) (hlen : NonnegLengths G)
    {f pot : Nat → Int} {s t : Nat} {pn : Int} {P : List (List Nat)}
    (hs : s < G.numNodes) (ht : t < G.numNodes)
    (h01 : ∀ e, f e = 0 ∨ f e = 1) (hRC : RCnn G f pot)
    (hexc : ∀ v, excess G f v =
      pn * ((if t = v then 1 else 0) - (if s = v then 1 else 0)))
    (hP : ∀ q ∈ P, IsPath G s t q) (hPnd : P.flatten.Nodup)
    (hPflow : ∀ q ∈ P, ∀ e ∈ q, f e = 1)
    (hPlen : (P.length : Int) = pn) :
    ((arcIds G).map (fun e => f e * arcLen G e)).sum = (P.map (lenSum G)).sum := by
  have hSnd := support_nodup G f
  have hdropS := @potDrop_support G hWF f pot s t pn hs ht h01 hexc
  rw [flow_cost_eq_lenSum_support h01]
  rw [lenSum_split G pot (support G f), hdropS]
  rw [pathlist_cost pot hP, hPlen]
  have hsubP : ∀ e ∈ P.flatten, e ∈ support G f := by
    intro e he
    obtain ⟨p, hp, hep⟩ := List.mem_flatten.mp he
    exact mem_support.mpr ⟨isPath_mem_valid (hP p hp) e hep, hPflow p hp e hep⟩
  have hsplitRlen := sum_split_subset (rlen G pot) hSnd hPnd hsubP
  have hsplitDrop := sum_split_subset
    (fun e => pot (arcTgt G e) - pot (arcSrc G e)) hSnd hPnd hsubP
  have hdropFl : (P.flatten.map
      (fun e => pot (arcTgt G e) - pot (arcSrc G e))).sum = pn * (pot t - pot s) := by
    rw [sum_map_flatten (fun e => pot (arcTgt G e) - pot (arcSrc G e)) P]
    have h2 : ∀ p ∈ P,
        (p.map (fun e => pot (arcTgt G e) - pot (arcSrc G e))).sum = pot t - pot s := by
      intro p hp
      have h3 := potDrop_isPath pot (hP p hp)
      unfold potDrop at h3
      exact h3
    rw [sum_map_congr h2, sum_map_const, hPlen]
  have hdropS' : ((support G f).map
      (fun e => pot (arcTgt G e) - pot (arcSrc G e))).sum = pn * (pot t - pot s) := by
    have h4 := hdropS
    unfold potDrop at h4
    exact h4
  have hRmem : ∀ e ∈ (support G f).filter (fun x => !decide (x ∈ P.flatten)),
      e < G.arcs.length ∧ f e = 1 := by
    intro e he
    exact mem_support.mp (List.mem_filter.mp he).1
  have hRlen_nonneg : 0 ≤ (((support G f).filter
      (fun x => !decide (x ∈ P.flatten))).map (arcLen G)).sum := by
    apply sum_map_nonneg
    intro e he
    exact arcLen_nonneg hlen (hRmem e he).1
  have hRlen_le : (((support G f).filter
      (fun x => !decide (x ∈ P.flatten))).map (arcLen G)).sum ≤
      (((support G f).filter (fun x => !decide (x ∈ P.flatten))).map
        (fun e => pot (arcTgt G e) - pot (arcSrc G e))).sum := by
    apply sum_map_le
    intro e he
    have h5 := rlen_nonpos hRC (hRmem e he).1 (hRmem e he).2
    unfold rlen at h5
    omega
  have hRrlen : (((support G f).filter
      (fun x => !decide (x ∈ P.flatten))).map (rlen G pot)).sum =
      (((support G f).filter (fun x => !decide (x ∈ P.flatten))).map (arcLen G)).sum -
      (((support G f).filter (fun x => !decide (x ∈ P.flatten))).map
        (fun e => pot (arcTgt G e) - pot (arcSrc G e))).sum := by
    have h6 : ∀ e, rlen G pot e =
        arcLen G e - (pot (arcTgt G e) - pot (arcSrc G e)) := by
      intro e
      unfold rlen
      ring
    rw [sum_map_congr (fun e _ => h6 e)]
    exact sum_map_sub (arcLen G)
      (fun e => pot (arcTgt G e) - pot (arcSrc G e)) _
  unfold rlenSum
  linarith [hsplitRlen, hsplitDrop, hdropFl, hdropS', hRlen_nonneg, hRlen_le, hRrlen]

/-- With `s = t` the augmentation loop never changes the flow map. -/
theorem findFlowLoop_self_flow (G : Digraph) :
    ∀ (fuel : Nat) (st : SState), st.source = st.target →
      st.source < G.numNodes →
      (findFlowLoop G fuel st).flow = st.flow := by
  intro fuel
  induction fuel with
  | zero => intro st _ _; rfl
  | succ fuel ih =>
    intro st hst hs
    rw [findFlowLoop_succ, findFlowStep_self G st hst hs]
    exact ih _ hst hs

end Suurballe

namespace Suurballe

/-! ### Claim theorems -/

/-- C8: `run(s, t, k)` produces exactly the same resulting state and return
value as `init(s); findFlow(t, k); findPaths();` followed by returning
`path_num`. -/
theorem run_eq_composition (G : Digraph) (st : SState) (s t : Nat) (k : Int) :
    run G st s t k =
      ((findPaths G (findFlow G (init st s) t k)).pathNum,
        findPaths G (findFlow G (init st s) t k)) := rfl

/-- C9: `findPaths()` does not modify the flow map: every arc's flow value
is the same after `findPaths()` as before it. -/
theorem findPaths_preserves_flow (G : Digraph) (st : SState) (a : Nat) :
    flowQ (findPaths G st) a = flowQ st a := rfl

/-- C10: the potential of the target node is never modified: after
`init(s)` and any number `j` of augmentation iterations of
`findFlow(t, k)`, `potential(t) = 0`. -/
theorem potential_target_eq_zero (G : Digraph) (st : SState) (s t : Nat) (j : Nat) :
    potentialQ (findFlowLoop G j { init st s with target := t, pathNum := 0 }) t = 0 := by
  have h := findFlowLoop_pot_target G j { init st s with target := t, pathNum := 0 }
  exact h.1

/-- C6 counterexample: on the one-node digraph with `s = t = 0` and
`k = 2`, `run` returns `path_num = 2`, not `0` as the claim states. -/
theorem run_source_eq_target_cex :
    (run exOneNode emptyState 0 0 2).1 = 2 ∧ ((2 : Int) ≠ 0) := by
  constructor
  · rfl
  · decide

/-- C6 amended: for every graph and every `k ≥ 0`, calling `run(s, t, k)`
with `s = t` (a valid node) yields `path_num = k`: every search succeeds
immediately and augments along the empty path. -/
theorem run_source_eq_target (G : Digraph) (st : SState) (s : Nat) (k : Int)
    (hs : s < G.numNodes) (hk : 0 ≤ k) :
    (run G st s s k).1 = k := by
  show (findPaths G (findFlow G (init st s) s k)).pathNum = k
  show (findFlow G (init st s) s k).pathNum = k
  unfold findFlow
  rw [findFlowLoop_self G k.toNat _ rfl hs]
  simp [Int.toNat_of_nonneg hk]

/-- Witness for `run_source_eq_target` at the one-node digraph, `k = 2`. -/
theorem run_source_eq_target_witness :
    (0 < exOneNode.numNodes ∧ (0 : Int) ≤ 2) ∧
      (run exOneNode emptyState 0 0 2).1 = 2 :=
  ⟨⟨by decide, by decide⟩,
    run_source_eq_target exOneNode emptyState 0 2 (by decide) (by decide)⟩

/-- C7 counterexample: on the digraph with a single arc `0 → 1` of length
5, the potential of node 0 is initialized to 0 by `init` and equals `-5`
after `run(0, 1, 2)`: it strictly decreased, refuting monotone increase. -/
theorem potential_monotone_cex :
    potentialQ (init emptyState 0) 0 = 0 ∧
    potentialQ (run exOneArc emptyState 0 1 2).2 0 = -5 ∧
    ((-5 : Int) < 0) := by
  refine ⟨rfl, rfl, by decide⟩

/-- C4 counterexample: on the one-node digraph with `s = t = 0`, after the
full `findFlow(0, 1)` loop `path_num = 1` while the net flow out of the
source is `0`, refuting `net flow out of s = path_num`. -/
theorem flow_value_cex :
    (findFlow exOneNode (init emptyState 0) 0 1).pathNum = 1 ∧
    excess exOneNode (findFlow exOneNode (init emptyState 0) 0 1).flow 0 = 0 ∧
    ¬((0 : Int) = 1) := by
  refine ⟨rfl, rfl, by decide⟩

/-- C5: the residual shortest-path engine returns `true` if and only if
the target is reachable from the source in the current residual graph,
and when it returns `false` the potential map is completely unchanged. -/
theorem dijkRun_reachability (G : Digraph) (flow pot : Nat → Int)
    (pred0 : Nat → Option Nat) (dist0 : Nat → Int) (s t : Nat)
    (hWF : WF G) (hs : s < G.numNodes) :
    ((dijkRun G flow pot pred0 dist0 s t).found = true ↔ ResReachable G flow s t) ∧
    ((dijkRun G flow pot pred0 dist0 s t).found = false →
      (dijkRun G flow pot pred0 dist0 s t).pot = pot) := by
  have inv : DInv G flow s
      (dijkLoop G flow pot t (G.numNodes + 1) (dijkInit s pred0 dist0)) :=
    dijkLoop_DInv hWF _ _ (dijkInit_DInv hs pred0 dist0)
  constructor
  · constructor
    · intro hfound
      obtain ⟨p, htop⟩ := dijkRun_found_top hWF hs hfound
      have hRinv : RInv G flow s
          (dijkLoop G flow pot t (G.numNodes + 1) (dijkInit s pred0 dist0)).hmap :=
        dijkLoop_RInv _ _ (dijkInit_RInv pred0 dist0)
      apply hRinv t
      rw [(heapTop_mem htop).2]
      intro h; cases h
    · intro hreach
      unfold dijkRun dijkRunPost
      rcases htop : heapTop G.numNodes
          (dijkLoop G flow pot t (G.numNodes + 1) (dijkInit s pred0 dist0)).hmap
          with _ | ⟨u, p⟩
      · exfalso
        have hC : CInv G flow
            (dijkLoop G flow pot t (G.numNodes + 1) (dijkInit s pred0 dist0)) :=
          dijkLoop_CInv _ _ (fun u hu => absurd hu (List.not_mem_nil u))
        have hall : ∀ v, (dijkLoop G flow pot t (G.numNodes + 1)
            (dijkInit s pred0 dist0)).hmap v ≠ HState.pre →
            v ∈ (dijkLoop G flow pot t (G.numNodes + 1)
              (dijkInit s pred0 dist0)).proc := by
          intro v h
          have hlt := inv.bound v h
          rcases hm : (dijkLoop G flow pot t (G.numNodes + 1)
              (dijkInit s pred0 dist0)).hmap v with _ | q | _
          · exact absurd hm h
          · exact absurd hm (heapTop_none htop v q hlt)
          · exact (inv.post_iff v).mp hm
        have hs_npre : (dijkLoop G flow pot t (G.numNodes + 1)
            (dijkInit s pred0 dist0)).hmap s ≠ HState.pre := by
          by_cases hproc : (dijkLoop G flow pot t (G.numNodes + 1)
              (dijkInit s pred0 dist0)).proc = []
          · rw [inv.start hproc]
            simp [upd]
          · rw [(inv.post_iff s).mpr (inv.s_mem hproc)]
            intro h; cases h
        have hstep_npre : ∀ x, ResReachable G flow s x →
            (dijkLoop G flow pot t (G.numNodes + 1)
              (dijkInit s pred0 dist0)).hmap x ≠ HState.pre := by
          intro x hx
          induction hx with
          | refl => exact hs_npre
          | tail hab hbc ih => exact hC _ (hall _ ih) _ hbc
        have := hall t (hstep_npre t hreach)
        exact dijkLoop_target_notmem G flow pot t pred0 dist0 s this
      · rfl
  · intro hfalse
    unfold dijkRun dijkRunPost at hfalse ⊢
    rcases htop : heapTop G.numNodes
        (dijkLoop G flow pot t (G.numNodes + 1) (dijkInit s pred0 dist0)).hmap
        with _ | ⟨u, p⟩
    · rfl
    · rw [htop] at hfalse
      cases hfalse

/-- Witness for `dijkRun_reachability` on the one-arc digraph. -/
theorem dijkRun_reachability_witness :
    (WF exOneArc ∧ 0 < exOneArc.numNodes) ∧
    (((dijkRun exOneArc (fun _ => 0) (fun _ => 0) (fun _ => none) (fun _ => 0)
        0 1).found = true ↔ ResReachable exOneArc (fun _ => 0) 0 1) ∧
     ((dijkRun exOneArc (fun _ => 0) (fun _ => 0) (fun _ => none) (fun _ => 0)
        0 1).found = false →
      (dijkRun exOneArc (fun _ => 0) (fun _ => 0) (fun _ => none) (fun _ => 0)
        0 1).pot = (fun _ => 0))) :=
  ⟨⟨by decide, by decide⟩,
    dijkRun_reachability exOneArc (fun _ => 0) (fun _ => 0) (fun _ => none)
      (fun _ => 0) 0 1 (by decide) (by decide)⟩

/-- C4 amended: after any prefix (`j` iterations) of the `findFlow`
augmentation loop, `f(a) ∈ {0,1}` for every arc and flow is conserved at
every node other than `s` and `t`; provided `s ≠ t`, the net flow out of
`s` and the net flow into `t` both equal `path_num` (for `s = t` both are
0 while `path_num` counts the successful searches). -/
theorem flow_conservation (G : Digraph) (st : SState) (s t : Nat) (j : Nat)
    (hWF : WF G) (hs : s < G.numNodes) :
    ConservationOK G
      (findFlowLoop G j { init st s with target := t, pathNum := 0 }) s t := by
  obtain ⟨⟨h01, hexc⟩, hsrc, htgt⟩ :=
    findFlowLoop_ConsInv hWF j { init st s with target := t, pathNum := 0 }
      hs (ConsInv_start G st s t)
  refine ⟨h01, ?_, ?_⟩
  · intro v hvs hvt
    have h := hexc v
    rw [htgt, hsrc] at h
    show excess G _ v = 0
    rw [h]
    have e1 : ¬(t = v) := fun hh => hvt hh.symm
    have e2 : ¬(s = v) := fun hh => hvs hh.symm
    simp [init, e1, e2]
  · intro hst
    constructor
    · have h := hexc s
      rw [htgt, hsrc] at h
      show excess G _ s = _
      rw [h]
      have e1 : ¬(t = s) := fun hh => hst hh.symm
      simp [init, e1]
    · have h := hexc t
      rw [htgt, hsrc] at h
      show excess G _ t = _
      rw [h]
      simp [init, hst]

/-- Witness for `flow_conservation` on the one-arc digraph after one
iteration. -/
theorem flow_conservation_witness :
    (WF exOneArc ∧ 0 < exOneArc.numNodes) ∧
    ConservationOK exOneArc
      (findFlowLoop exOneArc 1 { init emptyState 0 with target := 1, pathNum := 0 }) 0 1 :=
  ⟨⟨by decide, by decide⟩,
    flow_conservation exOneArc emptyState 0 1 1 (by decide) (by decide)⟩

/-- C3 counterexample: on `exStrand` with `run(0, 3, 2)`, arc 2 carries
flow 1 but belongs to none of the returned paths — the multiset union of
the paths' arcs is not the set of arcs with `f(a) = 1` (a stranded
zero-length residual cycle).  Moreover on `exNonSimple` (the same graph
with another arc iteration order) the first returned path `[0, 1, 4, 2]`
traverses two distinct arcs whose target is node 1, so it visits node 1
twice and is not simple. -/
theorem findPaths_multiset_cex :
    ((run exStrand emptyState 0 3 2).2.flow 2 = 1 ∧
     (run exStrand emptyState 0 3 2).2.paths = [[0, 1], [4, 3]] ∧
     (2 : Nat) ∉ ([0, 1] : List Nat) ∧ (2 : Nat) ∉ ([4, 3] : List Nat)) ∧
    ((run exNonSimple emptyState 0 3 2).2.paths = [[0, 1, 4, 2], [3, 5]] ∧
     arcTgt exNonSimple 0 = 1 ∧ arcTgt exNonSimple 4 = 1 ∧ (0 : Nat) ≠ 4) := by
  exact ⟨⟨rfl, rfl, by decide, by decide⟩, ⟨rfl, rfl, rfl, by decide⟩⟩

/-- C3 amended: after `findPaths()` following a run of `findFlow`, the
returned paths are pairwise arc-disjoint (indeed no arc is used twice at
all), every used arc carries flow 1, and each path leads from `s` to `t`;
however the multiset union of the path arcs may be a strict subset of
`{a : f(a) = 1}` (zero-length residual cycles can stay behind) and the
paths need not be simple. -/
theorem findPaths_spec (G : Digraph) (st : SState) (s t : Nat) (k : Int)
    (hWF : WF G) (hs : s < G.numNodes) :
    PathsOK G (findPaths G (findFlow G (init st s) t k)) s t := by
  have hff : findFlow G (init st s) t k =
      findFlowLoop G k.toNat { init st s with target := t, pathNum := 0 } := rfl
  rw [hff]
  set stF := findFlowLoop G k.toNat { init st s with target := t, pathNum := 0 }
    with hstF
  obtain ⟨hsrc0, htgt0, hpn0, _⟩ := findFlowLoop_fields G k.toNat
    { init st s with target := t, pathNum := 0 }
  have hsrc : stF.source = s := hsrc0
  have htgt : stF.target = t := htgt0
  have hnn : (0 : Int) ≤ stF.pathNum := hpn0
  obtain ⟨⟨h01, hexc⟩, _, _⟩ := findFlowLoop_ConsInv hWF k.toNat
    { init st s with target := t, pathNum := 0 } hs (ConsInv_start G st s t)
  have hpaths : (findPaths G stF).paths =
      (extractPaths G s t stF.pathNum.toNat stF.flow).1 := by
    show (extractPaths G stF.source stF.target stF.pathNum.toNat stF.flow).1 = _
    rw [hsrc, htgt]
  have hflow : (findPaths G stF).flow = stF.flow := rfl
  by_cases hst : s = t
  · subst hst
    have hall := extractPaths_self G s stF.pathNum.toNat stF.flow
    refine ⟨?_, ?_, ?_⟩
    · intro p hp
      rw [hpaths] at hp
      rw [hall p hp]
      rfl
    · rw [hpaths]
      rw [List.flatten_eq_nil_iff.mpr hall]
      exact List.nodup_nil
    · intro p hp e hep
      rw [hpaths] at hp
      rw [hall p hp] at hep
      exact absurd hep (List.not_mem_nil e)
  · have hexc' : ∀ v, excess G stF.flow v =
        ((stF.pathNum.toNat : Int)) *
          ((if t = v then 1 else 0) - (if s = v then 1 else 0)) := by
      intro v
      rw [Int.toNat_of_nonneg hnn]
      have h := hexc v
      rw [htgt, hsrc] at h
      exact h
    obtain ⟨hpathsOK, hnd, hused⟩ :=
      extractPaths_spec G s t hst stF.pathNum.toNat stF.flow h01 hexc'
    refine ⟨?_, ?_, ?_⟩
    · intro p hp
      rw [hpaths] at hp
      exact hpathsOK p hp
    · rw [hpaths]
      exact hnd
    · intro p hp e hep
      rw [hpaths] at hp
      rw [show (findPaths G stF).flow e = stF.flow e from rfl]
      exact hused p hp e hep

/-- Witness for `findPaths_spec` on the stranded-cycle digraph. -/
theorem findPaths_spec_witness :
    (WF exStrand ∧ 0 < exStrand.numNodes) ∧
    PathsOK exStrand (findPaths exStrand (findFlow exStrand (init emptyState 0) 3 2)) 0 3 :=
  ⟨⟨by decide, by decide⟩,
    findPaths_spec exStrand emptyState 0 3 2 (by decide) (by decide)⟩

/-- C2: for every arc `a = (u, v)`, after each completed iteration (indeed
after every prefix `j` of iterations) of the `findFlow` augmentation loop,
if `f(a) = 0` then `ℓ(a) + π(u) − π(v) ≥ 0` and if `f(a) = 1` then
`π(v) − π(u) ≥ ℓ(a)`, under the documented preconditions that the graph is
well formed with non-negative lengths and the source is a valid node. -/
theorem reduced_cost_invariant {G : Digraph} (hWF : WF G)
    (hlen : NonnegLengths G) (st : SState) {s : Nat} (hs : s < G.numNodes)
    (t j : Nat) :
    ReducedCostsOK G
      (findFlowLoop G j { init st s with target := t, pathNum := 0 }) := by
  have hs0 : ({ init st s with target := t, pathNum := 0 } : SState).source
      < G.numNodes := hs
  have h01 : ∀ e, ({ init st s with target := t, pathNum := 0 } : SState).flow e = 0 ∨
      ({ init st s with target := t, pathNum := 0 } : SState).flow e = 1 :=
    fun _ => Or.inl rfl
  have hRC : RCnn G ({ init st s with target := t, pathNum := 0 } : SState).flow
      ({ init st s with target := t, pathNum := 0 } : SState).potential :=
    RCnn_start G st s hlen
  obtain ⟨⟨_, _, hRCj⟩, _⟩ := findFlowLoop_RCK hWF j _ hs0 h01 hRC
  intro a ha
  have h := hRCj a ha
  constructor
  · intro hf0
    rw [rcOf_zero hf0] at h
    exact h
  · intro hf1
    rw [rcOf_one hf1] at h
    omega

/-- Witness for `reduced_cost_invariant` on the one-arc digraph after one
iteration of the loop. -/
theorem reduced_cost_invariant_witness :
    (WF exOneArc ∧ NonnegLengths exOneArc ∧ 0 < exOneArc.numNodes) ∧
    ReducedCostsOK exOneArc
      (findFlowLoop exOneArc 1 { init emptyState 0 with target := 1, pathNum := 0 }) :=
  ⟨⟨by decide, by decide, by decide⟩,
    reduced_cost_invariant (by decide) (by decide) emptyState (by decide) 1 1⟩

/-- C7 amended: the potential map is initialized to 0 at `init`, and
thereafter it monotonically decreases, never increases: for every pair of
loop prefixes `j ≤ j'` and every node `v`, the potential of `v` after `j'`
iterations is at most its value after `j` iterations (on a well-formed
graph with non-negative lengths and a valid source). -/
theorem potential_never_increases {G : Digraph} (hWF : WF G)
    (hlen : NonnegLengths G) (st : SState) {s : Nat} (hs : s < G.numNodes)
    (t : Nat) :
    (∀ v, (init st s).potential v = 0) ∧
    ∀ j j', j ≤ j' → ∀ v,
      (findFlowLoop G j' { init st s with target := t, pathNum := 0 }).potential v ≤
      (findFlowLoop G j { init st s with target := t, pathNum := 0 }).potential v := by
  refine ⟨fun _ => rfl, ?_⟩
  intro j j' hjj v
  obtain ⟨d, hd⟩ : ∃ d, j' = j + d := ⟨j' - j, by omega⟩
  subst hd
  rw [findFlowLoop_add]
  have hs0 : ({ init st s with target := t, pathNum := 0 } : SState).source
      < G.numNodes := hs
  have h01 : ∀ e, ({ init st s with target := t, pathNum := 0 } : SState).flow e = 0 ∨
      ({ init st s with target := t, pathNum := 0 } : SState).flow e = 1 :=
    fun _ => Or.inl rfl
  have hRC : RCnn G ({ init st s with target := t, pathNum := 0 } : SState).flow
      ({ init st s with target := t, pathNum := 0 } : SState).potential :=
    RCnn_start G st s hlen
  obtain ⟨⟨hsrcj, h01j, hRCj⟩, _⟩ := findFlowLoop_RCK hWF j _ hs0 h01 hRC
  have hsj : (findFlowLoop G j
      ({ init st s with target := t, pathNum := 0 } : SState)).source
      < G.numNodes := by rw [hsrcj]; exact hs0
  obtain ⟨_, hdec⟩ := findFlowLoop_RCK hWF d _ hsj h01j hRCj
  exact hdec v

/-- Witness for `potential_never_increases` on the one-arc digraph: the
potential of node 0 after two iterations is at most its value after one. -/
theorem potential_never_increases_witness :
    (WF exOneArc ∧ NonnegLengths exOneArc ∧ 0 < exOneArc.numNodes ∧ 1 ≤ 2) ∧
    (findFlowLoop exOneArc 2 { init emptyState 0 with target := 1, pathNum := 0 }).potential 0 ≤
    (findFlowLoop exOneArc 1 { init emptyState 0 with target := 1, pathNum := 0 }).potential 0 :=
  ⟨⟨by decide, by decide, by decide, by decide⟩,
    (potential_never_increases (by decide) (by decide) emptyState (by decide) 1).2
      1 2 (by decide) 0⟩

/-- C1: after `run(s, t, k)` on a well-formed graph with non-negative
lengths and valid end nodes, `totalLength()` returns the sum of
`f(a)·ℓ(a)` over all arcs, this value equals the sum of the lengths of the
returned paths, and it is minimal among all families of `path_num`
arc-disjoint `s → t` paths of the digraph. -/
theorem total_length_optimal {G : Digraph} (hWF : WF G)
    (hlen : NonnegLengths G) (st : SState) {s t : Nat}
    (hs : s < G.numNodes) (ht : t < G.numNodes) (k : Int) :
    totalLength G (run G st s t k).2 =
      ((arcIds G).map (fun e => (run G st s t k).2.flow e * arcLen G e)).sum ∧
    totalLength G (run G st s t k).2 =
      ((run G st s t k).2.paths.map (lenSum G)).sum ∧
    ∀ Q : List (List Nat), (Q.length : Int) = (run G st s t k).1 →
      (∀ q ∈ Q, IsPath G s t q) → Q.flatten.Nodup →
      totalLength G (run G st s t k).2 ≤ (Q.map (lenSum G)).sum := by
  have hs0 : ({ init st s with target := t, pathNum := 0 } : SState).source
      < G.numNodes := hs
  have hsrcF : (findFlowLoop G k.toNat
      { init st s with target := t, pathNum := 0 }).source = s :=
    (findFlowLoop_fields G k.toNat _).1
  have htgtF : (findFlowLoop G k.toNat
      { init st s with target := t, pathNum := 0 }).target = t :=
    (findFlowLoop_fields G k.toNat _).2.1
  have hpn0 : (0 : Int) ≤ (findFlowLoop G k.toNat
      { init st s with target := t, pathNum := 0 }).pathNum :=
    (findFlowLoop_fields G k.toNat _).2.2.1
  have hpathsF : (run G st s t k).2.paths =
      (extractPaths G s t (findFlowLoop G k.toNat
        { init st s with target := t, pathNum := 0 }).pathNum.toNat
        (findFlowLoop G k.toNat
          { init st s with target := t, pathNum := 0 }).flow).1 := by
    show (extractPaths G (findFlowLoop G k.toNat
        { init st s with target := t, pathNum := 0 }).source
      (findFlowLoop G k.toNat
        { init st s with target := t, pathNum := 0 }).target
      (findFlowLoop G k.toNat
        { init st s with target := t, pathNum := 0 }).pathNum.toNat
      (findFlowLoop G k.toNat
        { init st s with target := t, pathNum := 0 }).flow).1 = _
    rw [hsrcF, htgtF]
  by_cases hst : s = t
  · subst hst
    have hflow : (findFlowLoop G k.toNat
        { init st s with target := s, pathNum := 0 }).flow = fun _ => (0 : Int) :=
      findFlowLoop_self_flow G k.toNat _ rfl hs
    have htot : totalLength G (run G st s s k).2 = 0 := by
      show ((arcIds G).map (fun e => (findFlowLoop G k.toNat
        { init st s with target := s, pathNum := 0 }).flow e * arcLen G e)).sum = 0
      rw [hflow]
      have h0 : ∀ e ∈ arcIds G, (fun _ => (0 : Int)) e * arcLen G e = (0 : Int) :=
        fun e _ => by simp
      rw [sum_map_congr h0, sum_map_const]
      ring
    refine ⟨rfl, ?_, ?_⟩
    · rw [htot, hpathsF]
      have hz : ∀ p ∈ (extractPaths G s s (findFlowLoop G k.toNat
          { init st s with target := s, pathNum := 0 }).pathNum.toNat
          (findFlowLoop G k.toNat
            { init st s with target := s, pathNum := 0 }).flow).1,
          lenSum G p = (0 : Int) := by
        intro p hp
        rw [extractPaths_self G s _ _ p hp]
        rfl
      rw [sum_map_congr hz, sum_map_const]
      ring
    · intro Q _ hQp _
      rw [htot]
      apply sum_map_nonneg
      intro q hq
      show (0 : Int) ≤ (q.map (arcLen G)).sum
      apply sum_map_nonneg
      intro e he
      exact arcLen_nonneg hlen (isPath_mem_valid (hQp q hq) e he)
  · have h01s : ∀ e, ({ init st s with target := t, pathNum := 0 } : SState).flow e = 0 ∨
        ({ init st s with target := t, pathNum := 0 } : SState).flow e = 1 :=
      fun _ => Or.inl rfl
    have hRCs : RCnn G ({ init st s with target := t, pathNum := 0 } : SState).flow
        ({ init st s with target := t, pathNum := 0 } : SState).potential :=
      RCnn_start G st s hlen
    obtain ⟨⟨_, h01F, hRCF⟩, _⟩ := findFlowLoop_RCK hWF k.toNat _ hs0 h01s hRCs
    obtain ⟨⟨_, hexcC⟩, _, _⟩ := findFlowLoop_ConsInv hWF k.toNat _ hs0
      (ConsInv_start G st s t)
    have hexcF : ∀ v, excess G (findFlowLoop G k.toNat
        { init st s with target := t, pathNum := 0 }).flow v =
        (findFlowLoop G k.toNat
          { init st s with target := t, pathNum := 0 }).pathNum *
        ((if t = v then 1 else 0) - (if s = v then 1 else 0)) := by
      intro v
      have h := hexcC v
      rw [htgtF, hsrcF] at h
      exact h
    have hcastF : (((findFlowLoop G k.toNat
        { init st s with target := t, pathNum := 0 }).pathNum.toNat : Nat) : Int) =
        (findFlowLoop G k.toNat
          { init st s with target := t, pathNum := 0 }).pathNum :=
      Int.toNat_of_nonneg hpn0
    have hexc2 : ∀ v, excess G (findFlowLoop G k.toNat
        { init st s with target := t, pathNum := 0 }).flow v =
        (((findFlowLoop G k.toNat
          { init st s with target := t, pathNum := 0 }).pathNum.toNat : Nat) : Int) *
        ((if t = v then 1 else 0) - (if s = v then 1 else 0)) := by
      intro v
      rw [hcastF]
      exact hexcF v
    obtain ⟨hPpath, hPnd, hPflow⟩ := extractPaths_spec G s t hst
      (findFlowLoop G k.toNat
        { init st s with target := t, pathNum := 0 }).pathNum.toNat
      (findFlowLoop G k.toNat
        { init st s with target := t, pathNum := 0 }).flow h01F hexc2
    have hPlen : (((extractPaths G s t (findFlowLoop G k.toNat
        { init st s with target := t, pathNum := 0 }).pathNum.toNat
        (findFlowLoop G k.toNat
          { init st s with target := t, pathNum := 0 }).flow).1.length : Nat) : Int) =
        (findFlowLoop G k.toNat
          { init st s with target := t, pathNum := 0 }).pathNum := by
      rw [extractPaths_length]
      exact hcastF
    have heq := support_cost_eq hWF hlen hs ht h01F hRCF hexcF hPpath hPnd hPflow hPlen
    refine ⟨rfl, ?_, ?_⟩
    · rw [hpathsF]
      exact heq
    · intro Q hQl hQp hQnd
      have hQl2 : ((Q.length : Nat) : Int) = (findFlowLoop G k.toNat
          { init st s with target := t, pathNum := 0 }).pathNum := hQl
      exact support_cost_le hWF hs ht h01F hRCF hexcF hQp hQnd hQl2

/-- Witness for `total_length_optimal` on the stranding example
`run(0, 3, 2)`: the total length `10` equals the sum of the returned path
lengths, and the concrete competitor family `[[0,1],[4,3]]` of two
arc-disjoint `0 → 3` paths is no cheaper. -/
theorem total_length_optimal_witness :
    (WF exStrand ∧ NonnegLengths exStrand ∧ 0 < exStrand.numNodes ∧
      3 < exStrand.numNodes) ∧
    totalLength exStrand (run exStrand emptyState 0 3 2).2 =
      ((run exStrand emptyState 0 3 2).2.paths.map (lenSum exStrand)).sum ∧
    totalLength exStrand (run exStrand emptyState 0 3 2).2 ≤
      ([[0, 1], [4, 3]].map (lenSum exStrand)).sum :=
  ⟨⟨by decide, by decide, by decide, by decide⟩,
    (total_length_optimal (by decide) (by decide) emptyState (by decide)
      (by decide) 2).2.1,
    (total_length_optimal (by decide) (by decide) emptyState (by decide)
      (by decide) 2).2.2 [[0, 1], [4, 3]] (by rfl) (by decide) (by decide)⟩

end Suurballe
